import Mathlib

/-!
# focus-ping: the time-slot timeline of `App.js`

A shallow embedding of the timeline logic of `src/App.js` (slot generation, slot
classification, activity recording, summary) and theorems about it.

Conventions of the embedding:

* an instant (`Date`) is its time value, an `Int` number of milliseconds since the epoch;
* the device clock and the device time zone are explicit parameters; every `new Date()`
  that a call evaluates is a clock reading of its own (`now`, `endNow`, `midnightNow`,
  `dateNow`), so readings on either side of a local midnight are covered;
* React state is passed explicitly (`AppState`); dialogs (`Alert.alert`), logging and the
  fire-and-forget `saveData` call are not part of the state.
-/

namespace FocusPing

/-! ## Constants -/

/-- Source: `const INTERVAL_MINUTES = 15`. -/
def INTERVAL_MINUTES : Int := 15

/-- Milliseconds of one slot, `INTERVAL_MINUTES * 60 * 1000` in the source. -/
def slotMs : Int := INTERVAL_MINUTES * 60 * 1000

/-- Milliseconds per calendar day of the ECMAScript time scale (`msPerDay`). -/
def msPerDay : Int := 86400000

/-! ## Data model -/

/-- One element of `timeSlots`: `{ time, activity, isAuto }`.
`activity` is `null` (`none`) or a string; `time` is a `Date`. -/
structure TimeSlot where
  time : Int
  activity : Option String
  isAuto : Bool
  deriving DecidableEq, Repr

/-- The device time zone, as the two offsets ECMAScript uses (`LocalTZA`):
`utcOffset t` is the offset (ms) of local time at the UTC instant `t`, and
`localOffset t` is the offset (ms) used to turn the local time value `t` into UTC. -/
structure TimeZone where
  utcOffset : Int → Int
  localOffset : Int → Int

/-- A zone with a constant offset from UTC (no daylight saving). -/
def TimeZone.fixed (offset : Int) : TimeZone :=
  { utcOffset := fun _ => offset, localOffset := fun _ => offset }

/-- US Eastern time with its 2024 rules: UTC-5, and UTC-4 from 2024-03-10 07:00Z
until 2024-11-03 06:00Z. A local time skipped or repeated by a transition takes
the offset in force before the transition. -/
def easternTime : TimeZone :=
  { utcOffset := fun t =>
      if 1710054000000 ≤ t ∧ t < 1730613600000 then -14400000 else -18000000
    localOffset := fun t =>
      if 1710039600000 ≤ t ∧ t < 1730599200000 then -14400000 else -18000000 }

/-! ## Day boundaries and slot generation -/

/-- Source: `getMidnightToday`, i.e.
`new Date(now.getFullYear(), now.getMonth(), now.getDate(), 0, 0, 0, 0)`.
The getters read the local time `now + utcOffset now`; year, month and date name
its day number, so the constructor builds the local time value `day * msPerDay`
and converts it to UTC. (Years 0 to 99, which the constructor re-bases to
1900 to 1999, lie outside this model.) -/
def getMidnightToday (tz : TimeZone) (now : Int) : Int :=
  let localNow := now + tz.utcOffset now
  let day := localNow / msPerDay
  let localMidnight := day * msPerDay
  localMidnight - tz.localOffset localMidnight

/-- Source: `getMidnightTomorrow`: `midnight.setDate(midnight.getDate() + 1)` on the
result of `getMidnightToday`. `setDate` keeps the local time within the day and
moves the local day number forward by one, then converts back to UTC. -/
def getMidnightTomorrow (tz : TimeZone) (now : Int) : Int :=
  let midnight := getMidnightToday tz now
  let localT := midnight + tz.utcOffset midnight
  let newDate := (localT / msPerDay + 1) * msPerDay + localT % msPerDay
  newDate - tz.localOffset newDate

/-- The `while (current < endTime)` loop of `generateTimeSlots`: the slots pushed
from `current` on, one every `slotMs`. -/
def generateLoop (endTime : Int) (current : Int) : List TimeSlot :=
  if current < endTime then
    { time := current, activity := none, isAuto := false } ::
      generateLoop endTime (current + slotMs)
  else
    []
termination_by (endTime - current).toNat
decreasing_by
  simp only [slotMs, INTERVAL_MINUTES]
  omega

/-- Source: `generateTimeSlots`. The call reads the clock twice: `now` is the
reading inside `getMidnightToday()`, which gives `startTime`, and `endNow` the
later reading inside `getMidnightTomorrow()`, which gives `endTime`. -/
def generateTimeSlots (tz : TimeZone) (now endNow : Int) : List TimeSlot :=
  let startTime := getMidnightToday tz now
  let endTime := getMidnightTomorrow tz endNow
  generateLoop endTime startTime

/-- Source: `getCurrentSlotIndex`. The call reads the clock twice: `now` is the
reading of its own `new Date()` and `midnightNow` the later reading inside
`getMidnightToday()`. Both `Math.floor` quotients are floor divisions of
integers (`/` on `Int` rounds down for a positive divisor). -/
def getCurrentSlotIndex (tz : TimeZone) (now midnightNow : Int) : Int :=
  let midnight := getMidnightToday tz midnightNow
  let minutesSinceMidnight := (now - midnight) / (60 * 1000)
  let slotIndex := minutesSinceMidnight / INTERVAL_MINUTES
  slotIndex

/-! ## Slot classification -/

/-- The four results of `getSlotStatus`. -/
inductive SlotStatus where
  | future
  | current
  | filled
  | empty
  deriving DecidableEq, Repr

/-- JavaScript truthiness of an `activity` value: `null` and the empty string
are falsy, every other string is truthy. -/
def truthy (activity : Option String) : Bool :=
  match activity with
  | none => false
  | some s => s != ""

/-- Source: `getSlotStatus(slot, index)` at clock reading `now`
(the `index` argument is unused in the source). -/
def getSlotStatus (slot : TimeSlot) (now : Int) : SlotStatus :=
  let slotTime := slot.time
  let slotEndTime := slotTime + slotMs
  if slotTime > now then
    .future
  else if now ≥ slotTime ∧ now < slotEndTime then
    .current
  else if truthy slot.activity then
    .filled
  else
    .empty

/-- Position of a status in the order future, current, then filled or empty. -/
def SlotStatus.rank : SlotStatus → Nat
  | .future => 0
  | .current => 1
  | .filled => 2
  | .empty => 2

/-- The condition under which each state applies to a slot at the instant `now`:
future when the slot starts after `now`, current when `now` falls in the slot's
15 minutes, and for a slot wholly in the past filled when its activity is a
non-empty string and empty otherwise. -/
def statusCondition (st : SlotStatus) (slot : TimeSlot) (now : Int) : Prop :=
  match st with
  | .future => slot.time > now
  | .current => slot.time ≤ now ∧ now < slot.time + 15 * 60 * 1000
  | .filled => slot.time + 15 * 60 * 1000 ≤ now ∧ slot.activity ≠ none ∧ slot.activity ≠ some ""
  | .empty => slot.time + 15 * 60 * 1000 ≤ now ∧ (slot.activity = none ∨ slot.activity = some "")

/-! ## Recording an activity -/

/-- The array `updatedSlots` that `updateSlotActivity` builds from a timeline and
hands to `setTimeSlots`: either a timeline again, or, after a write at or past
the end, the old slots followed by `holes` empty positions and one object
`{ activity, isAuto }` that has no `time`. -/
inductive SlotArray where
  | timeline (slots : List TimeSlot)
  | extended (slots : List TimeSlot) (holes : Nat) (activity : String) (isAuto : Bool)
  deriving DecidableEq, Repr

/-- The `length` of the array. -/
def SlotArray.length : SlotArray → Nat
  | .timeline slots => slots.length
  | .extended slots holes _ _ => slots.length + holes + 1

/-- The array as a timeline, when every element is a complete slot. -/
def SlotArray.toTimeline? : SlotArray → Option (List TimeSlot)
  | .timeline slots => some slots
  | .extended _ _ _ _ => none

/-- Source: `updateSlotActivity(slotIndex, activity, isAuto)` on the timeline
`timeSlots`: the array `updatedSlots` passed to `setTimeSlots` and `saveData`.
The source has no range check and no `throw`. A negative index names a property
that is not an element, so the elements stay as they are; an index at or past
the end spreads `undefined` and grows the array. -/
def updateSlotActivity (timeSlots : List TimeSlot) (slotIndex : Int) (activity : String)
    (isAuto : Bool) : SlotArray :=
  let updatedSlots := timeSlots
  if slotIndex < 0 then
    .timeline updatedSlots
  else if h : slotIndex.toNat < updatedSlots.length then
    .timeline (updatedSlots.set slotIndex.toNat
      { updatedSlots[slotIndex.toNat] with activity := some activity, isAuto := isAuto })
  else
    .extended updatedSlots (slotIndex.toNat - updatedSlots.length) activity isAuto

/-- ECMAScript `WhiteSpace` and `LineTerminator` code points, the characters
`String.prototype.trim` removes. -/
def isJsWhitespace (c : Char) : Bool :=
  let n := c.toNat
  n = 0x09 || n = 0x0A || n = 0x0B || n = 0x0C || n = 0x0D || n = 0x20 || n = 0xA0 ||
    n = 0x1680 || (0x2000 ≤ n && n ≤ 0x200A) || n = 0x2028 || n = 0x2029 || n = 0x202F ||
    n = 0x205F || n = 0x3000 || n = 0xFEFF

/-- JavaScript `String.prototype.trim`. -/
def jsTrim (s : String) : String :=
  String.mk ((s.data.dropWhile isJsWhitespace).rdropWhile isJsWhitespace)

/-- The text is empty or consists only of characters that `trim` removes. -/
def isBlank (s : String) : Prop :=
  ∀ c ∈ s.data, isJsWhitespace c = true

instance (s : String) : Decidable (isBlank s) := by
  unfold isBlank
  infer_instance

/-- The React state of `App`: one field per `useState`. Instants (`trackingDate`
is an ISO string of one) are time values. -/
structure AppState where
  hasSeenOnboarding : Bool
  showAbout : Bool
  isTracking : Bool
  isSleepMode : Bool
  showPrompt : Bool
  currentActivity : String
  timeSlots : List TimeSlot
  showSummary : Bool
  editingSlot : Option Int
  currentSlotIndex : Option Int
  showSuggestions : Bool
  filteredActivities : List String
  trackingDate : Option Int
  deriving DecidableEq, Repr

/-- Source: `submitActivity`. The result is the next state; it is `none` only when
the array stored by `updateSlotActivity` is no longer a timeline of complete slots
(a write at or past the end), which this state model does not follow further.
The blank case shows the alert and returns without any state update. -/
def submitActivity (s : AppState) : Option AppState :=
  let activity := jsTrim s.currentActivity
  if activity = "" then
    some s
  else
    let written : Option (List TimeSlot) :=
      match s.editingSlot with
      | some slotIndex => (updateSlotActivity s.timeSlots slotIndex activity false).toTimeline?
      | none => some s.timeSlots
    written.map (fun slots =>
      { s with
        timeSlots := slots
        currentActivity := ""
        showPrompt := false
        editingSlot := none
        showSuggestions := false })

/-- The state after the first render: the initial value of every `useState`. -/
def initialState : AppState :=
  { hasSeenOnboarding := false
    showAbout := false
    isTracking := false
    isSleepMode := false
    showPrompt := false
    currentActivity := ""
    timeSlots := []
    showSummary := false
    editingSlot := none
    currentSlotIndex := none
    showSuggestions := false
    filteredActivities := []
    trackingDate := none }

/-- A sample state: the prompt is open on slot 0 of a one-slot timeline and the
text entered is two spaces and a tab. -/
def blankPromptState : AppState :=
  { initialState with
    timeSlots := [{ time := 0, activity := none, isAuto := false }]
    currentActivity := "  \t"
    showPrompt := true
    editingSlot := some 0 }

/-! ## Summary -/

/-- A value held by a property of the object `activityCounts`: a number, or text
(what `+ 1` yields when the value read was not a number; it is never numeric). -/
inductive CountValue where
  | num (n : Nat)
  | text
  deriving DecidableEq, Repr

/-- The own properties of the plain object `activityCounts`, in creation order. -/
abbrev JsObject := List (String × CountValue)

/-- The property names every plain object inherits from `Object.prototype`. -/
def objectPrototypeKeys : List String :=
  ["constructor", "__proto__", "hasOwnProperty", "isPrototypeOf", "propertyIsEnumerable",
   "toLocaleString", "toString", "valueOf", "__defineGetter__", "__defineSetter__",
   "__lookupGetter__", "__lookupSetter__"]

/-- What reading `obj[name]` finds. -/
inductive PropertyValue where
  | own (v : CountValue)
  | inherited
  | undefined
  deriving DecidableEq, Repr

/-- The value of the own property `name`, if there is one. -/
def ownValue : JsObject → String → Option CountValue
  | [], _ => none
  | (k, v) :: rest, name => if k = name then some v else ownValue rest name

/-- Reading `activityCounts[name]`: the own property, else a member of
`Object.prototype` (a function or object, truthy), else `undefined`. -/
def getProperty (obj : JsObject) (name : String) : PropertyValue :=
  match ownValue obj name with
  | some v => .own v
  | none => if name ∈ objectPrototypeKeys then .inherited else .undefined

/-- The value of `(x || 0) + 1`: a number plus one, and text when `x` is text or an
inherited function or object. -/
def plusOne : PropertyValue → CountValue
  | .own (.num n) => .num (n + 1)
  | .own .text => .text
  | .inherited => .text
  | .undefined => .num 1

/-- Writing an own data property: in place when it exists, else created last. -/
def setOwn : JsObject → String → CountValue → JsObject
  | [], name, v => [(name, v)]
  | (k, w) :: rest, name, v =>
    if k = name then (k, v) :: rest else (k, w) :: setOwn rest name v

/-- The assignment `activityCounts[name] = v` of a number or string `v`: the
inherited setter of `__proto__` ignores such a value, every other name gets an
own property. -/
def setProperty (obj : JsObject) (name : String) (v : CountValue) : JsObject :=
  if name = "__proto__" then obj else setOwn obj name v

/-- The body of the `forEach` in `calculateSummary`:
`activityCounts[activityName] = (activityCounts[activityName] || 0) + 1`. -/
def countActivity (activityCounts : JsObject) (activityName : String) : JsObject :=
  setProperty activityCounts activityName (plusOne (getProperty activityCounts activityName))

/-- The array index a property name denotes, if any: a canonical decimal numeral
(digits only, no leading zero unless it is "0") below `2 ^ 32 - 1`. -/
def arrayIndex? (key : String) : Option Nat :=
  let digits := key.data
  if digits ≠ [] ∧ digits.all Char.isDigit = true ∧ (digits.length = 1 ∨ digits.head? ≠ some '0') then
    let n := digits.foldl (fun acc c => acc * 10 + (c.toNat - 48)) 0
    if n < 2 ^ 32 - 1 then some n else none
  else
    none

/-- `Object.entries`: the properties named by array indices first, in ascending
numeric order, then the others in creation order. -/
def objectEntries (obj : JsObject) : List (String × CountValue) :=
  let indexed := obj.filterMap (fun kv => (arrayIndex? kv.1).map (fun i => (i, kv)))
  let others := obj.filter (fun kv => (arrayIndex? kv.1).isNone)
  (indexed.insertionSort (fun a b => a.1 ≤ b.1)).map (fun ikv => ikv.2) ++ others

/-- A positive finite double, `m * 2 ^ e`. -/
structure Dyadic where
  m : Nat
  e : Int
  deriving DecidableEq, Repr

/-- Number of binary digits of `n`, computed by halving at most `fuel` times. -/
def bitLengthAux : Nat → Nat → Nat
  | 0, _ => 0
  | fuel + 1, n => if n = 0 then 0 else bitLengthAux fuel (n / 2) + 1

/-- Number of binary digits of `n` (`0` for `0`). -/
def bitLength (n : Nat) : Nat :=
  bitLengthAux n n

/-- Rounding of `n * 2 ^ e` (plus a positive part below `2 ^ e` when `sticky`) to
53 significant bits, ties to even: the rounding of every double operation. -/
def roundSig (n : Nat) (e : Int) (sticky : Bool) : Dyadic :=
  let bits := bitLength n
  if bits ≤ 53 then
    { m := n, e := e }
  else
    let shift := bits - 53
    let q := n / 2 ^ shift
    let r := n % 2 ^ shift
    let half := 2 ^ (shift - 1)
    let up : Bool := decide (half < r) || (decide (r = half) && (sticky || decide (q % 2 = 1)))
    { m := if up then q + 1 else q, e := e + shift }

/-- The double `count / total` of two positive integers. -/
def divDouble (count total : Nat) : Dyadic :=
  let scale := bitLength total + 64
  roundSig (count * 2 ^ scale / total) (-(scale : Int)) (decide (count * 2 ^ scale % total ≠ 0))

/-- The double `x * 100`. -/
def mul100 (x : Dyadic) : Dyadic :=
  roundSig (x.m * 100) x.e false

/-- `x.toFixed(1)`: the integer `n` nearest to `10 * x` (the larger one on a tie),
written with one digit after the point. -/
def toFixed1 (x : Dyadic) : String :=
  let n : Nat :=
    if 0 ≤ x.e then x.m * 2 ^ x.e.toNat * 10
    else (x.m * 20 + 2 ^ (-x.e).toNat) / 2 ^ ((-x.e).toNat + 1)
  toString (n / 10) ++ "." ++ toString (n % 10)

/-- The `percentage` field: the string from `toFixed(1)`, or the number `0`. -/
inductive Percentage where
  | fixed (text : String)
  | zero
  deriving DecidableEq, Repr

/-- One element of the array `calculateSummary` returns. `minutes` is `none` when
the product is `NaN`. -/
structure SummaryEntry where
  activity : String
  count : CountValue
  percentage : Percentage
  minutes : Option Int
  deriving DecidableEq, Repr

/-- The `percentage` expression: `total > 0 ? ((count / total) * 100).toFixed(1) : 0`. -/
def percentageOf (count : CountValue) (total : Nat) : Percentage :=
  if total > 0 then
    match count with
    | .num n => .fixed (toFixed1 (mul100 (divDouble n total)))
    | .text => .fixed "NaN"
  else
    .zero

/-- The `minutes` expression: `count * INTERVAL_MINUTES`. -/
def minutesOf (count : CountValue) : Option Int :=
  match count with
  | .num n => some ((n : Int) * INTERVAL_MINUTES)
  | .text => none

/-- The callback of the `map` in `calculateSummary`. -/
def summaryEntry (total : Nat) (entry : String × CountValue) : SummaryEntry :=
  { activity := entry.1
    count := entry.2
    percentage := percentageOf entry.2 total
    minutes := minutesOf entry.2 }

/-- The comparator `(a, b) => b.count - a.count`; `none` is `NaN`. -/
def sortCompare (a b : SummaryEntry) : Option Int :=
  match a.count, b.count with
  | .num x, .num y => some ((y : Int) - (x : Int))
  | _, _ => none

/-- Whether the sort may leave `a` before `b`: the comparator is not positive
(`NaN` counts as zero). -/
def sortsBefore (a b : SummaryEntry) : Bool :=
  match sortCompare a b with
  | some d => decide (d ≤ 0)
  | none => true

/-- Source: `calculateSummary`. `Array.prototype.sort` is stable; it is modelled
by a stable insertion sort. (With a `NaN` comparator, that is when a count is
text, the order engines produce is implementation-defined.) -/
def calculateSummary (timeSlots : List TimeSlot) : List SummaryEntry :=
  let filledSlots := timeSlots.filter (fun slot => truthy slot.activity)
  let activityCounts : JsObject :=
    (filledSlots.filterMap (fun slot => slot.activity)).foldl countActivity []
  let total := filledSlots.length
  let summary := (objectEntries activityCounts).map (summaryEntry total)
  summary.insertionSort (fun a b => sortsBefore a b = true)

/-- The number held by the own property `k`, `0` when there is none. -/
def countOf (obj : JsObject) (k : String) : Nat :=
  match ownValue obj k with
  | some (.num n) => n
  | _ => 0

/-- Every own property holds a positive number and no name occurs twice. -/
def CountsOk (obj : JsObject) : Prop :=
  (obj.map Prod.fst).Nodup ∧ ∀ k v, ownValue obj k = some v → ∃ n, v = .num n ∧ 0 < n

/-- A sample timeline: two slots of sleep, one of email and one without label. -/
def sampleDay : List TimeSlot :=
  [{ time := 0, activity := some "Sleeping", isAuto := true },
   { time := 900000, activity := some "Sleeping", isAuto := true },
   { time := 1800000, activity := some "Email", isAuto := false },
   { time := 2700000, activity := none, isAuto := false }]

/-- A sample timeline of 96 slots: slots 0 to 3 labelled Sleeping, slot 4 labelled
Email, the rest unlabelled. -/
def exampleDay : List TimeSlot :=
  (List.range 96).map (fun (i : Nat) =>
    ({ time := (i : Int) * 900000, activity := if i < 4 then some "Sleeping" else if i = 4 then some "Email" else none, isAuto := false } : TimeSlot))

/-! ## Suggestions -/

/-- The UTF-16 code units of a string, the units JavaScript compares strings by. -/
def utf16 (s : String) : List Nat :=
  s.data.flatMap (fun c =>
    if c.toNat < 0x10000 then [c.toNat]
    else [0xD800 + (c.toNat - 0x10000) / 0x400, 0xDC00 + (c.toNat - 0x10000) % 0x400])

/-- Lexicographic comparison of code unit sequences: `true` when the first is not
greater than the second. -/
def codeUnitsLe : List Nat → List Nat → Bool
  | [], _ => true
  | _ :: _, [] => false
  | a :: as, b :: bs => decide (a < b) || (decide (a = b) && codeUnitsLe as bs)

/-- JavaScript string order (`a <= b`), the order of the default `sort()`. -/
def jsStringLe (a b : String) : Prop :=
  codeUnitsLe (utf16 a) (utf16 b) = true

instance : DecidableRel jsStringLe := fun a b => by
  unfold jsStringLe
  infer_instance

/-- `Set.prototype.add` on a set kept in insertion order. -/
def setAdd (set : List String) (value : String) : List String :=
  if value ∈ set then set else set ++ [value]

/-- The callback of the `forEach` in `getUniqueActivities`. -/
def addActivity (activities : List String) (slot : TimeSlot) : List String :=
  match slot.activity with
  | some label =>
    if truthy (some label) && jsTrim label != "" then setAdd activities (jsTrim label)
    else activities
  | none => activities

/-- Source: `getUniqueActivities`: the set of trimmed labels, as an array in
insertion order, then `sort()` with the default (stable, code unit) order. -/
def getUniqueActivities (timeSlots : List TimeSlot) : List String :=
  let activities := timeSlots.foldl addActivity []
  activities.insertionSort jsStringLe

/-- JavaScript `toLowerCase` restricted to the letters A to Z; it agrees with
`toLowerCase` on every string without other cased characters. -/
def asciiLowerCase (s : String) : String :=
  String.mk (s.data.map Char.toLower)

/-- Source: `filterActivities(searchText)`: the list passed to
`setFilteredActivities`. The platform function `toLowerCase` is a parameter;
`includes` is the test for a contiguous substring. -/
def filterActivities (toLowerCase : String → String) (timeSlots : List TimeSlot)
    (searchText : String) : List String :=
  if searchText = "" ∨ jsTrim searchText = "" then
    getUniqueActivities timeSlots
  else
    let search := jsTrim (toLowerCase searchText)
    let uniqueActivities := getUniqueActivities timeSlots
    uniqueActivities.filter (fun activity => decide (search.data <:+: (toLowerCase activity).data))

/-- A sample timeline with the labels Email, Exercise and Eating. -/
def suggestionDay : List TimeSlot :=
  [{ time := 0, activity := some "Email", isAuto := false },
   { time := 900000, activity := some "Exercise", isAuto := false },
   { time := 1800000, activity := some "Eating", isAuto := false }]

/-- The labels of the filled slots, in timeline order: the names `calculateSummary`
counts. -/
def filledLabels (timeSlots : List TimeSlot) : List String :=
  (timeSlots.filter (fun slot => truthy slot.activity)).filterMap (fun slot => slot.activity)

/-- The distinct labels in the order in which they are first encountered. -/
def encounterOrder (labels : List String) : List String :=
  labels.foldl setAdd []

/-- The order in which `Object.entries` lists property names created in the order
`keys`: array indices first, ascending, then the other names in creation order. -/
def propertyOrder (keys : List String) : List String :=
  let indexed := keys.filterMap (fun k => (arrayIndex? k).map (fun i => (i, k)))
  let others := keys.filter (fun k => (arrayIndex? k).isNone)
  (indexed.insertionSort (fun a b => a.1 ≤ b.1)).map (fun ik => ik.2) ++ others

/-- The count of an entry as a number (`0` for text). -/
def countKey (entry : SummaryEntry) : Nat :=
  match entry.count with
  | .num n => n
  | .text => 0

/-- Descending order of counts. -/
def countGe (a b : SummaryEntry) : Prop :=
  countKey b ≤ countKey a

instance : DecidableRel countGe := fun a b => by
  unfold countGe
  infer_instance

/-- A sample timeline: the label 10 first, then the label 2. -/
def integerLabelDay : List TimeSlot :=
  [{ time := 0, activity := some "10", isAuto := false },
   { time := 900000, activity := some "2", isAuto := false }]

/-- Source: `getFilledSlotsCount`. -/
def getFilledSlotsCount (timeSlots : List TimeSlot) : Nat :=
  (timeSlots.filter (fun slot => truthy slot.activity)).length

/-- The number a list of decimal digit characters denotes. -/
def digitsValue (digits : List Char) : Nat :=
  digits.foldl (fun acc c => acc * 10 + (c.toNat - 48)) 0

/-- The numeric value of a `percentage`, in tenths: the number `0`, or the string
of digits with one digit after the point read as a number; `none` for any
other string (it reads as `NaN`). -/
def percentTenths (p : Percentage) : Option Nat :=
  match p with
  | .zero => some 0
  | .fixed text =>
    match text.data.reverse with
    | d :: '.' :: whole =>
      if d.isDigit ∧ whole ≠ [] ∧ whole.all Char.isDigit = true then
        some (digitsValue (whole.reverse ++ [d]))
      else none
    | _ => none

/-- A sample timeline of 80 filled slots: 23 of reading, 41 of work, 16 of rest. -/
def tieDay : List TimeSlot :=
  (List.range 80).map (fun (i : Nat) =>
    ({ time := (i : Int) * 900000, activity := some (if i < 23 then "Reading" else if i < 64 then "Work" else "Rest"), isAuto := false } : TimeSlot))

/-- A sample timeline of 16 slots with 16 distinct labels. -/
def sixteenDay : List TimeSlot :=
  (List.range 16).map (fun (i : Nat) =>
    ({ time := (i : Int) * 900000, activity := some (String.mk [Char.ofNat (97 + i)]), isAuto := false } : TimeSlot))

/-- The spec's percentage, in tenths: `count / total * 100` rounded to one decimal
place, a half rounding up. -/
def specPercentageTenths (count total : Nat) : Nat :=
  (2000 * count + total) / (2 * total)

/-- The number a count value holds (`0` for text). -/
def CountValue.toNat : CountValue → Nat
  | .num n => n
  | .text => 0

/-! ## Application state transitions -/

/-- One element of the stored `timeSlots` array: `{ time, activity, isAuto }`. -/
structure SavedSlot where
  time : Int
  activity : Option String
  isAuto : Bool
  deriving DecidableEq, Repr

/-- The object `saveData` stores under `STORAGE_KEY`, as `JSON.parse` returns it. -/
structure SavedData where
  isTracking : Bool
  trackingDate : Option Int
  timeSlots : Option (List SavedSlot)
  deriving DecidableEq, Repr

/-- What `loadData` gets from the store: a failure (`getItem` rejects or
`JSON.parse` throws), no item, or the stored object. -/
inductive StorageRead where
  | failed
  | absent
  | found (data : SavedData)
  deriving DecidableEq, Repr

/-- The `slots.map((slot, index) => ...)` of `loadData`: slot `index` takes the
activity and flag of the saved slot `index` when that one has a truthy activity. -/
def mergeSaved : List TimeSlot → List SavedSlot → List TimeSlot
  | [], _ => []
  | slot :: rest, [] => slot :: rest
  | slot :: rest, savedSlot :: more =>
    (if truthy savedSlot.activity then
      { slot with activity := savedSlot.activity, isAuto := savedSlot.isAuto }
    else slot) :: mergeSaved rest more

/-- Source: `loadData`, given what the store returns. The clock readings are those
of the calls whose results are stored: `now` and `endNow` inside
`generateTimeSlots()` (in the `catch` block after a failure), and `dateNow` inside
the `getMidnightToday()` that supplies the tracking date. -/
def loadData (tz : TimeZone) (now endNow dateNow : Int) (read : StorageRead) (s : AppState) :
    AppState :=
  let slots := generateTimeSlots tz now endNow
  match read with
  | .found data =>
    { s with
      isTracking := data.isTracking
      trackingDate := some (data.trackingDate.getD (getMidnightToday tz dateNow))
      timeSlots :=
        match data.timeSlots with
        | some saved => mergeSaved slots saved
        | none => slots }
  | .absent =>
    { s with trackingDate := some (getMidnightToday tz dateNow), timeSlots := slots }
  | .failed =>
    { s with
      timeSlots := generateTimeSlots tz now endNow
      trackingDate := some (getMidnightToday tz dateNow) }

/-- Truthiness of `editingSlot`: `null` and `0` are falsy. -/
def editingTruthy (editingSlot : Option Int) : Bool :=
  match editingSlot with
  | none => false
  | some i => i != 0

/-- The state update of `updateSlotActivity`: `setTimeSlots(updatedSlots)`; `none`
when the array is no longer a timeline of complete slots. -/
def AppState.updateSlotActivity (s : AppState) (slotIndex : Int) (activity : String)
    (isAuto : Bool) : Option AppState :=
  (FocusPing.updateSlotActivity s.timeSlots slotIndex activity isAuto).toTimeline?.map
    (fun slots => { s with timeSlots := slots })

/-- Source: `checkCurrentSlot`, at the clock readings `now` and `midnightNow` of
`getCurrentSlotIndex()`. The result is `none` when
the call does not complete normally in this model: reading `slot.activity` of a
missing element throws, and a write at or past the end leaves the timeline model. -/
def checkCurrentSlot (tz : TimeZone) (now midnightNow : Int) (s : AppState) :
    Option AppState :=
  let slotIndex := getCurrentSlotIndex tz now midnightNow
  let s1 := { s with currentSlotIndex := some slotIndex }
  if slotIndex ≥ 0 ∧ slotIndex < s.timeSlots.length then
    match s.timeSlots[slotIndex.toNat]? with
    | some slot =>
      if !truthy slot.activity then
        if s.isSleepMode then
          s1.updateSlotActivity slotIndex "Sleeping" true
        else if !s.showPrompt && !editingTruthy s.editingSlot then
          some { s1 with editingSlot := some slotIndex, currentActivity := "", showPrompt := true }
        else
          some s1
      else
        some s1
    | none => none
  else
    some s1

/-- Source: the `Reset` handler of `resetDay`; `removed` tells whether the storage
removals succeed (otherwise the handler stops before any state update). The
clock readings are `now` and `endNow` inside `generateTimeSlots()` and `dateNow`
inside the `getMidnightToday()` that gives the tracking date. -/
def resetDay (tz : TimeZone) (now endNow dateNow : Int) (removed : Bool) (s : AppState) :
    AppState :=
  if removed then
    { s with
      timeSlots := generateTimeSlots tz now endNow
      isTracking := false
      showSummary := false
      isSleepMode := false
      editingSlot := none
      currentActivity := ""
      showPrompt := false
      showSuggestions := false
      filteredActivities := []
      currentSlotIndex := none
      trackingDate := some (getMidnightToday tz dateNow) }
  else
    s

/-- Both clock readings of a call of `generateTimeSlots` fall on the same local
day, and that day lasts exactly 24 hours. -/
def fullDay (tz : TimeZone) (now endNow : Int) : Prop :=
  getMidnightToday tz endNow = getMidnightToday tz now ∧
    getMidnightTomorrow tz now - getMidnightToday tz now = msPerDay

instance (tz : TimeZone) (now endNow : Int) : Decidable (fullDay tz now endNow) := by
  unfold fullDay
  infer_instance

/-- Source: `handleSlotPress(index)`, at clock reading `now`. The result is `none`
when `timeSlots[index]` does not exist, where reading its `time` throws. The
future case shows the alert and returns without any state update. -/
def handleSlotPress (now : Int) (index : Int) (s : AppState) : Option AppState :=
  if index < 0 then
    none
  else
    match s.timeSlots[index.toNat]? with
    | none => none
    | some slot =>
      let slotTime := slot.time
      if slotTime > now then
        some s
      else
        let uniqueActivities := getUniqueActivities s.timeSlots
        some { s with
          editingSlot := some index
          currentActivity := slot.activity.getD ""
          showPrompt := true
          filteredActivities := uniqueActivities
          showSuggestions := decide (uniqueActivities.length > 0) }

/-- Source: the callback of `addNotificationResponseReceivedListener`, at the clock
readings `now` and `midnightNow` of `getCurrentSlotIndex()`. The listener is
registered once, in the effect with no dependencies, so `timeSlots` and
`isSleepMode` are those of the state `captured` by that render; the setters act
on the current state `s`. The result is `none` when `timeSlots[slotIndex]` does
not exist, where reading its `activity` throws. -/
def notificationResponse (tz : TimeZone) (now midnightNow : Int) (captured s : AppState) :
    Option AppState :=
  let slotIndex := getCurrentSlotIndex tz now midnightNow
  if slotIndex ≥ 0 ∧ slotIndex < captured.timeSlots.length then
    match captured.timeSlots[slotIndex.toNat]? with
    | none => none
    | some slot =>
      if !truthy slot.activity && !captured.isSleepMode then
        some { s with editingSlot := some slotIndex, currentActivity := "", showPrompt := true }
      else
        some s
  else
    some s

/-- Source: `saveData(slots, tracking, date)`, at clock reading `now`: the object
passed to `JSON.stringify` and stored. Instants (ISO strings) are time values. -/
def saveData (tz : TimeZone) (now : Int) (s : AppState) (slots : List TimeSlot)
    (tracking : Bool) (date : Option Int) : SavedData :=
  { isTracking := tracking
    trackingDate := some (date.getD (s.trackingDate.getD (getMidnightToday tz now)))
    timeSlots := some (slots.map (fun slot =>
      ({ time := slot.time, activity := slot.activity, isAuto := slot.isAuto } : SavedSlot))) }

/-- A sample state: tracking a two-slot timeline whose first slot is unlabelled. -/
def trackingState : AppState :=
  { initialState with
    isTracking := true
    timeSlots := [{ time := 0, activity := none, isAuto := false },
      { time := 900000, activity := none, isAuto := false }] }

/-- A sample full day: the day generated at instant 0 in the UTC zone, with its first
slot filled automatically. -/
def sleepFullDay : List TimeSlot :=
  (generateTimeSlots (TimeZone.fixed 0) 0 0).set 0
    { time := 0, activity := some "Sleeping", isAuto := true }

/-- No slot of the timeline has a blank label (the empty string included). -/
def noBlankLabel (timeSlots : List TimeSlot) : Prop :=
  ∀ slot ∈ timeSlots, ∀ label, slot.activity = some label → ¬ isBlank label

/-- The labels `updateSlotActivity` is called with: `checkCurrentSlot` passes
`Sleeping`, and `submitActivity` passes trimmed text that is not empty. -/
def writtenLabel (activity : String) : Prop :=
  activity = "Sleeping" ∨ (activity ≠ "" ∧ ∃ text : String, activity = jsTrim text)

/-- The states the application reaches from its initial state by `loadData`,
`updateSlotActivity`, `submitActivity`, `checkCurrentSlot` and `resetDay`, and by
any other event, which leaves `timeSlots` as it is. `loadData` and `resetDay` run
at clock readings allowed by `dayOk`. What `loadData` gets from the store is a
failure, nothing, or what `saveData` wrote from the timeline of a state reached
before (`loadSaved`); `updateSlotActivity` gets a label its callers pass. -/
inductive Reachable (dayOk : TimeZone → Int → Int → Prop) : AppState → Prop where
  | initial : Reachable dayOk initialState
  | loadData (tz : TimeZone) (now endNow dateNow : Int) (read : StorageRead) (s : AppState) :
      dayOk tz now endNow → read = .failed ∨ read = .absent → Reachable dayOk s →
        Reachable dayOk (loadData tz now endNow dateNow read s)
  | loadSaved (tz saveTz : TimeZone) (now endNow dateNow saveNow : Int)
      (saving saved s : AppState) (tracking : Bool) (date : Option Int) :
      dayOk tz now endNow → Reachable dayOk saved → Reachable dayOk s →
        Reachable dayOk (FocusPing.loadData tz now endNow dateNow
          (.found (saveData saveTz saveNow saving saved.timeSlots tracking date)) s)
  | updateSlotActivity (s next : AppState) (slotIndex : Int) (activity : String) (isAuto : Bool) :
      writtenLabel activity → Reachable dayOk s →
        s.updateSlotActivity slotIndex activity isAuto = some next → Reachable dayOk next
  | submitActivity (s next : AppState) :
      Reachable dayOk s → submitActivity s = some next → Reachable dayOk next
  | checkCurrentSlot (tz : TimeZone) (now midnightNow : Int) (s next : AppState) :
      Reachable dayOk s → checkCurrentSlot tz now midnightNow s = some next →
        Reachable dayOk next
  | resetDay (tz : TimeZone) (now endNow dateNow : Int) (removed : Bool) (s : AppState) :
      dayOk tz now endNow → Reachable dayOk s →
        Reachable dayOk (resetDay tz now endNow dateNow removed s)
  | other (s next : AppState) :
      Reachable dayOk s → next.timeSlots = s.timeSlots → Reachable dayOk next

/-- The state after `loadData` at instant 0 in the UTC zone with nothing stored. -/
def loadedState : AppState :=
  loadData (TimeZone.fixed 0) 0 0 0 .absent initialState

/-- The loaded state after the automatic fill of its first slot. -/
def sleepLoadedState : AppState :=
  { loadedState with timeSlots := sleepFullDay }

/-- Number of iterations of the generation loop from `current` up to `endTime`. -/
def slotCount (endTime current : Int) : Nat :=
  ((endTime - current + (slotMs - 1)) / slotMs).toNat

/-! ## Theorems -/

theorem generateLoop_eq (endTime : Int) (n : Nat) :
    ∀ current : Int, slotCount endTime current = n →
      generateLoop endTime current =
        (List.range n).map (fun (i : Nat) =>
          ({ time := current + (i : Int) * slotMs, activity := none, isAuto := false } : TimeSlot)) := by
  induction n with
  | zero =>
    intro current h
    rw [generateLoop]
    have : ¬ current < endTime := by
      simp only [slotCount, slotMs, INTERVAL_MINUTES] at h
      omega
    simp [this]
  | succ n ih =>
    intro current h
    rw [generateLoop]
    have hlt : current < endTime := by
      simp only [slotCount, slotMs, INTERVAL_MINUTES] at h
      omega
    have hn : slotCount endTime (current + slotMs) = n := by
      simp only [slotCount, slotMs, INTERVAL_MINUTES] at h ⊢
      omega
    rw [if_pos hlt, ih _ hn, List.range_succ_eq_map, List.map_cons, List.map_map]
    refine congrArg₂ _ (by simp) ?_
    apply List.map_congr_left
    intro i _
    simp only [Function.comp, Nat.cast_succ]
    congr 1
    ring

theorem generateTimeSlots_eq (tz : TimeZone) (now endNow : Int) :
    generateTimeSlots tz now endNow =
      (List.range (slotCount (getMidnightTomorrow tz endNow) (getMidnightToday tz now))).map
        (fun (i : Nat) =>
          ({ time := getMidnightToday tz now + (i : Int) * slotMs, activity := none, isAuto := false } : TimeSlot)) :=
  generateLoop_eq _ _ _ rfl

theorem generateTimeSlots_length (tz : TimeZone) (now endNow : Int) :
    (generateTimeSlots tz now endNow).length =
      slotCount (getMidnightTomorrow tz endNow) (getMidnightToday tz now) := by
  rw [generateTimeSlots_eq, List.length_map, List.length_range]

theorem generateTimeSlots_getElem (tz : TimeZone) (now endNow : Int) (i : Nat)
    (h : i < (generateTimeSlots tz now endNow).length) :
    (generateTimeSlots tz now endNow)[i] =
      { time := getMidnightToday tz now + (i : Int) * slotMs, activity := none, isAuto := false } := by
  have h2 := h
  rw [generateTimeSlots_length] at h2
  have key : (generateTimeSlots tz now endNow)[i]? = some
      { time := getMidnightToday tz now + (i : Int) * slotMs, activity := none, isAuto := false } := by
    rw [generateTimeSlots_eq, List.getElem?_map, List.getElem?_range h2]
    rfl
  rw [List.getElem?_eq_getElem h] at key
  exact Option.some.inj key

/-- In a zone with a constant UTC offset every local day lasts 24 hours. -/
theorem fixed_day_length (offset now : Int) :
    getMidnightTomorrow (TimeZone.fixed offset) now -
      getMidnightToday (TimeZone.fixed offset) now = msPerDay := by
  simp only [getMidnightTomorrow, getMidnightToday, TimeZone.fixed, msPerDay]
  omega

theorem generateTimeSlots_eastern_dst_length_aux :
    (generateTimeSlots easternTime 1710086400000 1710086400000).length = 92 := by
  rw [generateTimeSlots_length]
  decide

theorem getMidnightTomorrow_congr (tz : TimeZone) (now endNow : Int)
    (h : getMidnightToday tz endNow = getMidnightToday tz now) :
    getMidnightTomorrow tz endNow = getMidnightTomorrow tz now := by
  simp only [getMidnightTomorrow, h]

/-- When local midnight passes between the two clock readings of one call, in a
zone where every day lasts 24 hours, `generateTimeSlots` returns the slots of two
days. -/
theorem generateTimeSlots_midnight_between_reads :
    (generateTimeSlots (TimeZone.fixed 0) 86399999 86400000).length = 192 := by
  rw [generateTimeSlots_length]
  decide

/-! ### C1: number of generated slots -/

/-- C1, as stated, fails: on 2024-03-10 at 12:00 in US Eastern time (16:00Z), the day
daylight saving starts and the local day lasts 23 hours, `generateTimeSlots`
returns 92 slots, not 96. -/
theorem generateTimeSlots_eastern_dst_length :
    (generateTimeSlots easternTime 1710086400000 1710086400000).length = 92 := by
  rw [generateTimeSlots_length]
  decide

/-- C1 (amended): when both clock readings of the call fall on the same local day
and that day lasts exactly 24 hours, that is local midnight tomorrow is
86,400,000 ms after local midnight today, `generateTimeSlots` returns exactly 96
slots. -/
theorem generateTimeSlots_length_of_full_day (tz : TimeZone) (now endNow : Int)
    (hsame : getMidnightToday tz endNow = getMidnightToday tz now)
    (h : getMidnightTomorrow tz now - getMidnightToday tz now = msPerDay) :
    (generateTimeSlots tz now endNow).length = 96 := by
  rw [generateTimeSlots_length, getMidnightTomorrow_congr tz now endNow hsame]
  simp only [slotCount, slotMs, INTERVAL_MINUTES, msPerDay] at h ⊢
  omega

/-- Witness for C1 (amended): two readings one millisecond apart at 2024-03-10 16:00Z
in the UTC zone. -/
theorem generateTimeSlots_length_of_full_day_witness :
    getMidnightToday (TimeZone.fixed 0) 1710086400001 =
        getMidnightToday (TimeZone.fixed 0) 1710086400000 ∧
      getMidnightTomorrow (TimeZone.fixed 0) 1710086400000 -
        getMidnightToday (TimeZone.fixed 0) 1710086400000 = msPerDay ∧
      (generateTimeSlots (TimeZone.fixed 0) 1710086400000 1710086400001).length = 96 :=
  ⟨by decide, by decide,
   generateTimeSlots_length_of_full_day (TimeZone.fixed 0) 1710086400000 1710086400001
     (by decide) (by decide)⟩

/-! ### C2: start times of the generated slots -/

/-- C2: slot `i` of `generateTimeSlots` starts at local midnight plus `i` times
15 minutes; so slot 0 starts at local midnight, later slots start strictly later,
and consecutive slots are exactly 15 minutes apart. -/
theorem generateTimeSlots_time (tz : TimeZone) (now endNow : Int) (i : Nat)
    (h : i < (generateTimeSlots tz now endNow).length) :
    (generateTimeSlots tz now endNow)[i].time = getMidnightToday tz now + (i : Int) * (15 * 60 * 1000) ∧
    (i = 0 → (generateTimeSlots tz now endNow)[i].time = getMidnightToday tz now) ∧
    (∀ (j : Nat) (hj : j < (generateTimeSlots tz now endNow).length), i < j →
      (generateTimeSlots tz now endNow)[i].time < (generateTimeSlots tz now endNow)[j].time) ∧
    (∀ (hs : i + 1 < (generateTimeSlots tz now endNow).length),
      (generateTimeSlots tz now endNow)[i + 1].time =
        (generateTimeSlots tz now endNow)[i].time + 15 * 60 * 1000) := by
  refine ⟨?_, ?_, ?_, ?_⟩
  · rw [generateTimeSlots_getElem tz now endNow i h]
    simp [slotMs, INTERVAL_MINUTES]
  · intro h0
    subst h0
    rw [generateTimeSlots_getElem tz now endNow 0 h]
    simp
  · intro j hj hij
    rw [generateTimeSlots_getElem tz now endNow i h, generateTimeSlots_getElem tz now endNow j hj]
    simp only [slotMs, INTERVAL_MINUTES]
    omega
  · intro hs
    rw [generateTimeSlots_getElem tz now endNow i h, generateTimeSlots_getElem tz now endNow (i + 1) hs]
    simp only [slotMs, INTERVAL_MINUTES]
    push_cast
    omega

/-- Witness for C2: slot 5 of the day generated on 2024-03-10 12:00 US Eastern time. -/
theorem generateTimeSlots_time_witness :
    ∃ h : 5 < (generateTimeSlots easternTime 1710086400000 1710086400000).length,
      (generateTimeSlots easternTime 1710086400000 1710086400000)[5].time =
        getMidnightToday easternTime 1710086400000 + ((5 : Nat) : Int) * (15 * 60 * 1000) :=
  ⟨by rw [generateTimeSlots_eastern_dst_length_aux]; decide,
   (generateTimeSlots_time easternTime 1710086400000 1710086400000 5
      (by rw [generateTimeSlots_eastern_dst_length_aux]; decide)).1⟩

/-! ### C3 to C5: slot classification -/

theorem truthy_iff (activity : Option String) :
    truthy activity = true ↔ activity ≠ none ∧ activity ≠ some "" := by
  cases activity with
  | none => simp [truthy]
  | some s => simp [truthy]

/-- C3: `getSlotStatus` returns future exactly when the slot starts after `now`,
and current exactly when `now` lies in the slot's 15 minutes, whatever the
slot's activity. -/
theorem getSlotStatus_future_current (slot : TimeSlot) (now : Int) :
    (getSlotStatus slot now = .future ↔ slot.time > now) ∧
    (getSlotStatus slot now = .current ↔
      slot.time ≤ now ∧ now < slot.time + 15 * 60 * 1000) := by
  simp only [getSlotStatus, slotMs, INTERVAL_MINUTES]
  constructor
  · split_ifs <;> simp_all
  · split_ifs <;> simp_all

/-- For a slot wholly in the past, `getSlotStatus` returns filled exactly when the
activity is neither null nor the empty string, and empty otherwise; and at
every instant exactly one of the four states applies to a slot, the one
`getSlotStatus` returns. -/
theorem getSlotStatus_past (slot : TimeSlot) (now : Int) :
    (slot.time + 15 * 60 * 1000 ≤ now →
      (getSlotStatus slot now = .filled ↔ slot.activity ≠ none ∧ slot.activity ≠ some "") ∧
      (getSlotStatus slot now = .empty ↔ slot.activity = none ∨ slot.activity = some "")) ∧
    (∀ st : SlotStatus, statusCondition st slot now ↔ getSlotStatus slot now = st) ∧
    (∃! st : SlotStatus, statusCondition st slot now) := by
  have hall : ∀ st : SlotStatus, statusCondition st slot now ↔ getSlotStatus slot now = st := by
    intro st
    have ht := truthy_iff slot.activity
    by_cases h1 : slot.time > now
    · have hv : getSlotStatus slot now = .future := by
        simp [getSlotStatus, h1]
      rw [hv]
      cases st <;> simp only [statusCondition, reduceCtorEq, iff_false, iff_true] <;> omega
    · by_cases h2 : now < slot.time + 15 * 60 * 1000
      · have hv : getSlotStatus slot now = .current := by
          simp only [getSlotStatus, slotMs, INTERVAL_MINUTES, if_neg h1]
          rw [if_pos ⟨by omega, h2⟩]
        rw [hv]
        cases st <;> simp only [statusCondition, reduceCtorEq, iff_false, iff_true] <;> omega
      · have hc : ¬ (now ≥ slot.time ∧ now < slot.time + 15 * 60 * 1000) := fun h => h2 h.2
        by_cases h3 : truthy slot.activity = true
        · have hv : getSlotStatus slot now = .filled := by
            simp only [getSlotStatus, slotMs, INTERVAL_MINUTES, if_neg h1, if_neg hc, if_pos h3]
          have hne := ht.1 h3
          rw [hv]
          cases st <;> simp only [statusCondition, reduceCtorEq, iff_false, iff_true]
          · omega
          · omega
          · exact ⟨by omega, hne⟩
          · intro h
            rcases h.2 with h4 | h4
            · exact hne.1 h4
            · exact hne.2 h4
        · have hv : getSlotStatus slot now = .empty := by
            simp only [getSlotStatus, slotMs, INTERVAL_MINUTES, if_neg h1, if_neg hc, if_neg h3]
          rw [hv]
          cases st <;> simp only [statusCondition, reduceCtorEq, iff_false, iff_true]
          · omega
          · omega
          · intro h
            exact h3 (ht.2 h.2)
          · refine ⟨by omega, ?_⟩
            by_contra hcon
            push_neg at hcon
            exact h3 (ht.2 hcon)
  refine ⟨?_, hall, ?_⟩
  · intro hp
    constructor
    · rw [← hall .filled]
      simp only [statusCondition]
      tauto
    · rw [← hall .empty]
      simp only [statusCondition]
      tauto
  · exact ⟨getSlotStatus slot now, (hall _).2 rfl, fun st hst => ((hall st).1 hst).symm⟩

/-- C5: for a slot with a fixed activity, the state at a later instant is never
earlier in the order future, current, filled or empty than the state at an
earlier instant; and once the slot is filled or empty its state no longer changes. -/
theorem getSlotStatus_monotone (slot : TimeSlot) (now1 now2 : Int) (h : now1 ≤ now2) :
    (getSlotStatus slot now1).rank ≤ (getSlotStatus slot now2).rank ∧
    ((getSlotStatus slot now1).rank = 2 → getSlotStatus slot now2 = getSlotStatus slot now1) := by
  simp only [getSlotStatus, slotMs, INTERVAL_MINUTES]
  constructor
  · split_ifs <;> simp [SlotStatus.rank] <;> omega
  · split_ifs <;> simp [SlotStatus.rank] <;> omega

/-- Witness for C5: a slot starting at instant 0, seen after 10 and after 20 minutes. -/
theorem getSlotStatus_monotone_witness :
    (600000 : Int) ≤ 1200000 ∧
      (getSlotStatus { time := 0, activity := none, isAuto := false } 600000).rank ≤
        (getSlotStatus { time := 0, activity := none, isAuto := false } 1200000).rank :=
  ⟨by decide,
   (getSlotStatus_monotone { time := 0, activity := none, isAuto := false } 600000 1200000
      (by decide)).1⟩

/-! ### C6: index of the current slot -/

theorem floor_div_div (x : Int) :
    x / 60000 / 15 = ⌊((x : ℚ) / 900000)⌋ ∧ x / 60000 = ⌊((x : ℚ) / 60000)⌋ := by
  have h1 : ⌊((x : ℚ) / 900000)⌋ = x / ((900000 : ℕ) : ℤ) := by
    have := Rat.floor_intCast_div_natCast x 900000
    simpa using this
  have h2 : ⌊((x : ℚ) / 60000)⌋ = x / ((60000 : ℕ) : ℤ) := by
    have := Rat.floor_intCast_div_natCast x 60000
    simpa using this
  rw [h1, h2]
  constructor
  · push_cast
    omega
  · push_cast
    rfl

/-- C6: `getCurrentSlotIndex` is the floor of a fifteenth of the whole minutes
from midnight to `now`, and equals the single floor of the milliseconds from
midnight to `now` divided by 900000, whatever the sign of the difference; at
00:17 (UTC zone, 1970-01-01) the index is 1. -/
theorem getCurrentSlotIndex_floor :
    (∀ (tz : TimeZone) (now midnightNow : Int),
      getCurrentSlotIndex tz now midnightNow =
          ⌊((⌊(((now - getMidnightToday tz midnightNow : Int) : ℚ) / 60000)⌋ : Int) : ℚ) / 15⌋ ∧
        getCurrentSlotIndex tz now midnightNow =
          ⌊(((now - getMidnightToday tz midnightNow : Int) : ℚ) / 900000)⌋) ∧
    getMidnightToday (TimeZone.fixed 0) (17 * 60 * 1000) = 0 ∧
    getCurrentSlotIndex (TimeZone.fixed 0) (17 * 60 * 1000) (17 * 60 * 1000) = 1 := by
  refine ⟨?_, by decide, by decide⟩
  intro tz now midnightNow
  have h := floor_div_div (now - getMidnightToday tz midnightNow)
  have h15 : ∀ m : Int, ⌊((m : ℚ) / 15)⌋ = m / 15 := by
    intro m
    have := Rat.floor_intCast_div_natCast m 15
    simpa using this
  simp only [getCurrentSlotIndex, INTERVAL_MINUTES]
  refine ⟨?_, ?_⟩
  · rw [h15, ← h.2]
    norm_num
  · rw [← h.1]
    norm_num

/-! ### C7 and C8: `updateSlotActivity` -/

/-- C7, as stated, fails: a write at index 1 into a timeline of one slot raises
no error and does not leave the timeline unchanged; the array stored has two
entries, the second without a start time. -/
theorem updateSlotActivity_past_end_grows :
    updateSlotActivity [{ time := 0, activity := none, isAuto := false }] 1 "Email" false =
        .extended [{ time := 0, activity := none, isAuto := false }] 0 "Email" false ∧
      (updateSlotActivity [{ time := 0, activity := none, isAuto := false }] 1 "Email" false).length
        = 2 := by
  decide

/-- C7 (amended): `updateSlotActivity` checks no range and raises no error. For a
negative index the array it stores has exactly the slots of the timeline; for an
index not less than the length the array keeps those slots and grows to length
`slotIndex + 1`, ending with an entry that holds the activity and flag and no
start time. -/
theorem updateSlotActivity_out_of_range (timeSlots : List TimeSlot) (slotIndex : Int)
    (activity : String) (isAuto : Bool) :
    (slotIndex < 0 →
      updateSlotActivity timeSlots slotIndex activity isAuto = .timeline timeSlots) ∧
    ((timeSlots.length : Int) ≤ slotIndex →
      updateSlotActivity timeSlots slotIndex activity isAuto =
          .extended timeSlots (slotIndex.toNat - timeSlots.length) activity isAuto ∧
        ((updateSlotActivity timeSlots slotIndex activity isAuto).length : Int) = slotIndex + 1) := by
  constructor
  · intro h
    simp [updateSlotActivity, h]
  · intro h
    have h0 : ¬ slotIndex < 0 := by omega
    have h1 : ¬ slotIndex.toNat < timeSlots.length := by omega
    have he : updateSlotActivity timeSlots slotIndex activity isAuto =
        .extended timeSlots (slotIndex.toNat - timeSlots.length) activity isAuto := by
      simp only [updateSlotActivity, if_neg h0, dif_neg h1]
    refine ⟨he, ?_⟩
    rw [he]
    simp only [SlotArray.length]
    omega

/-- Witness for C7 (amended): index -1 and index 3 on a timeline of one slot. -/
theorem updateSlotActivity_out_of_range_witness :
    ((-1 : Int) < 0 ∧
      updateSlotActivity [{ time := 0, activity := none, isAuto := false }] (-1) "Email" false =
        .timeline [{ time := 0, activity := none, isAuto := false }]) ∧
    ((([{ time := 0, activity := none, isAuto := false }] : List TimeSlot).length : Int) ≤ 3 ∧
      ((updateSlotActivity [{ time := 0, activity := none, isAuto := false }] 3 "Email"
        false).length : Int) = 3 + 1) :=
  ⟨⟨by decide,
    (updateSlotActivity_out_of_range [{ time := 0, activity := none, isAuto := false }] (-1)
      "Email" false).1 (by decide)⟩,
   ⟨by decide,
    ((updateSlotActivity_out_of_range [{ time := 0, activity := none, isAuto := false }] 3
      "Email" false).2 (by decide)).2⟩⟩

theorem updateSlotActivity_in_range (timeSlots : List TimeSlot) (slotIndex : Int)
    (activity : String) (isAuto : Bool) (h0 : 0 ≤ slotIndex)
    (h1 : slotIndex.toNat < timeSlots.length) :
    updateSlotActivity timeSlots slotIndex activity isAuto =
      .timeline (timeSlots.set slotIndex.toNat
        { timeSlots[slotIndex.toNat] with activity := some activity, isAuto := isAuto }) := by
  have hn : ¬ slotIndex < 0 := by omega
  simp only [updateSlotActivity, if_neg hn, dif_pos h1]

/-- C8: for an in-range index, writing label `a` and then label `b` at the same
slot stores the same timeline as writing `b` once; the slot then holds exactly
`b` and the second flag. -/
theorem updateSlotActivity_last_write_wins (timeSlots : List TimeSlot) (slotIndex : Int)
    (a b : String) (autoA autoB : Bool) (h0 : 0 ≤ slotIndex)
    (h1 : slotIndex < (timeSlots.length : Int)) :
    ∃ first twice : List TimeSlot,
      updateSlotActivity timeSlots slotIndex a autoA = .timeline first ∧
      updateSlotActivity first slotIndex b autoB = .timeline twice ∧
      updateSlotActivity timeSlots slotIndex b autoB = .timeline twice ∧
      (twice[slotIndex.toNat]?).map (fun slot => (slot.activity, slot.isAuto)) =
        some (some b, autoB) := by
  have hlt : slotIndex.toNat < timeSlots.length := by omega
  have hlt2 : slotIndex.toNat < (timeSlots.set slotIndex.toNat
      { timeSlots[slotIndex.toNat] with activity := some a, isAuto := autoA }).length := by
    rw [List.length_set]; exact hlt
  refine ⟨_, _, updateSlotActivity_in_range timeSlots slotIndex a autoA h0 hlt,
    updateSlotActivity_in_range _ slotIndex b autoB h0 hlt2, ?_, ?_⟩
  · rw [updateSlotActivity_in_range timeSlots slotIndex b autoB h0 hlt]
    simp [List.set_set]
  · simp [List.getElem?_set, hlt]

/-- Witness for C8: two writes at slot 0 of a timeline of one slot. -/
theorem updateSlotActivity_last_write_wins_witness :
    (0 : Int) ≤ 0 ∧
    (0 : Int) < (([{ time := 0, activity := none, isAuto := false }] : List TimeSlot).length : Int) ∧
    ∃ first twice : List TimeSlot,
      updateSlotActivity [{ time := 0, activity := none, isAuto := false }] 0 "Email" true =
        .timeline first ∧
      updateSlotActivity first 0 "Lunch" false = .timeline twice ∧
      updateSlotActivity [{ time := 0, activity := none, isAuto := false }] 0 "Lunch" false =
        .timeline twice ∧
      (twice[(0 : Int).toNat]?).map (fun slot => (slot.activity, slot.isAuto)) =
        some (some "Lunch", false) :=
  ⟨by decide, by decide,
   updateSlotActivity_last_write_wins [{ time := 0, activity := none, isAuto := false }] 0
     "Email" "Lunch" true false (by decide) (by decide)⟩

/-! ### C9: blank entries are rejected -/

theorem jsTrim_blank (s : String) (h : isBlank s) : jsTrim s = "" := by
  have hd : s.data.dropWhile isJsWhitespace = [] := by
    rw [List.dropWhile_eq_nil_iff]
    exact h
  simp only [jsTrim, hd, List.rdropWhile_nil]

/-- C9: when the entered text is empty or only whitespace (the characters `trim`
removes), `submitActivity` changes nothing: the timeline, the slot being edited,
the open prompt and every other part of the state stay as they are. -/
theorem submitActivity_blank (s : AppState) (h : isBlank s.currentActivity) :
    submitActivity s = some s := by
  simp only [submitActivity, jsTrim_blank _ h, if_true]

/-- Witness for C9: a prompt open on slot 0 with two spaces and a tab entered. -/
theorem submitActivity_blank_witness :
    isBlank blankPromptState.currentActivity ∧
      submitActivity blankPromptState = some blankPromptState :=
  ⟨by decide, submitActivity_blank blankPromptState (by decide)⟩

/-! ### C10: entries of the summary -/

theorem ownValue_setOwn (obj : JsObject) (name : String) (v : CountValue) (k : String) :
    ownValue (setOwn obj name v) k = if k = name then some v else ownValue obj k := by
  induction obj with
  | nil =>
    by_cases h : k = name
    · simp [setOwn, ownValue, h]
    · have h2 : ¬ name = k := fun e => h e.symm
      simp [setOwn, ownValue, h, h2]
  | cons kv rest ih =>
    obtain ⟨k0, w⟩ := kv
    by_cases h0 : k0 = name
    · by_cases h : k = name
      · simp [setOwn, ownValue, h0, h]
      · have h2 : ¬ name = k := fun e => h e.symm
        simp [setOwn, ownValue, h0, h, h2]
    · by_cases h : k = name
      · subst h
        simp [setOwn, ownValue, h0, ih]
      · by_cases h3 : k0 = k
        · simp [setOwn, ownValue, h0, h, h3]
        · simp [setOwn, ownValue, h0, h, h3, ih]

theorem ownValue_eq_none_iff (obj : JsObject) (k : String) :
    ownValue obj k = none ↔ k ∉ obj.map Prod.fst := by
  induction obj with
  | nil => simp [ownValue]
  | cons kv rest ih =>
    obtain ⟨k0, w⟩ := kv
    by_cases h : k0 = k
    · simp [ownValue, h]
    · have h2 : ¬ k = k0 := fun e => h e.symm
      simp [ownValue, h, h2, ih]

theorem keys_setOwn (obj : JsObject) (name : String) (v : CountValue) :
    (setOwn obj name v).map Prod.fst =
      if name ∈ obj.map Prod.fst then obj.map Prod.fst else obj.map Prod.fst ++ [name] := by
  induction obj with
  | nil => simp [setOwn]
  | cons kv rest ih =>
    obtain ⟨k0, w⟩ := kv
    by_cases h : k0 = name
    · simp [setOwn, h]
    · have h2 : ¬ name = k0 := fun e => h e.symm
      simp only [setOwn, if_neg h, List.map_cons, ih, List.mem_cons, h2, false_or]
      split_ifs <;> simp

theorem ownValue_of_mem (obj : JsObject) (hnd : (obj.map Prod.fst).Nodup) (k : String)
    (v : CountValue) (hm : (k, v) ∈ obj) : ownValue obj k = some v := by
  induction obj with
  | nil => simp at hm
  | cons kv rest ih =>
    obtain ⟨k0, w⟩ := kv
    simp only [List.map_cons, List.nodup_cons] at hnd
    rcases List.mem_cons.1 hm with h | h
    · cases h
      simp [ownValue]
    · have hk : k ∈ rest.map Prod.fst := List.mem_map.2 ⟨(k, v), h, rfl⟩
      have hne : ¬ k0 = k := by
        intro e
        exact hnd.1 (e ▸ hk)
      simp [ownValue, hne, ih hnd.2 h]

theorem countActivity_eq (obj : JsObject) (name : String) (hp : name ∉ objectPrototypeKeys) :
    countActivity obj name =
      setOwn obj name (match ownValue obj name with
        | some (.num n) => .num (n + 1)
        | some .text => .text
        | none => .num 1) := by
  have hne : name ≠ "__proto__" := by
    intro e
    apply hp
    rw [e]
    decide
  simp only [countActivity, setProperty, if_neg hne, getProperty]
  cases h : ownValue obj name with
  | none => simp [hp, plusOne]
  | some v => cases v <;> simp [plusOne]

theorem countActivity_ok (obj : JsObject) (name : String) (hp : name ∉ objectPrototypeKeys)
    (hok : CountsOk obj) :
    CountsOk (countActivity obj name) ∧
      ∀ k, countOf (countActivity obj name) k = countOf obj k + if k = name then 1 else 0 := by
  rw [countActivity_eq obj name hp]
  refine ⟨⟨?_, ?_⟩, ?_⟩
  · rw [keys_setOwn]
    split_ifs with hm
    · exact hok.1
    · exact List.Nodup.append hok.1 (List.nodup_singleton _) (by simpa using hm)
  · intro k v hv
    rw [ownValue_setOwn] at hv
    split_ifs at hv with hk
    · subst hk
      cases h : ownValue obj k with
      | none =>
        rw [h] at hv
        exact ⟨1, (Option.some.inj hv).symm, by omega⟩
      | some w =>
        rw [h] at hv
        obtain ⟨n, hn, _⟩ := hok.2 k w h
        subst hn
        exact ⟨n + 1, (Option.some.inj hv).symm, by omega⟩
    · exact hok.2 k v hv
  · intro k
    simp only [countOf, ownValue_setOwn]
    split_ifs with hk
    · subst hk
      cases h : ownValue obj k with
      | none => simp
      | some w =>
        obtain ⟨n, hn, _⟩ := hok.2 k w h
        subst hn
        simp
    · simp

theorem foldl_countActivity_ok (labels : List String) :
    ∀ obj : JsObject, (∀ l ∈ labels, l ∉ objectPrototypeKeys) → CountsOk obj →
      CountsOk (labels.foldl countActivity obj) ∧
        ∀ k, countOf (labels.foldl countActivity obj) k = countOf obj k + labels.count k := by
  induction labels with
  | nil =>
    intro obj _ hok
    exact ⟨hok, fun k => by simp⟩
  | cons l rest ih =>
    intro obj hp hok
    have hstep := countActivity_ok obj l (hp l (List.mem_cons_self _ _)) hok
    have hrest := ih (countActivity obj l) (fun x hx => hp x (List.mem_cons_of_mem _ hx)) hstep.1
    refine ⟨hrest.1, fun k => ?_⟩
    rw [List.foldl_cons, hrest.2 k, hstep.2 k, List.count_cons]
    by_cases hk : k = l
    · subst hk
      simp
      omega
    · have hk2 : ¬ l = k := fun e => hk e.symm
      simp [hk, hk2]

theorem countsOk_nil : CountsOk [] := by
  refine ⟨by simp, ?_⟩
  intro k v h
  simp [ownValue] at h

theorem objectEntries_perm (obj : JsObject) : (objectEntries obj).Perm obj := by
  simp only [objectEntries]
  have h1 : ((obj.filterMap (fun kv => (arrayIndex? kv.1).map (fun i => (i, kv)))).map
      (fun ikv => ikv.2)) = obj.filter (fun kv => (arrayIndex? kv.1).isSome) := by
    induction obj with
    | nil => rfl
    | cons kv rest ih =>
      cases h : arrayIndex? kv.1 with
      | none => simp [List.filterMap_cons, List.filter_cons, h, ih]
      | some i => simp [List.filterMap_cons, List.filter_cons, h, ih]
  have h2 : ((obj.filterMap (fun kv => (arrayIndex? kv.1).map (fun i => (i, kv)))).insertionSort
      (fun a b => a.1 ≤ b.1)).map (fun ikv => ikv.2) |>.Perm
        (obj.filter (fun kv => (arrayIndex? kv.1).isSome)) := by
    rw [← h1]
    exact (List.perm_insertionSort _ _).map _
  refine (h2.append_right _).trans ?_
  have h3 : (fun kv : String × CountValue => (arrayIndex? kv.1).isNone) =
      (fun kv => !(arrayIndex? kv.1).isSome) := by
    funext kv
    cases arrayIndex? kv.1 <;> rfl
  rw [h3]
  exact List.filter_append_perm _ _

theorem calculateSummary_perm (timeSlots : List TimeSlot) :
    (calculateSummary timeSlots).Perm
      ((((timeSlots.filter (fun slot => truthy slot.activity)).filterMap
          (fun slot => slot.activity)).foldl countActivity []).map
        (summaryEntry (timeSlots.filter (fun slot => truthy slot.activity)).length)) := by
  simp only [calculateSummary]
  exact (List.perm_insertionSort _ _).trans ((objectEntries_perm _).map _)

theorem truthy_some (label : String) : truthy (some label) = true ↔ label ≠ "" := by
  simp [truthy]

theorem mem_filledLabels (timeSlots : List TimeSlot) (label : String) :
    label ∈ (timeSlots.filter (fun slot => truthy slot.activity)).filterMap
        (fun slot => slot.activity) ↔
      label ≠ "" ∧ ∃ slot ∈ timeSlots, slot.activity = some label := by
  simp only [List.mem_filterMap, List.mem_filter]
  constructor
  · rintro ⟨slot, ⟨hm, ht⟩, hs⟩
    rw [hs] at ht
    exact ⟨(truthy_some label).1 ht, slot, hm, hs⟩
  · rintro ⟨hne, slot, hm, hs⟩
    refine ⟨slot, ⟨hm, ?_⟩, hs⟩
    rw [hs]
    exact (truthy_some label).2 hne

theorem count_filledLabels (timeSlots : List TimeSlot) (label : String) (hne : label ≠ "") :
    ((timeSlots.filter (fun slot => truthy slot.activity)).filterMap
        (fun slot => slot.activity)).count label =
      timeSlots.countP (fun slot => decide (slot.activity = some label)) := by
  induction timeSlots with
  | nil => rfl
  | cons slot rest ih =>
    rw [List.countP_cons, ← ih]
    cases ha : slot.activity with
    | none => simp [List.filter_cons, truthy, ha]
    | some a =>
      by_cases hempty : a = ""
      · have hla : ¬ a = label := fun e => hne (e ▸ hempty)
        simp [List.filter_cons, truthy, ha, hempty, hla, Ne.symm hne]
      · by_cases hla : a = label
        · simp [List.filter_cons, truthy, ha, hempty, hla, List.filterMap_cons, hne]
        · simp [List.filter_cons, truthy, ha, hempty, hla, List.filterMap_cons, List.count_cons]

/-- C10, evaluated: the count of a label that names a member of `Object.prototype`
is text, not a number, and its minutes are no number; a slot labelled `__proto__`
gets no entry at all. -/
theorem calculateSummary_inherited_names :
    calculateSummary [{ time := 0, activity := some "constructor", isAuto := false }] =
        [{ activity := "constructor", count := .text, percentage := .fixed "NaN",
           minutes := none }] ∧
      calculateSummary [{ time := 0, activity := some "__proto__", isAuto := false }] = [] := by
  decide

/-- For a timeline none of whose labels names a member of `Object.prototype`,
`calculateSummary` returns exactly one entry per distinct label that is neither
null nor the empty string, and each entry's count is the number of slots
carrying its label and its minutes are 15 times that count. -/
theorem calculateSummary_entries (timeSlots : List TimeSlot)
    (h : ∀ slot ∈ timeSlots, ∀ label ∈ slot.activity, label ∉ objectPrototypeKeys) :
    ((calculateSummary timeSlots).map (fun entry => entry.activity)).Nodup ∧
    (∀ label, label ∈ (calculateSummary timeSlots).map (fun entry => entry.activity) ↔
      label ≠ "" ∧ ∃ slot ∈ timeSlots, slot.activity = some label) ∧
    (∀ entry ∈ calculateSummary timeSlots,
      entry.count =
          .num (timeSlots.countP (fun slot => decide (slot.activity = some entry.activity))) ∧
        entry.minutes =
          some ((timeSlots.countP
            (fun slot => decide (slot.activity = some entry.activity)) : Int) * 15)) := by
  have hperm := calculateSummary_perm timeSlots
  set labels := (timeSlots.filter (fun slot => truthy slot.activity)).filterMap
    (fun slot => slot.activity) with hlabels
  set total := (timeSlots.filter (fun slot => truthy slot.activity)).length
  have hp : ∀ l ∈ labels, l ∉ objectPrototypeKeys := by
    intro l hl
    obtain ⟨_, slot, hm, hs⟩ := (mem_filledLabels timeSlots l).1 hl
    exact h slot hm l (Option.mem_def.2 hs)
  obtain ⟨hok, hcount⟩ := foldl_countActivity_ok labels [] hp countsOk_nil
  set obj := labels.foldl countActivity [] with hobj
  have hkeys : (obj.map (summaryEntry total)).map (fun entry => entry.activity) =
      obj.map Prod.fst := by
    rw [List.map_map]
    rfl
  have hpermKeys : ((calculateSummary timeSlots).map (fun entry => entry.activity)).Perm
      (obj.map Prod.fst) := by
    rw [← hkeys]
    exact hperm.map _
  have hmemKeys : ∀ k, k ∈ obj.map Prod.fst ↔ k ∈ labels := by
    intro k
    have hc := hcount k
    simp only [countOf, ownValue] at hc
    constructor
    · intro hk
      cases hv : ownValue obj k with
      | none => exact absurd hk ((ownValue_eq_none_iff obj k).1 hv)
      | some v =>
        obtain ⟨n, hn, hpos⟩ := hok.2 k v hv
        subst hn
        simp only [countOf, hv] at hc
        exact List.count_pos_iff.1 (by omega)
    · intro hk
      by_contra hnot
      have hv := (ownValue_eq_none_iff obj k).2 hnot
      simp only [countOf, hv] at hc
      have := List.count_pos_iff.2 hk
      omega
  refine ⟨hpermKeys.nodup_iff.2 hok.1, ?_, ?_⟩
  · intro label
    rw [hpermKeys.mem_iff, hmemKeys, mem_filledLabels]
  · intro entry he
    obtain ⟨kv, hkv, rfl⟩ := List.mem_map.1 (hperm.mem_iff.1 he)
    obtain ⟨k, v⟩ := kv
    have hv := ownValue_of_mem obj hok.1 k v hkv
    obtain ⟨n, hn, _⟩ := hok.2 k v hv
    subst hn
    have hkl : k ∈ labels := (hmemKeys k).1 (List.mem_map.2 ⟨(k, .num n), hkv, rfl⟩)
    have hne : k ≠ "" := ((mem_filledLabels timeSlots k).1 hkl).1
    have hc := hcount k
    simp only [countOf, hv, ownValue] at hc
    rw [count_filledLabels timeSlots k hne] at hc
    rw [Nat.zero_add] at hc
    simp only [summaryEntry, minutesOf, INTERVAL_MINUTES]
    rw [← hc]
    exact ⟨rfl, rfl⟩

/-- The entries of the sample day: two slots of sleep, one of email, one unlabelled. -/
theorem calculateSummary_entries_witness :
    (∀ slot ∈ sampleDay, ∀ label ∈ slot.activity, label ∉ objectPrototypeKeys) ∧
      ∀ entry ∈ calculateSummary sampleDay,
        entry.count =
            .num (sampleDay.countP (fun slot => decide (slot.activity = some entry.activity))) ∧
          entry.minutes =
            some ((sampleDay.countP
              (fun slot => decide (slot.activity = some entry.activity)) : Int) * 15) :=
  ⟨by decide, (calculateSummary_entries sampleDay (by decide)).2.2⟩

/-! ### C14 and C15: empty summary and the worked example -/

theorem filter_truthy_of_none (timeSlots : List TimeSlot)
    (h : ∀ slot ∈ timeSlots, slot.activity = none) :
    timeSlots.filter (fun slot => truthy slot.activity) = [] := by
  rw [List.filter_eq_nil_iff]
  intro slot hs
  simp [h slot hs, truthy]

theorem generateTimeSlots_activity (tz : TimeZone) (now endNow : Int) :
    ∀ slot ∈ generateTimeSlots tz now endNow, slot.activity = none ∧ slot.isAuto = false := by
  intro slot hs
  rw [generateTimeSlots_eq] at hs
  obtain ⟨i, _, rfl⟩ := List.mem_map.1 hs
  exact ⟨rfl, rfl⟩

/-- C14: a timeline in which no slot has an activity has an empty summary; in
particular the summary of a freshly generated day is empty. -/
theorem calculateSummary_no_activity :
    (∀ timeSlots : List TimeSlot, (∀ slot ∈ timeSlots, slot.activity = none) →
      calculateSummary timeSlots = []) ∧
    (∀ (tz : TimeZone) (now endNow : Int),
      calculateSummary (generateTimeSlots tz now endNow) = []) := by
  have h1 : ∀ timeSlots : List TimeSlot, (∀ slot ∈ timeSlots, slot.activity = none) →
      calculateSummary timeSlots = [] := by
    intro timeSlots h
    simp only [calculateSummary, filter_truthy_of_none timeSlots h]
    rfl
  exact ⟨h1, fun tz now endNow =>
    h1 _ (fun slot hs => (generateTimeSlots_activity tz now endNow slot hs).1)⟩

/-- Witness for C14: a timeline of two unlabelled slots. -/
theorem calculateSummary_no_activity_witness :
    (∀ slot ∈ ([{ time := 0, activity := none, isAuto := false },
        { time := 900000, activity := none, isAuto := false }] : List TimeSlot),
        slot.activity = none) ∧
      calculateSummary [{ time := 0, activity := none, isAuto := false },
        { time := 900000, activity := none, isAuto := false }] = [] :=
  ⟨by decide, calculateSummary_no_activity.1 _ (by decide)⟩

theorem filledLabels_eq_of_map (timeSlots : List TimeSlot) :
    (timeSlots.filter (fun slot => truthy slot.activity)).filterMap (fun slot => slot.activity) =
      (timeSlots.map (fun slot => slot.activity)).filterMap
        (fun a => if truthy a then a else none) := by
  induction timeSlots with
  | nil => rfl
  | cons slot rest ih =>
    by_cases h : truthy slot.activity = true
    · cases ha : slot.activity with
      | none => simp [ha, truthy] at h
      | some a =>
        rw [ha] at h
        simp [List.filter_cons, List.filterMap_cons, ha, h, ih]
    · simp [List.filter_cons, List.filterMap_cons, h, ih]

theorem filled_length_eq_of_map (timeSlots : List TimeSlot) :
    (timeSlots.filter (fun slot => truthy slot.activity)).length =
      ((timeSlots.map (fun slot => slot.activity)).filter truthy).length := by
  induction timeSlots with
  | nil => rfl
  | cons slot rest ih =>
    by_cases h : truthy slot.activity = true
    · simp [List.filter_cons, h, ih]
    · simp [List.filter_cons, h, ih]

/-- The summary depends on the activities of the slots only. -/
theorem calculateSummary_congr (a b : List TimeSlot)
    (h : a.map (fun slot => slot.activity) = b.map (fun slot => slot.activity)) :
    calculateSummary a = calculateSummary b := by
  simp only [calculateSummary, filledLabels_eq_of_map, filled_length_eq_of_map, h]

/-- C15: for every timeline of 96 slots in which slots 0 to 3 are labelled
Sleeping, slot 4 is labelled Email and the others are unlabelled, whatever the
start times and whatever the instant, the summary is Sleeping with count 4,
80.0 and 60 minutes, then Email with count 1, 20.0 and 15 minutes. -/
theorem calculateSummary_example (timeSlots : List TimeSlot)
    (h : timeSlots.map (fun slot => slot.activity) =
      List.replicate 4 (some "Sleeping") ++ some "Email" :: List.replicate 91 none) :
    calculateSummary timeSlots =
      [{ activity := "Sleeping", count := .num 4, percentage := .fixed "80.0", minutes := some 60 },
       { activity := "Email", count := .num 1, percentage := .fixed "20.0", minutes := some 15 }] := by
  have he : exampleDay.map (fun slot => slot.activity) =
      List.replicate 4 (some "Sleeping") ++ some "Email" :: List.replicate 91 none := by
    decide
  rw [calculateSummary_congr timeSlots exampleDay (h.trans he.symm)]
  decide

/-- Witness for C15: the sample day. -/
theorem calculateSummary_example_witness :
    exampleDay.map (fun slot => slot.activity) =
        List.replicate 4 (some "Sleeping") ++ some "Email" :: List.replicate 91 none ∧
      calculateSummary exampleDay =
        [{ activity := "Sleeping", count := .num 4, percentage := .fixed "80.0", minutes := some 60 },
         { activity := "Email", count := .num 1, percentage := .fixed "20.0", minutes := some 15 }] :=
  ⟨by decide, calculateSummary_example exampleDay (by decide)⟩

/-! ### C16 to C19: suggestions -/

theorem codeUnitsLe_total : ∀ a b : List Nat, codeUnitsLe a b = true ∨ codeUnitsLe b a = true
  | [], _ => Or.inl rfl
  | _ :: _, [] => Or.inr rfl
  | a :: as, b :: bs => by
    simp only [codeUnitsLe, Bool.or_eq_true, Bool.and_eq_true, decide_eq_true_eq]
    rcases Nat.lt_trichotomy a b with h | h | h
    · exact Or.inl (Or.inl h)
    · rcases codeUnitsLe_total as bs with h2 | h2
      · exact Or.inl (Or.inr ⟨h, h2⟩)
      · exact Or.inr (Or.inr ⟨h.symm, h2⟩)
    · exact Or.inr (Or.inl h)

theorem codeUnitsLe_trans : ∀ a b c : List Nat,
    codeUnitsLe a b = true → codeUnitsLe b c = true → codeUnitsLe a c = true
  | [], _, _ => fun _ _ => rfl
  | _ :: _, [], _ => fun h _ => by simp [codeUnitsLe] at h
  | _ :: _, _ :: _, [] => fun _ h => by simp [codeUnitsLe] at h
  | a :: as, b :: bs, c :: cs => by
    simp only [codeUnitsLe, Bool.or_eq_true, Bool.and_eq_true, decide_eq_true_eq]
    intro h1 h2
    rcases h1 with h1 | ⟨h1, h1r⟩
    · rcases h2 with h2 | ⟨h2, _⟩
      · exact Or.inl (by omega)
      · exact Or.inl (by omega)
    · rcases h2 with h2 | ⟨h2, h2r⟩
      · exact Or.inl (by omega)
      · exact Or.inr ⟨by omega, codeUnitsLe_trans as bs cs h1r h2r⟩

theorem jsStringLe_total (a b : String) : jsStringLe a b ∨ jsStringLe b a :=
  codeUnitsLe_total _ _

theorem jsStringLe_trans (a b c : String) (h1 : jsStringLe a b) (h2 : jsStringLe b c) :
    jsStringLe a c :=
  codeUnitsLe_trans _ _ _ h1 h2

theorem setAdd_nodup (set : List String) (value : String) (h : set.Nodup) :
    (setAdd set value).Nodup := by
  unfold setAdd
  split_ifs with hm
  · exact h
  · exact List.Nodup.append h (List.nodup_singleton _) (by simpa using hm)

theorem mem_setAdd (set : List String) (value s : String) :
    s ∈ setAdd set value ↔ s ∈ set ∨ s = value := by
  unfold setAdd
  split_ifs with hm
  · constructor
    · exact Or.inl
    · rintro (h | h)
      · exact h
      · exact h ▸ hm
  · simp

/-- The condition under which a slot contributes the string `s` to the suggestions. -/
theorem mem_addActivity (activities : List String) (slot : TimeSlot) (s : String) :
    s ∈ addActivity activities slot ↔
      s ∈ activities ∨ (s ≠ "" ∧ ∃ label, slot.activity = some label ∧ jsTrim label = s) := by
  unfold addActivity
  cases ha : slot.activity with
  | none => simp
  | some label =>
    by_cases ht : jsTrim label = ""
    · simp only [ht, bne_self_eq_false, Bool.and_false, Bool.false_eq_true, if_false,
        Option.some.injEq, exists_eq_left']
      constructor
      · exact Or.inl
      · rintro (h | ⟨h1, h2⟩)
        · exact h
        · exact absurd h2.symm h1
    · have hl : label ≠ "" := by
        intro e
        apply ht
        rw [e]
        decide
      have hty : truthy (some label) = true := by simp [truthy, hl]
      simp only [hty, Bool.true_and, bne_iff_ne, ne_eq, ht, not_false_eq_true, if_true,
        mem_setAdd, Option.some.injEq, exists_eq_left']
      constructor
      · rintro (h | h)
        · exact Or.inl h
        · exact Or.inr ⟨h ▸ ht, h.symm⟩
      · rintro (h | ⟨_, h⟩)
        · exact Or.inl h
        · exact Or.inr h.symm

theorem addActivity_nodup (activities : List String) (slot : TimeSlot) (h : activities.Nodup) :
    (addActivity activities slot).Nodup := by
  unfold addActivity
  cases slot.activity with
  | none => exact h
  | some label =>
    simp only
    split_ifs
    · exact setAdd_nodup _ _ h
    · exact h

theorem foldl_addActivity (timeSlots : List TimeSlot) :
    ∀ activities : List String, activities.Nodup →
      (timeSlots.foldl addActivity activities).Nodup ∧
        ∀ s, s ∈ timeSlots.foldl addActivity activities ↔
          s ∈ activities ∨
            (s ≠ "" ∧ ∃ slot ∈ timeSlots, ∃ label, slot.activity = some label ∧ jsTrim label = s) := by
  induction timeSlots with
  | nil =>
    intro activities h
    exact ⟨h, fun s => by simp⟩
  | cons slot rest ih =>
    intro activities h
    obtain ⟨hn, hm⟩ := ih (addActivity activities slot) (addActivity_nodup _ _ h)
    refine ⟨hn, fun s => ?_⟩
    rw [List.foldl_cons, hm s, mem_addActivity]
    constructor
    · rintro ((h1 | ⟨h1, label, h2, h3⟩) | ⟨h1, slot2, h2, h3⟩)
      · exact Or.inl h1
      · exact Or.inr ⟨h1, slot, List.mem_cons_self _ _, label, h2, h3⟩
      · exact Or.inr ⟨h1, slot2, List.mem_cons_of_mem _ h2, h3⟩
    · rintro (h1 | ⟨h1, slot2, h2, h3⟩)
      · exact Or.inl (Or.inl h1)
      · rcases List.mem_cons.1 h2 with e | h2
        · subst e
          exact Or.inl (Or.inr ⟨h1, h3⟩)
        · exact Or.inr ⟨h1, slot2, h2, h3⟩

theorem getUniqueActivities_perm (timeSlots : List TimeSlot) :
    (getUniqueActivities timeSlots).Perm (timeSlots.foldl addActivity []) :=
  List.perm_insertionSort _ _

/-- C16: the list returned by `getUniqueActivities` is sorted in ascending string
order (the code unit order of JavaScript strings) and has no duplicates, so it is
strictly ascending; labels that differ only in letter case stay distinct. -/
theorem getUniqueActivities_sorted :
    (∀ timeSlots : List TimeSlot,
      (getUniqueActivities timeSlots).Sorted jsStringLe ∧
      (getUniqueActivities timeSlots).Nodup ∧
      (getUniqueActivities timeSlots).Pairwise (fun a b => jsStringLe a b ∧ a ≠ b)) ∧
    getUniqueActivities [{ time := 0, activity := some "email", isAuto := false },
        { time := 900000, activity := some "Email", isAuto := false }] = ["Email", "email"] := by
  refine ⟨fun timeSlots => ?_, by decide⟩
  haveI : IsTotal String jsStringLe := ⟨jsStringLe_total⟩
  haveI : IsTrans String jsStringLe := ⟨jsStringLe_trans⟩
  have hs : (getUniqueActivities timeSlots).Sorted jsStringLe :=
    List.sorted_insertionSort jsStringLe _
  have hn : (getUniqueActivities timeSlots).Nodup :=
    (getUniqueActivities_perm timeSlots).nodup_iff.2
      (foldl_addActivity timeSlots [] List.nodup_nil).1
  exact ⟨hs, hn, List.Pairwise.and hs hn⟩

theorem mem_getUniqueActivities (timeSlots : List TimeSlot) (s : String) :
    s ∈ getUniqueActivities timeSlots ↔
      s ≠ "" ∧ ∃ slot ∈ timeSlots, ∃ label, slot.activity = some label ∧ jsTrim label = s := by
  rw [(getUniqueActivities_perm timeSlots).mem_iff,
    (foldl_addActivity timeSlots [] List.nodup_nil).2 s]
  simp

/-- C18, as stated, fails: the query " ea" is not empty and its lower case is no
substring of "eating", yet `filterActivities` yields Eating, because the
query is trimmed; and the query of two spaces yields every candidate. -/
theorem filterActivities_untrimmed_query :
    filterActivities asciiLowerCase suggestionDay " ea" = ["Eating"] ∧
    ¬ ((asciiLowerCase " ea").data <:+: (asciiLowerCase "Eating").data) ∧
    filterActivities asciiLowerCase suggestionDay "  " = ["Eating", "Email", "Exercise"] := by
  decide

/-- C18 (amended): for a query that is not blank, `filterActivities` yields exactly
the candidates whose lower case contains the trimmed lower case of the query,
in their original relative order; the candidates Email, Exercise, Eating with
the query "ea" yield Eating. -/
theorem filterActivities_matches (toLowerCase : String → String) (timeSlots : List TimeSlot)
    (searchText : String) :
    (jsTrim searchText ≠ "" →
      (filterActivities toLowerCase timeSlots searchText).Sublist
          (getUniqueActivities timeSlots) ∧
        ∀ c, c ∈ filterActivities toLowerCase timeSlots searchText ↔
          c ∈ getUniqueActivities timeSlots ∧
            (jsTrim (toLowerCase searchText)).data <:+: (toLowerCase c).data) ∧
    filterActivities asciiLowerCase suggestionDay "ea" = ["Eating"] := by
  refine ⟨fun h => ?_, by decide⟩
  have hne : searchText ≠ "" := by
    intro e
    apply h
    rw [e]
    decide
  have hc : ¬ (searchText = "" ∨ jsTrim searchText = "") := by
    rintro (h1 | h1)
    · exact hne h1
    · exact h h1
  simp only [filterActivities, if_neg hc]
  refine ⟨List.filter_sublist _, fun c => ?_⟩
  simp [List.mem_filter]

/-- Witness for C18 (amended): the query "Ex" on the sample labels. -/
theorem filterActivities_matches_witness :
    jsTrim "Ex" ≠ "" ∧
      ∀ c, c ∈ filterActivities asciiLowerCase suggestionDay "Ex" ↔
        c ∈ getUniqueActivities suggestionDay ∧
          (jsTrim (asciiLowerCase "Ex")).data <:+: (asciiLowerCase c).data :=
  ⟨by decide, ((filterActivities_matches asciiLowerCase suggestionDay "Ex").1 (by decide)).2⟩

/-- C19: with the empty query (and with any blank query) `filterActivities` yields
exactly the list `getUniqueActivities` returns, in the same order. -/
theorem filterActivities_empty_query (toLowerCase : String → String)
    (timeSlots : List TimeSlot) :
    filterActivities toLowerCase timeSlots "" = getUniqueActivities timeSlots ∧
    ∀ searchText, isBlank searchText →
      filterActivities toLowerCase timeSlots searchText = getUniqueActivities timeSlots := by
  constructor
  · simp [filterActivities]
  · intro searchText hb
    simp [filterActivities, jsTrim_blank searchText hb]

/-- Witness for C19: the query of two spaces and a tab on the sample labels. -/
theorem filterActivities_empty_query_witness :
    isBlank "  \t" ∧
      filterActivities asciiLowerCase suggestionDay "  \t" = getUniqueActivities suggestionDay :=
  ⟨by decide, (filterActivities_empty_query asciiLowerCase suggestionDay).2 "  \t" (by decide)⟩

/-! ### C12: order of the summary -/

theorem keys_countActivity (obj : JsObject) (name : String) (hp : name ∉ objectPrototypeKeys) :
    (countActivity obj name).map Prod.fst = setAdd (obj.map Prod.fst) name := by
  rw [countActivity_eq obj name hp, keys_setOwn]
  rfl

theorem keys_foldl_countActivity (labels : List String) :
    ∀ obj : JsObject, (∀ l ∈ labels, l ∉ objectPrototypeKeys) →
      (labels.foldl countActivity obj).map Prod.fst = labels.foldl setAdd (obj.map Prod.fst) := by
  induction labels with
  | nil => intro obj _; rfl
  | cons l rest ih =>
    intro obj hp
    rw [List.foldl_cons, List.foldl_cons,
      ih _ (fun x hx => hp x (List.mem_cons_of_mem _ hx)),
      keys_countActivity obj l (hp l (List.mem_cons_self _ _))]

theorem objectEntries_keys (obj : JsObject) :
    (objectEntries obj).map Prod.fst = propertyOrder (obj.map Prod.fst) := by
  simp only [objectEntries, propertyOrder, List.map_append, List.map_map]
  congr 1
  · have h1 : (obj.map Prod.fst).filterMap (fun k => (arrayIndex? k).map (fun i => (i, k))) =
        (obj.filterMap (fun kv => (arrayIndex? kv.1).map (fun i => (i, kv)))).map
          (fun ikv => (ikv.1, ikv.2.1)) := by
      induction obj with
      | nil => rfl
      | cons kv rest ih =>
        cases h : arrayIndex? kv.1 with
        | none => simp [List.filterMap_cons, h, ih]
        | some i => simp [List.filterMap_cons, h, ih]
    rw [h1, ← List.map_insertionSort (r := fun a b => a.1 ≤ b.1) (s := fun a b => a.1 ≤ b.1)
      (fun ikv : Nat × String × CountValue => (ikv.1, ikv.2.1)) _ (fun _ _ _ _ => Iff.rfl),
      List.map_map]
    rfl
  · induction obj with
    | nil => rfl
    | cons kv rest ih =>
      cases h : arrayIndex? kv.1 with
      | none => simp [List.filter_cons, h, ih]
      | some i => simp [List.filter_cons, h, ih]

/-- Insertion sort by the comparator keeps the relative order of the entries
that have one given count. -/
theorem filter_count_orderedInsert (c : Nat) (a : SummaryEntry) (l : List SummaryEntry) :
    (l.orderedInsert (fun a b => sortsBefore a b = true) a).filter
        (fun e => decide (e.count = .num c)) =
      (a :: l).filter (fun e => decide (e.count = .num c)) := by
  rw [List.orderedInsert_eq_take_drop, List.filter_append, List.filter_cons, List.filter_cons]
  by_cases ha : a.count = .num c
  · have htake : (l.takeWhile (fun b => decide (¬ sortsBefore a b = true))).filter
        (fun e => decide (e.count = .num c)) = [] := by
      rw [List.filter_eq_nil_iff]
      intro b hb
      have hnot := List.mem_takeWhile_imp hb
      simp only [decide_eq_true_eq] at hnot
      intro hbc
      simp only [decide_eq_true_eq] at hbc
      apply hnot
      simp [sortsBefore, sortCompare, ha, hbc]
    have hdrop : (l.dropWhile (fun b => decide (¬ sortsBefore a b = true))).filter
        (fun e => decide (e.count = .num c)) = l.filter (fun e => decide (e.count = .num c)) := by
      conv_rhs => rw [← List.takeWhile_append_dropWhile
        (fun b => decide (¬ sortsBefore a b = true)) l, List.filter_append, htake]
      rfl
    simp only [ha, decide_True, if_true, htake, List.nil_append, hdrop]
  · simp only [ha, decide_False, Bool.false_eq_true, if_false]
    rw [← List.filter_append, List.takeWhile_append_dropWhile]

theorem filter_count_insertionSort (c : Nat) (l : List SummaryEntry) :
    (l.insertionSort (fun a b => sortsBefore a b = true)).filter
        (fun e => decide (e.count = .num c)) =
      l.filter (fun e => decide (e.count = .num c)) := by
  induction l with
  | nil => rfl
  | cons a rest ih =>
    rw [List.insertionSort, filter_count_orderedInsert, List.filter_cons, List.filter_cons, ih]

theorem countGe_total (a b : SummaryEntry) : countGe a b ∨ countGe b a := by
  unfold countGe
  omega

theorem countGe_trans (a b c : SummaryEntry) (h1 : countGe a b) (h2 : countGe b c) :
    countGe a c := by
  unfold countGe at *
  omega

/-- On entries whose counts are numbers the sort is a sort by descending count. -/
theorem insertionSort_numeric (l : List SummaryEntry) (h : ∀ e ∈ l, ∃ n, e.count = .num n) :
    l.insertionSort (fun a b => sortsBefore a b = true) = l.insertionSort countGe := by
  have hcongr : ∀ a ∈ l, ∀ b ∈ l, (sortsBefore a b = true ↔ countGe a b) := by
    intro a ha b hb
    obtain ⟨x, hx⟩ := h a ha
    obtain ⟨y, hy⟩ := h b hb
    simp only [sortsBefore, sortCompare, hx, hy, countGe, countKey, decide_eq_true_eq]
    omega
  have := List.map_insertionSort (r := fun a b => sortsBefore a b = true) (s := countGe) id l hcongr
  simpa using this

/-- The object built by `calculateSummary` when no label names an inherited
member: names in encounter order, each holding the number of its slots. -/
theorem summary_object (timeSlots : List TimeSlot)
    (h : ∀ slot ∈ timeSlots, ∀ label ∈ slot.activity, label ∉ objectPrototypeKeys) :
    ((filledLabels timeSlots).foldl countActivity []).map Prod.fst =
        encounterOrder (filledLabels timeSlots) ∧
      ∀ kv ∈ (filledLabels timeSlots).foldl countActivity [],
        kv.2 = .num (timeSlots.countP (fun slot => decide (slot.activity = some kv.1))) := by
  have hp : ∀ l ∈ filledLabels timeSlots, l ∉ objectPrototypeKeys := by
    intro l hl
    obtain ⟨_, slot, hm, hs⟩ := (mem_filledLabels timeSlots l).1 hl
    exact h slot hm l (Option.mem_def.2 hs)
  obtain ⟨hok, hcount⟩ := foldl_countActivity_ok (filledLabels timeSlots) [] hp countsOk_nil
  refine ⟨keys_foldl_countActivity _ [] hp, ?_⟩
  rintro ⟨k, v⟩ hkv
  have hv := ownValue_of_mem _ hok.1 k v hkv
  obtain ⟨n, hn, hpos⟩ := hok.2 k v hv
  subst hn
  have hc := hcount k
  simp only [countOf, hv, ownValue, Nat.zero_add] at hc
  have hkl : k ∈ filledLabels timeSlots := List.count_pos_iff.1 (by omega)
  have hne : k ≠ "" := ((mem_filledLabels timeSlots k).1 hkl).1
  have hc2 := count_filledLabels timeSlots k hne
  simp only [filledLabels] at hc
  rw [hc2] at hc
  simp [hc]

theorem map_filter_of_agree {α β : Type} (f : α → β) (p : α → Bool) (q : β → Bool) (l : List α)
    (h : ∀ x ∈ l, p x = q (f x)) : (l.filter p).map f = (l.map f).filter q := by
  induction l with
  | nil => rfl
  | cons a rest ih =>
    have ha := h a (List.mem_cons_self _ _)
    have hr := ih (fun x hx => h x (List.mem_cons_of_mem _ hx))
    simp only [List.filter_cons, List.map_cons, ← ha]
    cases p a <;> simp [hr]

/-- C12, as stated, fails: with the label 10 in the first slot and the label 2 in
the second, both counted once, the summary lists 2 before 10. -/
theorem calculateSummary_integer_labels :
    filledLabels integerLabelDay = ["10", "2"] ∧
      (calculateSummary integerLabelDay).map (fun entry => (entry.activity, entry.count)) =
        [("2", .num 1), ("10", .num 1)] := by
  decide

/-- C12 (amended): for a timeline none of whose labels names a member of
`Object.prototype`, the entries are ordered by count descending, and the entries
with one given count appear in the order in which `Object.entries` lists their
labels: labels that are array indices first, in ascending numeric order, then
the other labels in the order in which they are first encountered. -/
theorem calculateSummary_order (timeSlots : List TimeSlot)
    (h : ∀ slot ∈ timeSlots, ∀ label ∈ slot.activity, label ∉ objectPrototypeKeys) :
    (calculateSummary timeSlots).Pairwise
        (fun a b => ∃ x y, a.count = .num x ∧ b.count = .num y ∧ y ≤ x) ∧
      ∀ c : Nat,
        ((calculateSummary timeSlots).filter (fun e => decide (e.count = .num c))).map
            (fun entry => entry.activity) =
          (propertyOrder (encounterOrder (filledLabels timeSlots))).filter
            (fun l => decide (timeSlots.countP (fun slot => decide (slot.activity = some l)) = c)) := by
  obtain ⟨hkeys, hvals⟩ := summary_object timeSlots h
  set obj := (filledLabels timeSlots).foldl countActivity [] with hobj
  set total := (timeSlots.filter (fun slot => truthy slot.activity)).length
  have hS : calculateSummary timeSlots =
      ((objectEntries obj).map (summaryEntry total)).insertionSort
        (fun a b => sortsBefore a b = true) := rfl
  have hmem : ∀ kv, kv ∈ objectEntries obj ↔ kv ∈ obj := fun kv => (objectEntries_perm obj).mem_iff
  have hnum : ∀ e ∈ (objectEntries obj).map (summaryEntry total), ∃ n, e.count = .num n := by
    intro e he
    obtain ⟨kv, hkv, rfl⟩ := List.mem_map.1 he
    exact ⟨_, hvals kv ((hmem kv).1 hkv)⟩
  constructor
  · rw [hS, insertionSort_numeric _ hnum]
    haveI : IsTotal SummaryEntry countGe := ⟨countGe_total⟩
    haveI : IsTrans SummaryEntry countGe := ⟨countGe_trans⟩
    have hsorted : (((objectEntries obj).map (summaryEntry total)).insertionSort countGe).Sorted
        countGe := List.sorted_insertionSort countGe _
    have hnum2 : ∀ e ∈ ((objectEntries obj).map (summaryEntry total)).insertionSort countGe,
        ∃ n, e.count = .num n := fun e he => hnum e ((List.mem_insertionSort _).1 he)
    refine (List.Pairwise.and_mem.1 hsorted).imp ?_
    rintro a b ⟨ha, hb, hab⟩
    obtain ⟨x, hx⟩ := hnum2 a ha
    obtain ⟨y, hy⟩ := hnum2 b hb
    refine ⟨x, y, hx, hy, ?_⟩
    simpa [countGe, countKey, hx, hy] using hab
  · intro c
    rw [hS, filter_count_insertionSort, List.filter_map, List.map_map]
    have hagree : ∀ kv ∈ objectEntries obj,
        ((fun e : SummaryEntry => decide (e.count = .num c)) ∘ summaryEntry total) kv =
          (fun l => decide (timeSlots.countP (fun slot => decide (slot.activity = some l)) = c))
            (((fun entry : SummaryEntry => entry.activity) ∘ summaryEntry total) kv) := by
      intro kv hkv
      have hv := hvals kv ((hmem kv).1 hkv)
      simp only [Function.comp, summaryEntry, hv, CountValue.num.injEq]
    rw [map_filter_of_agree _ _
      (fun l => decide (timeSlots.countP (fun slot => decide (slot.activity = some l)) = c))
      _ hagree]
    have hk : (objectEntries obj).map ((fun entry : SummaryEntry => entry.activity) ∘
        summaryEntry total) = propertyOrder (encounterOrder (filledLabels timeSlots)) := by
      rw [← hkeys, ← objectEntries_keys]
      rfl
    rw [hk]

/-- Witness for C12 (amended): the labels 10 and 2, both counted once. -/
theorem calculateSummary_order_witness :
    (∀ slot ∈ integerLabelDay, ∀ label ∈ slot.activity, label ∉ objectPrototypeKeys) ∧
      ((calculateSummary integerLabelDay).filter (fun e => decide (e.count = .num 1))).map
          (fun entry => entry.activity) =
        (propertyOrder (encounterOrder (filledLabels integerLabelDay))).filter
          (fun l => decide (integerLabelDay.countP
            (fun slot => decide (slot.activity = some l)) = 1)) :=
  ⟨by decide, (calculateSummary_order integerLabelDay (by decide)).2 1⟩

/-! ### C11 and C13: percentages -/

theorem bitLengthAux_zero (fuel : Nat) : bitLengthAux fuel 0 = 0 := by
  cases fuel <;> simp [bitLengthAux]

theorem bitLengthAux_spec (fuel : Nat) :
    ∀ n : Nat, n ≤ fuel →
      n < 2 ^ bitLengthAux fuel n ∧ (0 < n → 2 ^ (bitLengthAux fuel n - 1) ≤ n) := by
  induction fuel with
  | zero =>
    intro n h
    have : n = 0 := by omega
    subst this
    simp [bitLengthAux]
  | succ fuel ih =>
    intro n h
    by_cases hn : n = 0
    · subst hn
      simp [bitLengthAux]
    · simp only [bitLengthAux, if_neg hn]
      obtain ⟨h1, h2⟩ := ih (n / 2) (by omega)
      have hpow : 2 ^ (bitLengthAux fuel (n / 2) + 1) = 2 * 2 ^ bitLengthAux fuel (n / 2) := by
        rw [Nat.pow_succ]; ring
      refine ⟨by rw [hpow]; omega, fun _ => ?_⟩
      simp only [Nat.add_sub_cancel]
      by_cases hz : n / 2 = 0
      · rw [hz, bitLengthAux_zero]
        simp
        omega
      · have h3 := h2 (by omega)
        have hr : bitLengthAux fuel (n / 2) ≠ 0 := by
          intro e
          rw [e] at h1
          simp at h1
          exact hz h1
        obtain ⟨r, hr2⟩ := Nat.exists_eq_succ_of_ne_zero hr
        rw [hr2] at h3 ⊢
        simp only [Nat.succ_sub_one] at h3
        rw [Nat.pow_succ]
        omega

theorem bitLength_spec (n : Nat) :
    n < 2 ^ bitLength n ∧ (0 < n → 2 ^ (bitLength n - 1) ≤ n) :=
  bitLengthAux_spec n n (Nat.le_refl n)

/-- Rounding a number of more than 53 bits: the exponent grows by the number of
bits dropped, and the significand is the truncated one or its successor and
has 53 bits. -/
theorem roundSig_spec (n : Nat) (e : Int) (sticky : Bool) (hb : 53 < bitLength n) :
    (roundSig n e sticky).e = e + ((bitLength n - 53 : Nat) : Int) ∧
      ((roundSig n e sticky).m = n / 2 ^ (bitLength n - 53) ∨
        (roundSig n e sticky).m = n / 2 ^ (bitLength n - 53) + 1) ∧
      2 ^ 52 ≤ n / 2 ^ (bitLength n - 53) ∧ n / 2 ^ (bitLength n - 53) < 2 ^ 53 := by
  have hnot : ¬ bitLength n ≤ 53 := by omega
  obtain ⟨hlt, hge⟩ := bitLength_spec n
  have hpos : 0 < n := by
    rcases Nat.eq_zero_or_pos n with h0 | h0
    · subst h0
      simp [bitLength, bitLengthAux] at hb
    · exact h0
  have hge2 := hge hpos
  have hsplit : bitLength n = (bitLength n - 53) + 53 := by omega
  have hsplit2 : bitLength n - 1 = (bitLength n - 53) + 52 := by omega
  refine ⟨?_, ?_, ?_, ?_⟩
  · simp only [roundSig, if_neg hnot]
  · simp only [roundSig, if_neg hnot]
    split_ifs
    · exact Or.inr rfl
    · exact Or.inl rfl
  · rw [Nat.le_div_iff_mul_le (Nat.pos_pow_of_pos _ (by norm_num))]
    rw [hsplit2, Nat.pow_add] at hge2
    linarith
  · rw [Nat.div_lt_iff_lt_mul (Nat.pos_pow_of_pos _ (by norm_num))]
    rw [hsplit, Nat.pow_add] at hlt
    linarith

/-- The arithmetic of the three roundings: a quotient rounded to within one unit
of its last place, its hundredfold rounded likewise, and the tenths rounded to
the nearest integer stay within half a tenth of the exact value. -/
theorem round_chain (t c m1 m2 K A B P : Int) (ht0 : 0 ≤ t) (hA : A = B * P)
    (hB : B ≤ 128) (hB0 : 0 ≤ B) (hP0 : 0 ≤ P) (hbig : 4560 * t < A)
    (h1a : m1 * t ≤ c * A + t) (h1b : c * A ≤ m1 * t + t)
    (h2a : m2 * B ≤ 100 * m1 + B) (h2b : 100 * m1 ≤ m2 * B + B)
    (h3a : K * (2 * P) ≤ 20 * m2 + P) (h3b : 20 * m2 + P < (K + 1) * (2 * P)) :
    2 * t * K ≤ 2000 * c + t ∧ 2000 * c ≤ 2 * t * K + t := by
  subst hA
  have hBt : 0 ≤ B * t := mul_nonneg hB0 ht0
  have hBP : 0 ≤ B * P := mul_nonneg hB0 hP0
  have p5 : B * t ≤ 128 * t := mul_le_mul_of_nonneg_right hB ht0
  constructor
  · by_contra hcon
    have hcon2 : 2000 * c + t + 1 ≤ 2 * t * K := by omega
    have p1 := mul_le_mul_of_nonneg_right hcon2 hBP
    have p2 := mul_le_mul_of_nonneg_right h3a hBt
    have p3 := mul_le_mul_of_nonneg_right h2a (mul_nonneg (by norm_num : (0 : Int) ≤ 20) ht0)
    nlinarith [p1, p2, p3, p5, h1a, hbig]
  · by_contra hcon
    have hcon2 : 2 * t * K + t + 1 ≤ 2000 * c := by omega
    have p1 := mul_le_mul_of_nonneg_right hcon2 hBP
    have p2 := mul_le_mul_of_nonneg_right (le_of_lt h3b) hBt
    have p3 := mul_le_mul_of_nonneg_right h2b (mul_nonneg (by norm_num : (0 : Int) ≤ 20) ht0)
    nlinarith [p1, p2, p3, p5, h1b, hbig]

/-- The rounded significand is within one unit of the last place kept. -/
theorem roundSig_near (n : Nat) (e : Int) (sticky : Bool) (hb : 53 < bitLength n) :
    (roundSig n e sticky).m * 2 ^ (bitLength n - 53) ≤ n + 2 ^ (bitLength n - 53) ∧
      n < (roundSig n e sticky).m * 2 ^ (bitLength n - 53) + 2 ^ (bitLength n - 53) ∧
      2 ^ 52 ≤ (roundSig n e sticky).m ∧ (roundSig n e sticky).m ≤ 2 ^ 53 := by
  obtain ⟨_, hm, hq1, hq2⟩ := roundSig_spec n e sticky hb
  generalize bitLength n - 53 = sh at *
  have hshpos : 0 < 2 ^ sh := Nat.pos_pow_of_pos _ (by norm_num)
  have hqn : n / 2 ^ sh * 2 ^ sh ≤ n := Nat.div_mul_le_self n (2 ^ sh)
  have hnq : n < (n / 2 ^ sh + 1) * 2 ^ sh :=
    (Nat.div_lt_iff_lt_mul hshpos).1 (Nat.lt_succ_self _)
  generalize n / 2 ^ sh = q at *
  generalize 2 ^ sh = P at *
  have hexp : (q + 1) * P = q * P + P := by ring
  rcases hm with h | h <;> rw [h]
  · refine ⟨by omega, by omega, hq1, le_of_lt hq2⟩
  · rw [hexp]
    refine ⟨by omega, by omega, by omega, by omega⟩

/-- The double quotient of `1 ≤ count ≤ total`: a significand of 53 bits (or
`2 ^ 53`) at an exponent `-k` with `52 ≤ k`, within one unit of the last place
of the exact quotient. -/
theorem divDouble_spec (c t : Nat) (hc : 1 ≤ c) (hct : c ≤ t) :
    ∃ k : Nat, 52 ≤ k ∧ (divDouble c t).e = -(k : Int) ∧
      2 ^ 52 ≤ (divDouble c t).m ∧ (divDouble c t).m ≤ 2 ^ 53 ∧
      (divDouble c t).m * t ≤ c * 2 ^ k + t ∧ c * 2 ^ k ≤ (divDouble c t).m * t + t := by
  have ht : 0 < t := by omega
  obtain ⟨htlt, _⟩ := bitLength_spec t
  have hdef : divDouble c t = roundSig (c * 2 ^ (bitLength t + 64) / t)
      (-((bitLength t + 64 : Nat) : Int)) (decide (c * 2 ^ (bitLength t + 64) % t ≠ 0)) := by
    simp only [divDouble]
  rw [hdef]
  generalize decide (c * 2 ^ (bitLength t + 64) % t ≠ 0) = sticky
  have h2s : 2 ^ (bitLength t + 64) = 2 ^ bitLength t * 2 ^ 64 := Nat.pow_add _ _ _
  have hNt : c * 2 ^ (bitLength t + 64) / t * t ≤ c * 2 ^ (bitLength t + 64) :=
    Nat.div_mul_le_self _ t
  have htN : c * 2 ^ (bitLength t + 64) < (c * 2 ^ (bitLength t + 64) / t + 1) * t :=
    (Nat.div_lt_iff_lt_mul ht).1 (Nat.lt_succ_self _)
  have hNge : 2 ^ 64 ≤ c * 2 ^ (bitLength t + 64) / t := by
    rw [Nat.le_div_iff_mul_le ht, h2s]
    have h1 : 2 ^ 64 * t ≤ 2 ^ 64 * 2 ^ bitLength t := Nat.mul_le_mul_left _ (le_of_lt htlt)
    have h2 : 1 * (2 ^ bitLength t * 2 ^ 64) ≤ c * (2 ^ bitLength t * 2 ^ 64) :=
      Nat.mul_le_mul_right _ hc
    linarith
  have hNle : c * 2 ^ (bitLength t + 64) / t ≤ 2 ^ (bitLength t + 64) := by
    apply Nat.div_le_of_le_mul
    exact Nat.mul_le_mul_right _ hct
  generalize bitLength t + 64 = s at *
  generalize c * 2 ^ s / t = N at *
  obtain ⟨hNlt, hNge2⟩ := bitLength_spec N
  have hNpos : 0 < N := lt_of_lt_of_le (Nat.pos_pow_of_pos _ (by norm_num)) hNge
  have hb : 64 < bitLength N :=
    (Nat.pow_lt_pow_iff_right (by norm_num)).1 (lt_of_le_of_lt hNge hNlt)
  have hb2 : bitLength N - 1 ≤ s :=
    (Nat.pow_le_pow_iff_right (by norm_num)).1 (le_trans (hNge2 hNpos) hNle)
  obtain ⟨he, _, _, _⟩ := roundSig_spec N (-(s : Int)) sticky (by omega)
  obtain ⟨hm1, hm2, hm3, hm4⟩ := roundSig_near N (-(s : Int)) sticky (by omega)
  have hsplit : 2 ^ s = 2 ^ (s - (bitLength N - 53)) * 2 ^ (bitLength N - 53) := by
    rw [← Nat.pow_add]
    congr 1
    omega
  have hk : 52 ≤ s - (bitLength N - 53) := by omega
  have hek : (-(s : Int)) + ((bitLength N - 53 : Nat) : Int) =
      -((s - (bitLength N - 53) : Nat) : Int) := by omega
  rw [hek] at he
  have hPpos : 0 < 2 ^ (bitLength N - 53) := Nat.pos_pow_of_pos _ (by norm_num)
  generalize bitLength N - 53 = sh at *
  generalize s - sh = k at *
  generalize (roundSig N (-(s : Int)) sticky).m = m at *
  rw [hsplit] at hNt htN
  generalize 2 ^ sh = P at *
  refine ⟨k, hk, he, hm3, hm4, ?_, ?_⟩
  · generalize 2 ^ k = A at *
    have h1 : (m * t) * P ≤ (c * A + t) * P := by
      have := Nat.mul_le_mul_right t hm1
      nlinarith [this, hNt]
    exact Nat.le_of_mul_le_mul_right h1 hPpos
  · generalize 2 ^ k = A at *
    have h1 : (c * A) * P < (m * t + t + 1) * P := by
      have h3 : N + 1 ≤ m * P + P := hm2
      have := Nat.mul_le_mul_right t h3
      nlinarith [this, htN]
    have h4 : c * A < m * t + t + 1 := Nat.lt_of_mul_lt_mul_right h1
    exact Nat.lt_succ_iff.1 h4

/-- The hundredfold of a double with a significand of 53 bits: at most 7 bits
are dropped and the result is within one unit of its last place. -/
theorem mul100_spec (x : Dyadic) (h1 : 2 ^ 52 ≤ x.m) (h2 : x.m ≤ 2 ^ 53) :
    ∃ sh : Nat, 1 ≤ sh ∧ sh ≤ 7 ∧ (mul100 x).e = x.e + (sh : Int) ∧
      (mul100 x).m * 2 ^ sh ≤ 100 * x.m + 2 ^ sh ∧ 100 * x.m ≤ (mul100 x).m * 2 ^ sh + 2 ^ sh := by
  have hdef : mul100 x = roundSig (x.m * 100) x.e false := rfl
  rw [hdef]
  have hM1 : 2 ^ 58 < x.m * 100 := by omega
  have hM2 : x.m * 100 < 2 ^ 60 := by omega
  have hcomm : 100 * x.m = x.m * 100 := Nat.mul_comm _ _
  rw [hcomm]
  generalize x.m * 100 = M at *
  obtain ⟨hMlt, hMge⟩ := bitLength_spec M
  have hMpos : 0 < M := by omega
  have hb1 : 58 < bitLength M :=
    (Nat.pow_lt_pow_iff_right (by norm_num)).1 (lt_trans hM1 hMlt)
  have hb2 : bitLength M - 1 < 60 :=
    (Nat.pow_lt_pow_iff_right (by norm_num)).1 (lt_of_le_of_lt (hMge hMpos) hM2)
  obtain ⟨he, _, _, _⟩ := roundSig_spec M x.e false (by omega)
  obtain ⟨hm1, hm2, _, _⟩ := roundSig_near M x.e false (by omega)
  exact ⟨bitLength M - 53, by omega, by omega, he, hm1, le_of_lt hm2⟩

/-- The percentage string of a count `1 ≤ count ≤ total`, for fewer than `2 ^ 32`
filled slots: the tenths `K` it renders are within one half of the exact
`1000 * count / total`. -/
theorem percentage_near (c t : Nat) (hc : 1 ≤ c) (hct : c ≤ t) (ht : t < 2 ^ 32) :
    ∃ K : Nat,
      toFixed1 (mul100 (divDouble c t)) = toString (K / 10) ++ "." ++ toString (K % 10) ∧
      2 * t * K ≤ 2000 * c + t ∧ 2000 * c ≤ 2 * t * K + t := by
  obtain ⟨k1, hk1, he1, hm1a, hm1b, hd1, hd2⟩ := divDouble_spec c t hc hct
  obtain ⟨sh, hsh1, hsh7, he2, hx1, hx2⟩ := mul100_spec (divDouble c t) hm1a hm1b
  rw [he1] at he2
  have hneg : ¬ (0 : Int) ≤ (mul100 (divDouble c t)).e := by
    rw [he2]
    omega
  have hk : (-(mul100 (divDouble c t)).e).toNat = k1 - sh := by
    rw [he2]
    omega
  refine ⟨((mul100 (divDouble c t)).m * 20 + 2 ^ (k1 - sh)) / 2 ^ (k1 - sh + 1), ?_, ?_⟩
  · simp only [toFixed1, if_neg hneg, hk]
  · have hP : 2 ^ (k1 - sh + 1) = 2 * 2 ^ (k1 - sh) := by
      rw [Nat.pow_succ]
      ring
    have hPpos : 0 < 2 ^ (k1 - sh + 1) := Nat.pos_pow_of_pos _ (by norm_num)
    have h3a := Nat.div_mul_le_self ((mul100 (divDouble c t)).m * 20 + 2 ^ (k1 - sh))
      (2 ^ (k1 - sh + 1))
    have h3b := (Nat.div_lt_iff_lt_mul hPpos).1
      (Nat.lt_succ_self (((mul100 (divDouble c t)).m * 20 + 2 ^ (k1 - sh)) / 2 ^ (k1 - sh + 1)))
    have hA : 2 ^ k1 = 2 ^ sh * 2 ^ (k1 - sh) := by
      rw [← Nat.pow_add]
      congr 1
      omega
    have hB : 2 ^ sh ≤ 128 := by
      have : 2 ^ sh ≤ 2 ^ 7 := Nat.pow_le_pow_right (by norm_num) hsh7
      simpa using this
    have hbig : 4560 * t < 2 ^ k1 := by
      have h52 : 2 ^ 52 ≤ 2 ^ k1 := Nat.pow_le_pow_right (by norm_num) hk1
      omega
    rw [hP] at h3a h3b ⊢
    generalize ((mul100 (divDouble c t)).m * 20 + 2 ^ (k1 - sh)) / (2 * 2 ^ (k1 - sh)) = K at *
    generalize (mul100 (divDouble c t)).m = m2 at *
    generalize (divDouble c t).m = m1 at *
    generalize 2 ^ (k1 - sh) = P at *
    generalize 2 ^ sh = B at *
    generalize 2 ^ k1 = A at *
    have key := round_chain (t : Int) c m1 m2 K A B P (by positivity) (by exact_mod_cast hA)
      (by exact_mod_cast hB) (by positivity) (by positivity) (by exact_mod_cast hbig)
      (by exact_mod_cast hd1) (by exact_mod_cast hd2)
      (by
        have : m2 * B ≤ 100 * m1 + B := hx1
        exact_mod_cast this)
      (by exact_mod_cast hx2)
      (by
        have : K * (2 * P) ≤ 20 * m2 + P := by linarith
        exact_mod_cast this)
      (by
        have : 20 * m2 + P < (K + 1) * (2 * P) := by linarith
        exact_mod_cast this)
    constructor
    · exact_mod_cast key.1
    · exact_mod_cast key.2

theorem digitChar_spec (d : Nat) (h : d < 10) :
    (Nat.digitChar d).isDigit = true ∧ (Nat.digitChar d).toNat - 48 = d := by
  interval_cases d <;> decide

theorem digitsValue_append (l : List Char) (c : Char) :
    digitsValue (l ++ [c]) = digitsValue l * 10 + (c.toNat - 48) := by
  simp [digitsValue, List.foldl_append]

theorem toDigitsCore_spec (fuel : Nat) :
    ∀ (n : Nat) (ds : List Char), n < fuel →
      ∃ l : List Char, Nat.toDigitsCore 10 fuel n ds = l ++ ds ∧ l ≠ [] ∧
        (∀ c ∈ l, c.isDigit = true) ∧ digitsValue l = n := by
  induction fuel with
  | zero => intro n ds h; omega
  | succ fuel ih =>
    intro n ds h
    obtain ⟨hd1, hd2⟩ := digitChar_spec (n % 10) (Nat.mod_lt _ (by norm_num))
    by_cases hz : n / 10 = 0
    · refine ⟨[Nat.digitChar (n % 10)], ?_, by simp, ?_, ?_⟩
      · simp [Nat.toDigitsCore, hz]
      · intro c hc
        rw [List.mem_singleton.1 hc]
        exact hd1
      · have := digitsValue_append [] (Nat.digitChar (n % 10))
        simp only [List.nil_append] at this
        rw [this, hd2]
        simp [digitsValue]
        omega
    · obtain ⟨l, hl1, _, hl3, hl4⟩ := ih (n / 10) (Nat.digitChar (n % 10) :: ds) (by omega)
      refine ⟨l ++ [Nat.digitChar (n % 10)], ?_, by simp, ?_, ?_⟩
      · simp [Nat.toDigitsCore, hz, hl1]
      · intro c hc
        rcases List.mem_append.1 hc with h1 | h1
        · exact hl3 c h1
        · rw [List.mem_singleton.1 h1]
          exact hd1
      · rw [digitsValue_append, hl4, hd2]
        omega

theorem toString_nat_spec (n : Nat) :
    (toString n).data ≠ [] ∧ (∀ c ∈ (toString n).data, c.isDigit = true) ∧
      digitsValue (toString n).data = n := by
  obtain ⟨l, hl1, hl2, hl3, hl4⟩ := toDigitsCore_spec (n + 1) n [] (Nat.lt_succ_self n)
  have hdata : (toString n).data = l := by
    rw [List.append_nil] at hl1
    exact hl1
  rw [hdata]
  exact ⟨hl2, hl3, hl4⟩

theorem toString_digit (d : Nat) (h : d < 10) : (toString d).data = [Nat.digitChar d] := by
  interval_cases d <;> rfl

/-- Reading back a rendered percentage gives its tenths. -/
theorem percentTenths_render (K : Nat) :
    percentTenths (.fixed (toString (K / 10) ++ "." ++ toString (K % 10))) = some K := by
  obtain ⟨h1, h2, h3⟩ := toString_nat_spec (K / 10)
  have hlt : K % 10 < 10 := Nat.mod_lt _ (by norm_num)
  obtain ⟨hd1, hd2⟩ := digitChar_spec (K % 10) hlt
  have hdata : (toString (K / 10) ++ "." ++ toString (K % 10)).data =
      (toString (K / 10)).data ++ ['.'] ++ [Nat.digitChar (K % 10)] := by
    rw [String.data_append, String.data_append, toString_digit _ hlt]
  have hrev : (toString (K / 10) ++ "." ++ toString (K % 10)).data.reverse =
      Nat.digitChar (K % 10) :: '.' :: (toString (K / 10)).data.reverse := by
    rw [hdata]
    simp
  have hne : (toString (K / 10)).data.reverse ≠ [] := by simpa using h1
  have hall : (toString (K / 10)).data.reverse.all Char.isDigit = true := by
    rw [List.all_eq_true]
    intro c hc
    exact h2 c (List.mem_reverse.1 hc)
  simp only [percentTenths, hrev]
  rw [if_pos ⟨hd1, hne, hall⟩, List.reverse_reverse, digitsValue_append, h3, hd2]
  congr 1
  omega

theorem setOwn_mem (obj : JsObject) (name : String) (v : CountValue) (kv : String × CountValue)
    (h : kv ∈ setOwn obj name v) : kv ∈ obj ∨ kv = (name, v) := by
  induction obj with
  | nil =>
    simp only [setOwn, List.mem_singleton] at h
    exact Or.inr h
  | cons head rest ih =>
    obtain ⟨k, w⟩ := head
    by_cases hk : k = name
    · simp only [setOwn, if_pos hk, List.mem_cons] at h
      rcases h with h | h
      · exact Or.inr (by rw [h, hk])
      · exact Or.inl (List.mem_cons_of_mem _ h)
    · simp only [setOwn, if_neg hk, List.mem_cons] at h
      rcases h with h | h
      · exact Or.inl (by rw [h]; exact List.mem_cons_self _ _)
      · rcases ih h with h2 | h2
        · exact Or.inl (List.mem_cons_of_mem _ h2)
        · exact Or.inr h2

theorem ownValue_mem (obj : JsObject) (k : String) (v : CountValue)
    (h : ownValue obj k = some v) : (k, v) ∈ obj := by
  induction obj with
  | nil => simp [ownValue] at h
  | cons head rest ih =>
    obtain ⟨k0, w⟩ := head
    by_cases hk : k0 = k
    · simp only [ownValue, if_pos hk, Option.some.injEq] at h
      rw [hk, h]
      exact List.mem_cons_self _ _
    · simp only [ownValue, if_neg hk] at h
      exact List.mem_cons_of_mem _ (ih h)

/-- Every number held by the count object is at least 1 and at most the number
of labels counted so far, whatever the labels are. -/
theorem countActivity_num_bound (obj : JsObject) (name : String) (B : Nat)
    (h : ∀ kv ∈ obj, ∀ n, kv.2 = .num n → 1 ≤ n ∧ n ≤ B) :
    ∀ kv ∈ countActivity obj name, ∀ n, kv.2 = .num n → 1 ≤ n ∧ n ≤ B + 1 := by
  intro kv hkv n hn
  have hweak : kv ∈ obj → 1 ≤ n ∧ n ≤ B + 1 := by
    intro hm
    obtain ⟨h1, h2⟩ := h kv hm n hn
    exact ⟨h1, by omega⟩
  simp only [countActivity, setProperty] at hkv
  split_ifs at hkv with hproto
  · exact hweak hkv
  · rcases setOwn_mem _ _ _ _ hkv with hm | hm
    · exact hweak hm
    · subst hm
      simp only [getProperty] at hn
      cases hv : ownValue obj name with
      | none =>
        rw [hv] at hn
        simp only at hn
        split_ifs at hn
        · simp [plusOne] at hn
        · simp only [plusOne, CountValue.num.injEq] at hn
          omega
      | some w =>
        rw [hv] at hn
        cases w with
        | text => simp [plusOne] at hn
        | num m =>
          simp only [plusOne, CountValue.num.injEq] at hn
          obtain ⟨h1, h2⟩ := h (name, .num m) (ownValue_mem obj name _ hv) m rfl
          omega

theorem foldl_countActivity_num_bound (labels : List String) :
    ∀ (obj : JsObject) (B : Nat), (∀ kv ∈ obj, ∀ n, kv.2 = .num n → 1 ≤ n ∧ n ≤ B) →
      ∀ kv ∈ labels.foldl countActivity obj, ∀ n, kv.2 = .num n → 1 ≤ n ∧ n ≤ B + labels.length := by
  induction labels with
  | nil => intro obj B h; simpa using h
  | cons l rest ih =>
    intro obj B h kv hkv n hn
    have := ih (countActivity obj l) (B + 1) (countActivity_num_bound obj l B h) kv hkv n hn
    simp only [List.length_cons]
    omega

theorem filledLabels_length (timeSlots : List TimeSlot) :
    (filledLabels timeSlots).length = getFilledSlotsCount timeSlots := by
  simp only [filledLabels, getFilledSlotsCount]
  induction timeSlots with
  | nil => rfl
  | cons slot rest ih =>
    cases ha : slot.activity with
    | none => simpa [List.filter_cons, truthy, ha] using ih
    | some a =>
      by_cases he : a = ""
      · simpa [List.filter_cons, truthy, ha, he] using ih
      · simpa [List.filter_cons, truthy, ha, he, List.filterMap_cons] using ih

theorem getFilledSlotsCount_le (timeSlots : List TimeSlot) :
    getFilledSlotsCount timeSlots ≤ timeSlots.length :=
  List.length_filter_le _ _

/-- Every entry of the summary comes from a property of the count object; a
numeric count lies between 1 and the number of filled slots. -/
theorem calculateSummary_entry (timeSlots : List TimeSlot) (entry : SummaryEntry)
    (he : entry ∈ calculateSummary timeSlots) :
    entry.percentage = percentageOf entry.count (getFilledSlotsCount timeSlots) ∧
      ∀ n, entry.count = .num n → 1 ≤ n ∧ n ≤ getFilledSlotsCount timeSlots := by
  obtain ⟨kv, hkv, rfl⟩ := List.mem_map.1 ((calculateSummary_perm timeSlots).mem_iff.1 he)
  refine ⟨rfl, fun n hn => ?_⟩
  have := foldl_countActivity_num_bound (filledLabels timeSlots) [] 0
    (fun kv h => by simp at h) kv hkv n hn
  rw [filledLabels_length] at this
  omega

/-- The nearest-tenth property in rational form. -/
theorem nearest_tenth (K n t : Nat) (ht : 0 < t) (h1 : 2 * t * K ≤ 2000 * n + t)
    (h2 : 2000 * n ≤ 2 * t * K + t) :
    |(K : ℚ) / 10 - (n : ℚ) / (t : ℚ) * 100| ≤ 1 / 20 ∧
      ∀ J : Int, |(K : ℚ) / 10 - (n : ℚ) / (t : ℚ) * 100| ≤
        |(J : ℚ) / 10 - (n : ℚ) / (t : ℚ) * 100| := by
  have htq : (0 : ℚ) < t := by exact_mod_cast ht
  have h1q : (2 : ℚ) * t * K ≤ 2000 * n + t := by exact_mod_cast h1
  have h2q : (2000 : ℚ) * n ≤ 2 * t * K + t := by exact_mod_cast h2
  have hv : (n : ℚ) / (t : ℚ) * 100 * t = 100 * n := by
    field_simp
    ring
  have hbound : |(K : ℚ) / 10 - (n : ℚ) / (t : ℚ) * 100| ≤ 1 / 20 := by
    generalize (n : ℚ) / (t : ℚ) * 100 = v at hv ⊢
    rw [abs_le]
    constructor
    · by_contra hcon
      push_neg at hcon
      have hpos : 0 < (-(1 / 20) - ((K : ℚ) / 10 - v)) * t := mul_pos (by linarith) htq
      nlinarith [hpos]
    · by_contra hcon
      push_neg at hcon
      have hpos : 0 < ((K : ℚ) / 10 - v - 1 / 20) * t := mul_pos (by linarith) htq
      nlinarith [hpos]
  refine ⟨hbound, fun J => ?_⟩
  by_cases hJ : J = (K : Int)
  · subst hJ
    simp
  · have hdiff : (1 : ℚ) ≤ |(J : ℚ) - (K : ℚ)| := by
      have hne : J - (K : Int) ≠ 0 := sub_ne_zero.2 hJ
      have : (1 : Int) ≤ |J - (K : Int)| := Int.one_le_abs hne
      have h3 : ((1 : Int) : ℚ) ≤ ((|J - (K : Int)| : Int) : ℚ) := by exact_mod_cast this
      simpa using h3
    have htri : |(J : ℚ) / 10 - (K : ℚ) / 10| ≤
        |(J : ℚ) / 10 - (n : ℚ) / (t : ℚ) * 100| + |(K : ℚ) / 10 - (n : ℚ) / (t : ℚ) * 100| := by
      have := abs_sub_le ((J : ℚ) / 10) ((n : ℚ) / (t : ℚ) * 100) ((K : ℚ) / 10)
      rw [abs_sub_comm ((n : ℚ) / (t : ℚ) * 100) ((K : ℚ) / 10)] at this
      exact this
    have hjk : |(J : ℚ) / 10 - (K : ℚ) / 10| = |(J : ℚ) - (K : ℚ)| / 10 := by
      rw [← sub_div, abs_div]
      norm_num
    rw [hjk] at htri
    linarith

/-- C11, as stated, fails: with 23 of 80 filled slots the exact percentage is 28.75
and rounds to 28.8, but the entry says 28.7 (and 41 of 80, exactly 51.25, gives
51.2), while 1 of 16, exactly 6.25, gives 6.3: the double product is rounded,
not the exact value. -/
theorem calculateSummary_percentage_tie :
    (calculateSummary tieDay).map (fun e => (e.activity, e.count, e.percentage)) =
        [("Work", .num 41, .fixed "51.2"), ("Reading", .num 23, .fixed "28.7"),
         ("Rest", .num 16, .fixed "20.0")] ∧
      getFilledSlotsCount tieDay = 80 ∧
      specPercentageTenths 23 80 = 288 ∧ specPercentageTenths 41 80 = 513 ∧
      (23 : ℚ) / 80 * 100 = 28.75 ∧ (41 : ℚ) / 80 * 100 = 51.25 ∧
      (calculateSummary sixteenDay).map (fun e => (e.count, e.percentage)) =
        List.replicate 16 (.num 1, .fixed "6.3") ∧
      getFilledSlotsCount sixteenDay = 16 ∧ (1 : ℚ) / 16 * 100 = 6.25 := by
  refine ⟨?_, by decide, by decide, by decide, by norm_num, by norm_num, by decide, by decide,
    by norm_num⟩
  set_option maxRecDepth 100000 in decide

/-- C11 (amended): in a timeline of fewer than `2 ^ 32` slots (every JavaScript
array), each entry whose count is a number `n` has a percentage written with
exactly one digit after the point, `K / 10`, that is a one-decimal numeral
nearest to `n / totalFilledSlots * 100`, hence within 0.05 of it; when the exact
value lies halfway between two numerals either of them may be the result. -/
theorem calculateSummary_percentage (timeSlots : List TimeSlot)
    (hlen : timeSlots.length < 2 ^ 32) (entry : SummaryEntry)
    (he : entry ∈ calculateSummary timeSlots) (n : Nat) (hn : entry.count = .num n) :
    ∃ K : Nat,
      entry.percentage = .fixed (toString (K / 10) ++ "." ++ toString (K % 10)) ∧
      |(K : ℚ) / 10 - (n : ℚ) / (getFilledSlotsCount timeSlots : ℚ) * 100| ≤ 1 / 20 ∧
      ∀ J : Int, |(K : ℚ) / 10 - (n : ℚ) / (getFilledSlotsCount timeSlots : ℚ) * 100| ≤
        |(J : ℚ) / 10 - (n : ℚ) / (getFilledSlotsCount timeSlots : ℚ) * 100| := by
  obtain ⟨hp, hb⟩ := calculateSummary_entry timeSlots entry he
  obtain ⟨h1, h2⟩ := hb n hn
  have htot : getFilledSlotsCount timeSlots < 2 ^ 32 :=
    lt_of_le_of_lt (getFilledSlotsCount_le timeSlots) hlen
  have hpos : 0 < getFilledSlotsCount timeSlots := by omega
  obtain ⟨K, hK, hK1, hK2⟩ := percentage_near n (getFilledSlotsCount timeSlots) h1 h2 htot
  refine ⟨K, ?_, nearest_tenth K n _ hpos hK1 hK2⟩
  rw [hp, hn]
  simp only [percentageOf, gt_iff_lt, hpos, if_true, hK]

/-- Witness for C11 (amended): the Email entry of the sample day, 1 of 3 filled slots. -/
theorem calculateSummary_percentage_witness :
    sampleDay.length < 2 ^ 32 ∧
      ({ activity := "Email", count := .num 1, percentage := .fixed "33.3",
         minutes := some 15 } : SummaryEntry) ∈ calculateSummary sampleDay ∧
      ∃ K : Nat, Percentage.fixed "33.3" =
          .fixed (toString (K / 10) ++ "." ++ toString (K % 10)) ∧
        |(K : ℚ) / 10 - ((1 : Nat) : ℚ) / (getFilledSlotsCount sampleDay : ℚ) * 100| ≤ 1 / 20 ∧
        ∀ J : Int, |(K : ℚ) / 10 - ((1 : Nat) : ℚ) / (getFilledSlotsCount sampleDay : ℚ) * 100| ≤
          |(J : ℚ) / 10 - ((1 : Nat) : ℚ) / (getFilledSlotsCount sampleDay : ℚ) * 100| :=
  ⟨by decide, by decide,
   calculateSummary_percentage sampleDay (by decide)
     { activity := "Email", count := .num 1, percentage := .fixed "33.3", minutes := some 15 }
     (by decide) 1 rfl⟩

theorem sum_setOwn (obj : JsObject) (name : String) (v : CountValue) :
    ((setOwn obj name v).map (fun kv => kv.2.toNat)).sum + countOf obj name =
      (obj.map (fun kv => kv.2.toNat)).sum + v.toNat := by
  induction obj with
  | nil => simp [setOwn, countOf, ownValue]
  | cons head rest ih =>
    obtain ⟨k, w⟩ := head
    by_cases hk : k = name
    · cases w <;> simp [setOwn, hk, countOf, ownValue, CountValue.toNat] <;> omega
    · have hc : countOf ((k, w) :: rest) name = countOf rest name := by
        simp [countOf, ownValue, hk]
      rw [hc]
      simp only [setOwn, if_neg hk, List.map_cons, List.sum_cons]
      omega

theorem sum_countActivity (obj : JsObject) (name : String) (hp : name ∉ objectPrototypeKeys)
    (hok : CountsOk obj) :
    ((countActivity obj name).map (fun kv => kv.2.toNat)).sum =
      (obj.map (fun kv => kv.2.toNat)).sum + 1 := by
  rw [countActivity_eq obj name hp]
  have h := sum_setOwn obj name (match ownValue obj name with
    | some (.num n) => .num (n + 1)
    | some .text => .text
    | none => .num 1)
  have hv : (match ownValue obj name with
      | some (.num n) => CountValue.num (n + 1)
      | some .text => .text
      | none => .num 1).toNat = countOf obj name + 1 := by
    cases hown : ownValue obj name with
    | none => simp [countOf, hown, CountValue.toNat]
    | some w =>
      obtain ⟨n, hn, _⟩ := hok.2 name w hown
      subst hn
      simp [countOf, hown, CountValue.toNat]
  rw [hv] at h
  omega

theorem sum_foldl_countActivity (labels : List String) :
    ∀ obj : JsObject, (∀ l ∈ labels, l ∉ objectPrototypeKeys) → CountsOk obj →
      ((labels.foldl countActivity obj).map (fun kv => kv.2.toNat)).sum =
        (obj.map (fun kv => kv.2.toNat)).sum + labels.length := by
  induction labels with
  | nil => intro obj _ _; simp
  | cons l rest ih =>
    intro obj hp hok
    have hl := hp l (List.mem_cons_self _ _)
    rw [List.foldl_cons, ih _ (fun x hx => hp x (List.mem_cons_of_mem _ hx))
      (countActivity_ok obj l hl hok).1, sum_countActivity obj l hl hok, List.length_cons]
    omega

theorem sum_bound_of_pointwise {α : Type} (l : List α) (f g : α → Nat) (t : Nat)
    (h : ∀ x ∈ l, 2 * t * f x ≤ 2000 * g x + t ∧ 2000 * g x ≤ 2 * t * f x + t) :
    2 * t * (l.map f).sum ≤ 2000 * (l.map g).sum + t * l.length ∧
      2000 * (l.map g).sum ≤ 2 * t * (l.map f).sum + t * l.length := by
  induction l with
  | nil => simp
  | cons a rest ih =>
    obtain ⟨h1, h2⟩ := h a (List.mem_cons_self _ _)
    obtain ⟨i1, i2⟩ := ih (fun x hx => h x (List.mem_cons_of_mem _ hx))
    simp only [List.map_cons, List.sum_cons, List.length_cons]
    constructor
    · nlinarith [h1, i1]
    · nlinarith [h2, i2]

/-- C13, as stated, fails: with 16 distinct labels, one slot each, every percentage
is 6.3 and the percentages sum to 100.8, more than 100.1. -/
theorem calculateSummary_percentages_sixteen :
    (calculateSummary sixteenDay).map (fun e => percentTenths e.percentage) =
        List.replicate 16 (some 63) ∧
      ((calculateSummary sixteenDay).map (fun e => (percentTenths e.percentage).getD 0)).sum
        = 1008 ∧
      ¬ ((1008 : ℚ) / 10 ≤ 100.1) := by
  refine ⟨by decide, by decide, by norm_num⟩

/-- C13 (amended): in a timeline of fewer than `2 ^ 32` slots none of whose labels
names a member of `Object.prototype`, every percentage reads as a number, and
with at least one entry their sum differs from 100 by at most 0.05 per entry:
in tenths, twice the sum lies within the number of entries of 2000. -/
theorem calculateSummary_percentage_sum (timeSlots : List TimeSlot)
    (hlen : timeSlots.length < 2 ^ 32)
    (h : ∀ slot ∈ timeSlots, ∀ label ∈ slot.activity, label ∉ objectPrototypeKeys) :
    (∀ entry ∈ calculateSummary timeSlots, ∃ K, percentTenths entry.percentage = some K) ∧
      2 * ((calculateSummary timeSlots).map
          (fun e => (percentTenths e.percentage).getD 0)).sum ≤
        2000 + (calculateSummary timeSlots).length ∧
      (calculateSummary timeSlots ≠ [] →
        2000 ≤ 2 * ((calculateSummary timeSlots).map
          (fun e => (percentTenths e.percentage).getD 0)).sum +
            (calculateSummary timeSlots).length) := by
  have hp : ∀ l ∈ filledLabels timeSlots, l ∉ objectPrototypeKeys := by
    intro l hl
    obtain ⟨_, slot, hm, hs⟩ := (mem_filledLabels timeSlots l).1 hl
    exact h slot hm l (Option.mem_def.2 hs)
  obtain ⟨hok, _⟩ := foldl_countActivity_ok (filledLabels timeSlots) [] hp countsOk_nil
  have hsum := sum_foldl_countActivity (filledLabels timeSlots) [] hp countsOk_nil
  simp only [List.map_nil, List.sum_nil, Nat.zero_add, filledLabels_length] at hsum
  obtain ⟨_, hvals⟩ := summary_object timeSlots h
  have hperm := calculateSummary_perm timeSlots
  -- every entry: numeric count, and tenths within half of the exact value
  have hentry : ∀ entry ∈ calculateSummary timeSlots,
      entry.count = .num entry.count.toNat ∧
        ∃ K, percentTenths entry.percentage = some K ∧
          2 * getFilledSlotsCount timeSlots * K ≤
              2000 * entry.count.toNat + getFilledSlotsCount timeSlots ∧
            2000 * entry.count.toNat ≤
              2 * getFilledSlotsCount timeSlots * K + getFilledSlotsCount timeSlots := by
    intro entry he
    obtain ⟨kv, hkv, hkve⟩ := List.mem_map.1 (hperm.mem_iff.1 he)
    have hnum : entry.count = .num entry.count.toNat := by
      rw [← hkve]
      simp only [summaryEntry]
      rw [hvals kv hkv]
      rfl
    obtain ⟨hpct, hb⟩ := calculateSummary_entry timeSlots entry he
    obtain ⟨h1, h2⟩ := hb _ hnum
    have htot : getFilledSlotsCount timeSlots < 2 ^ 32 :=
      lt_of_le_of_lt (getFilledSlotsCount_le timeSlots) hlen
    have hpos : 0 < getFilledSlotsCount timeSlots := by omega
    obtain ⟨K, hK, hK1, hK2⟩ := percentage_near _ _ h1 h2 htot
    refine ⟨hnum, K, ?_, hK1, hK2⟩
    rw [hpct, hnum]
    simp only [percentageOf, gt_iff_lt, hpos, if_true, hK]
    exact percentTenths_render K
  have hpoint : ∀ entry ∈ calculateSummary timeSlots,
      2 * getFilledSlotsCount timeSlots * (percentTenths entry.percentage).getD 0 ≤
          2000 * entry.count.toNat + getFilledSlotsCount timeSlots ∧
        2000 * entry.count.toNat ≤
          2 * getFilledSlotsCount timeSlots * (percentTenths entry.percentage).getD 0 +
            getFilledSlotsCount timeSlots := by
    intro entry he
    obtain ⟨_, K, hK, hK1, hK2⟩ := hentry entry he
    rw [hK]
    exact ⟨hK1, hK2⟩
  obtain ⟨hs1, hs2⟩ := sum_bound_of_pointwise (calculateSummary timeSlots)
    (fun e => (percentTenths e.percentage).getD 0) (fun e => e.count.toNat)
    (getFilledSlotsCount timeSlots) hpoint
  have hcounts : ((calculateSummary timeSlots).map (fun e => e.count.toNat)).sum =
      getFilledSlotsCount timeSlots := by
    rw [(hperm.map (fun e => e.count.toNat)).sum_eq, List.map_map]
    exact hsum
  rw [hcounts] at hs1 hs2
  have hnil : getFilledSlotsCount timeSlots = 0 → calculateSummary timeSlots = [] := by
    intro h0
    cases hS : calculateSummary timeSlots with
    | nil => rfl
    | cons e rest =>
      have he : e ∈ calculateSummary timeSlots := by rw [hS]; exact List.mem_cons_self _ _
      obtain ⟨hnum, _⟩ := hentry e he
      have := ((calculateSummary_entry timeSlots e he).2 _ hnum)
      omega
  refine ⟨fun entry he => ?_, ?_, ?_⟩
  · obtain ⟨_, K, hK, _⟩ := hentry entry he
    exact ⟨K, hK⟩
  · rcases Nat.eq_zero_or_pos (getFilledSlotsCount timeSlots) with h0 | hpos
    · rw [hnil h0]
      simp
    · nlinarith [hs1, hpos]
  · intro hne
    rcases Nat.eq_zero_or_pos (getFilledSlotsCount timeSlots) with h0 | hpos
    · exact absurd (hnil h0) hne
    · nlinarith [hs2, hpos]

/-- Witness for C13 (amended): the 16 labels of the sample day. -/
theorem calculateSummary_percentage_sum_witness :
    sixteenDay.length < 2 ^ 32 ∧
      (∀ slot ∈ sixteenDay, ∀ label ∈ slot.activity, label ∉ objectPrototypeKeys) ∧
      2 * ((calculateSummary sixteenDay).map
          (fun e => (percentTenths e.percentage).getD 0)).sum ≤
        2000 + (calculateSummary sixteenDay).length :=
  ⟨by decide, by decide,
   (calculateSummary_percentage_sum sixteenDay (by decide) (by decide)).2.1⟩

/-! ### C20: the timeline of every reachable state -/

theorem mergeSaved_times : ∀ (slots : List TimeSlot) (saved : List SavedSlot),
    (mergeSaved slots saved).map (fun slot => slot.time) = slots.map (fun slot => slot.time)
  | [], _ => rfl
  | _ :: _, [] => rfl
  | slot :: rest, savedSlot :: more => by
    simp only [mergeSaved, List.map_cons, mergeSaved_times rest more]
    split_ifs <;> rfl

theorem loadData_times (tz : TimeZone) (now endNow dateNow : Int) (read : StorageRead)
    (s : AppState) :
    (loadData tz now endNow dateNow read s).timeSlots.map (fun slot => slot.time) =
      (generateTimeSlots tz now endNow).map (fun slot => slot.time) := by
  cases read with
  | failed => rfl
  | absent => rfl
  | found data =>
    cases hd : data.timeSlots with
    | none => simp [loadData, hd]
    | some saved => simp [loadData, hd, mergeSaved_times]

theorem updateSlotActivity_times (timeSlots next : List TimeSlot) (slotIndex : Int)
    (activity : String) (isAuto : Bool)
    (h : (updateSlotActivity timeSlots slotIndex activity isAuto).toTimeline? = some next) :
    next.map (fun slot => slot.time) = timeSlots.map (fun slot => slot.time) := by
  by_cases h0 : slotIndex < 0
  · simp only [updateSlotActivity, if_pos h0, SlotArray.toTimeline?, Option.some.injEq] at h
    rw [← h]
  · by_cases h1 : slotIndex.toNat < timeSlots.length
    · simp only [updateSlotActivity, if_neg h0, dif_pos h1, SlotArray.toTimeline?,
        Option.some.injEq] at h
      rw [← h, List.map_set]
      apply List.ext_getElem
      · simp
      · intro i hi1 hi2
        by_cases hi : slotIndex.toNat = i
        · subst hi
          simp
        · simp [List.getElem_set, hi]
    · simp [updateSlotActivity, if_neg h0, dif_neg h1, SlotArray.toTimeline?] at h

theorem AppState_updateSlotActivity_times (s next : AppState) (slotIndex : Int)
    (activity : String) (isAuto : Bool)
    (h : s.updateSlotActivity slotIndex activity isAuto = some next) :
    next.timeSlots.map (fun slot => slot.time) = s.timeSlots.map (fun slot => slot.time) := by
  simp only [AppState.updateSlotActivity, Option.map_eq_some'] at h
  obtain ⟨slots, hs, rfl⟩ := h
  exact updateSlotActivity_times _ _ _ _ _ hs

theorem submitActivity_times (s next : AppState) (h : submitActivity s = some next) :
    next.timeSlots.map (fun slot => slot.time) = s.timeSlots.map (fun slot => slot.time) := by
  simp only [submitActivity] at h
  split_ifs at h with hb
  · rw [← Option.some.inj h]
  · simp only [Option.map_eq_some'] at h
    obtain ⟨slots, hs, rfl⟩ := h
    cases he : s.editingSlot with
    | none =>
      rw [he] at hs
      simp only [Option.some.injEq] at hs
      rw [← hs]
    | some i =>
      rw [he] at hs
      exact updateSlotActivity_times _ _ _ _ _ hs

theorem checkCurrentSlot_times (tz : TimeZone) (now midnightNow : Int) (s next : AppState)
    (h : checkCurrentSlot tz now midnightNow s = some next) :
    next.timeSlots.map (fun slot => slot.time) = s.timeSlots.map (fun slot => slot.time) := by
  unfold checkCurrentSlot at h
  by_cases hr : getCurrentSlotIndex tz now midnightNow ≥ 0 ∧
      getCurrentSlotIndex tz now midnightNow < (s.timeSlots.length : Int)
  · rw [if_pos hr] at h
    cases hg : s.timeSlots[(getCurrentSlotIndex tz now midnightNow).toNat]? with
    | none =>
      rw [hg] at h
      exact absurd h (by simp)
    | some slot =>
      rw [hg] at h
      by_cases hact : (!truthy slot.activity) = true
      · simp only [hact, if_true] at h
        by_cases hsleep : s.isSleepMode = true
        · rw [if_pos hsleep] at h
          exact AppState_updateSlotActivity_times
            { s with currentSlotIndex := some (getCurrentSlotIndex tz now midnightNow) } next _ _ _ h
        · rw [if_neg hsleep] at h
          by_cases hprompt : (!s.showPrompt && !editingTruthy s.editingSlot) = true
          · rw [if_pos hprompt] at h
            rw [← Option.some.inj h]
          · rw [if_neg hprompt] at h
            rw [← Option.some.inj h]
      · simp only [hact, if_false] at h
        rw [← Option.some.inj h]
  · rw [if_neg hr] at h
    rw [← Option.some.inj h]

theorem resetDay_times (tz : TimeZone) (now endNow dateNow : Int) (removed : Bool)
    (s : AppState) :
    (resetDay tz now endNow dateNow removed s).timeSlots = s.timeSlots ∨
      (resetDay tz now endNow dateNow removed s).timeSlots = generateTimeSlots tz now endNow := by
  cases removed
  · exact Or.inl rfl
  · exact Or.inr rfl

/-- The timeline of a reachable state is empty or has the start times of a
generated day. -/
theorem reachable_times (dayOk : TimeZone → Int → Int → Prop) (s : AppState)
    (h : Reachable dayOk s) :
    s.timeSlots = [] ∨ ∃ tz now endNow, dayOk tz now endNow ∧
      s.timeSlots.map (fun slot => slot.time) =
        (generateTimeSlots tz now endNow).map (fun slot => slot.time) := by
  have hnil : ∀ a b : List TimeSlot,
      a.map (fun slot => slot.time) = b.map (fun slot => slot.time) → b = [] → a = [] := by
    intro a b hab hb
    rw [hb] at hab
    simpa using hab
  induction h with
  | initial => exact Or.inl rfl
  | loadData tz now endNow dateNow read s hok _ _ _ =>
    exact Or.inr ⟨tz, now, endNow, hok, loadData_times tz now endNow dateNow read s⟩
  | loadSaved tz saveTz now endNow dateNow saveNow saving saved s tracking date hok _ _ _ _ =>
    exact Or.inr ⟨tz, now, endNow, hok, loadData_times tz now endNow dateNow _ s⟩
  | updateSlotActivity s next i a f _ _ hstep ih =>
    have ht := AppState_updateSlotActivity_times s next i a f hstep
    rcases ih with h0 | ⟨tz, now, endNow, hok, hm⟩
    · exact Or.inl (hnil _ _ ht h0)
    · exact Or.inr ⟨tz, now, endNow, hok, ht.trans hm⟩
  | submitActivity s next _ hstep ih =>
    have ht := submitActivity_times s next hstep
    rcases ih with h0 | ⟨tz, now, endNow, hok, hm⟩
    · exact Or.inl (hnil _ _ ht h0)
    · exact Or.inr ⟨tz, now, endNow, hok, ht.trans hm⟩
  | checkCurrentSlot tz0 now0 mid0 s next _ hstep ih =>
    have ht := checkCurrentSlot_times tz0 now0 mid0 s next hstep
    rcases ih with h0 | ⟨tz, now, endNow, hok, hm⟩
    · exact Or.inl (hnil _ _ ht h0)
    · exact Or.inr ⟨tz, now, endNow, hok, ht.trans hm⟩
  | resetDay tz now endNow dateNow removed s hok _ ih =>
    rcases resetDay_times tz now endNow dateNow removed s with hr | hr
    · rw [hr]
      exact ih
    · exact Or.inr ⟨tz, now, endNow, hok, by rw [hr]⟩
  | other s next _ hsame ih =>
    rw [hsame]
    exact ih

theorem generateTimeSlots_length_of_full_day_aux (tz : TimeZone) (now endNow : Int)
    (h : fullDay tz now endNow) : (generateTimeSlots tz now endNow).length = 96 := by
  rw [generateTimeSlots_length, getMidnightTomorrow_congr tz now endNow h.1]
  have h2 := h.2
  simp only [slotCount, slotMs, INTERVAL_MINUTES, msPerDay] at h2 ⊢
  omega

theorem times_getElem (timeSlots : List TimeSlot) (tz : TimeZone) (now endNow : Int)
    (hm : timeSlots.map (fun slot => slot.time) =
      (generateTimeSlots tz now endNow).map (fun slot => slot.time))
    (i : Nat) (hi : i < timeSlots.length) :
    timeSlots[i].time = getMidnightToday tz now + (i : Int) * slotMs := by
  have hlen : timeSlots.length = (generateTimeSlots tz now endNow).length := by
    have := congrArg List.length hm
    simpa using this
  have hi2 : i < (generateTimeSlots tz now endNow).length := hlen ▸ hi
  have h1 : (timeSlots.map (fun slot => slot.time))[i]? = some timeSlots[i].time := by
    rw [List.getElem?_map, List.getElem?_eq_getElem hi]
    rfl
  have h2 : ((generateTimeSlots tz now endNow).map (fun slot => slot.time))[i]? =
      some (generateTimeSlots tz now endNow)[i].time := by
    rw [List.getElem?_map, List.getElem?_eq_getElem hi2]
    rfl
  rw [hm, h2, generateTimeSlots_getElem tz now endNow i hi2] at h1
  exact (Option.some.inj h1).symm

/-- C20, as stated, fails: the state after `loadData` on 2024-03-10 in US Eastern
time, a day of 23 hours, is reachable and its timeline has 92 entries; and the
initial state itself has none. -/
theorem reachable_dst_day :
    Reachable (fun _ _ _ => True)
        (loadData easternTime 1710086400000 1710086400000 1710086400000 .absent initialState) ∧
      (loadData easternTime 1710086400000 1710086400000 1710086400000 .absent
        initialState).timeSlots.length = 92 ∧
      Reachable (fun _ _ _ => True) initialState ∧ initialState.timeSlots.length = 0 := by
  refine ⟨Reachable.loadData _ _ _ _ _ _ trivial (Or.inr rfl) Reachable.initial, ?_,
    Reachable.initial, rfl⟩
  exact generateTimeSlots_eastern_dst_length_aux

/-- C20 (amended): in every state reachable from the initial state by `loadData`,
`updateSlotActivity`, `submitActivity`, `checkCurrentSlot` and `resetDay` (and
events that leave `timeSlots` alone), as long as no write lands at or past the
end of the timeline, the start times are strictly increasing and spaced exactly
15 minutes apart; and when in every `loadData` and `resetDay` both clock readings
of the slot generation fall on the same local day and that day lasts 24 hours,
the timeline is empty (before the first of them) or has exactly 96 entries. -/
theorem reachable_timeline (dayOk : TimeZone → Int → Int → Prop) (s : AppState)
    (h : Reachable dayOk s) :
    (∀ (i : Nat) (hi : i + 1 < s.timeSlots.length),
      s.timeSlots[i + 1].time = s.timeSlots[i].time + 15 * 60 * 1000) ∧
    (∀ (i j : Nat) (hi : i < s.timeSlots.length) (hj : j < s.timeSlots.length), i < j →
      s.timeSlots[i].time < s.timeSlots[j].time) ∧
    ((∀ tz now endNow, dayOk tz now endNow → fullDay tz now endNow) →
      s.timeSlots = [] ∨ s.timeSlots.length = 96) := by
  rcases reachable_times dayOk s h with h0 | ⟨tz, now, endNow, hok, hm⟩
  · refine ⟨?_, ?_, fun _ => Or.inl h0⟩
    · intro i hi
      rw [h0] at hi
      simp at hi
    · intro i j hi
      rw [h0] at hi
      simp at hi
  · refine ⟨?_, ?_, fun hday => Or.inr ?_⟩
    · intro i hi
      rw [times_getElem _ tz now endNow hm (i + 1) hi,
        times_getElem _ tz now endNow hm i (by omega)]
      simp only [slotMs, INTERVAL_MINUTES]
      push_cast
      omega
    · intro i j hi hj hij
      rw [times_getElem _ tz now endNow hm i hi, times_getElem _ tz now endNow hm j hj]
      simp only [slotMs, INTERVAL_MINUTES]
      omega
    · have hlen : s.timeSlots.length = (generateTimeSlots tz now endNow).length := by
        have := congrArg List.length hm
        simpa using this
      rw [hlen]
      exact generateTimeSlots_length_of_full_day_aux tz now endNow (hday tz now endNow hok)

/-- Witness for C20 (amended): the state after `loadData` in the UTC zone with nothing
stored, the two readings one millisecond apart at 2024-03-10 16:00Z. -/
theorem reachable_timeline_witness :
    Reachable fullDay
        (loadData (TimeZone.fixed 0) 1710086400000 1710086400001 1710086400002 .absent
          initialState) ∧
      (∀ tz now endNow, fullDay tz now endNow → fullDay tz now endNow) ∧
      ((loadData (TimeZone.fixed 0) 1710086400000 1710086400001 1710086400002 .absent
          initialState).timeSlots = [] ∨
        (loadData (TimeZone.fixed 0) 1710086400000 1710086400001 1710086400002 .absent
          initialState).timeSlots.length = 96) :=
  ⟨Reachable.loadData _ _ _ _ _ _ (by decide) (Or.inr rfl) Reachable.initial, fun _ _ _ h => h,
   (reachable_timeline fullDay _
      (Reachable.loadData _ _ _ _ _ _ (by decide) (Or.inr rfl) Reachable.initial)).2.2
      (fun _ _ _ h => h)⟩

/-! ### C21: generated slots are unlabelled -/

/-- C21: every slot returned by `generateTimeSlots` has activity null and `isAuto`
false. -/
theorem generateTimeSlots_unlabelled (tz : TimeZone) (now endNow : Int) (slot : TimeSlot)
    (h : slot ∈ generateTimeSlots tz now endNow) : slot.activity = none ∧ slot.isAuto = false :=
  generateTimeSlots_activity tz now endNow slot h

/-- Witness for C21: the first slot of the day generated at instant 0 in the UTC zone. -/
theorem generateTimeSlots_unlabelled_witness :
    ({ time := 0, activity := none, isAuto := false } : TimeSlot) ∈
        generateTimeSlots (TimeZone.fixed 0) 0 0 ∧
      (({ time := 0, activity := none, isAuto := false } : TimeSlot).activity = none ∧
        ({ time := 0, activity := none, isAuto := false } : TimeSlot).isAuto = false) :=
  have hm : ({ time := 0, activity := none, isAuto := false } : TimeSlot) ∈
      generateTimeSlots (TimeZone.fixed 0) 0 0 := by
    rw [generateTimeSlots_eq]
    refine List.mem_map.2 ⟨0, ?_, by decide⟩
    rw [List.mem_range]
    decide
  ⟨hm, generateTimeSlots_unlabelled (TimeZone.fixed 0) 0 0 _ hm⟩

/-! ### C26: frame of `updateSlotActivity` -/

/-- C26: a write at an in-range index changes only the activity and `isAuto` of
that slot: the length, the start time of the slot and every other slot stay as
they are. -/
theorem updateSlotActivity_frame (timeSlots : List TimeSlot) (slotIndex : Int)
    (activity : String) (isAuto : Bool) (h0 : 0 ≤ slotIndex)
    (h1 : slotIndex < (timeSlots.length : Int)) :
    ∃ next : List TimeSlot,
      updateSlotActivity timeSlots slotIndex activity isAuto = .timeline next ∧
      next.length = timeSlots.length ∧
      (next[slotIndex.toNat]?).map (fun slot => slot.time) =
        (timeSlots[slotIndex.toNat]?).map (fun slot => slot.time) ∧
      (next[slotIndex.toNat]?).map (fun slot => (slot.activity, slot.isAuto)) =
        some (some activity, isAuto) ∧
      ∀ j : Nat, j ≠ slotIndex.toNat → next[j]? = timeSlots[j]? := by
  have hlt : slotIndex.toNat < timeSlots.length := by omega
  refine ⟨_, updateSlotActivity_in_range timeSlots slotIndex activity isAuto h0 hlt, ?_, ?_, ?_, ?_⟩
  · simp
  · simp [List.getElem?_set, hlt]
  · simp [List.getElem?_set, hlt]
  · intro j hj
    simp [List.getElem?_set, Ne.symm hj]

/-- Witness for C26: a write at slot 1 of the sample day. -/
theorem updateSlotActivity_frame_witness :
    (0 : Int) ≤ 1 ∧ (1 : Int) < (sampleDay.length : Int) ∧
      ∃ next : List TimeSlot,
        updateSlotActivity sampleDay 1 "Lunch" false = .timeline next ∧
        next.length = sampleDay.length ∧
        (next[(1 : Int).toNat]?).map (fun slot => slot.time) =
          (sampleDay[(1 : Int).toNat]?).map (fun slot => slot.time) ∧
        (next[(1 : Int).toNat]?).map (fun slot => (slot.activity, slot.isAuto)) =
          some (some "Lunch", false) ∧
        ∀ j : Nat, j ≠ (1 : Int).toNat → next[j]? = sampleDay[j]? :=
  ⟨by decide, by decide,
   updateSlotActivity_frame sampleDay 1 "Lunch" false (by decide) (by decide)⟩

/-! ### C22 and C29: `checkCurrentSlot` on the current slot -/

theorem checkCurrentSlot_in_range (tz : TimeZone) (now midnightNow : Int) (s : AppState)
    (slot : TimeSlot)
    (h0 : 0 ≤ getCurrentSlotIndex tz now midnightNow)
    (h1 : getCurrentSlotIndex tz now midnightNow < (s.timeSlots.length : Int))
    (hs : s.timeSlots[(getCurrentSlotIndex tz now midnightNow).toNat]? = some slot) :
    checkCurrentSlot tz now midnightNow s =
      if !truthy slot.activity then
        if s.isSleepMode then
          some { s with
            currentSlotIndex := some (getCurrentSlotIndex tz now midnightNow)
            timeSlots := s.timeSlots.set (getCurrentSlotIndex tz now midnightNow).toNat
              { slot with activity := some "Sleeping", isAuto := true } }
        else if !s.showPrompt && !editingTruthy s.editingSlot then
          some { s with
            currentSlotIndex := some (getCurrentSlotIndex tz now midnightNow)
            editingSlot := some (getCurrentSlotIndex tz now midnightNow)
            currentActivity := ""
            showPrompt := true }
        else
          some { s with currentSlotIndex := some (getCurrentSlotIndex tz now midnightNow) }
      else
        some { s with currentSlotIndex := some (getCurrentSlotIndex tz now midnightNow) } := by
  have hlt : (getCurrentSlotIndex tz now midnightNow).toNat < s.timeSlots.length := by omega
  have hget : s.timeSlots[(getCurrentSlotIndex tz now midnightNow).toNat] = slot := by
    rw [List.getElem?_eq_getElem hlt] at hs
    exact Option.some.inj hs
  unfold checkCurrentSlot
  simp only [ge_iff_le, h0, h1, and_self, if_true, hs]
  by_cases hact : (!truthy slot.activity) = true
  · simp only [hact, if_true]
    by_cases hsleep : s.isSleepMode = true
    · simp only [hsleep, if_true, AppState.updateSlotActivity]
      rw [updateSlotActivity_in_range _ _ _ _ h0 hlt]
      simp only [SlotArray.toTimeline?, Option.map_some', hget]
    · simp only [hsleep, Bool.false_eq_true, if_false]
  · simp only [hact, Bool.false_eq_true, if_false]

/-- C22: when the current slot is in range and has no activity (null, or the empty
string), `checkCurrentSlot` with sleep mode on sets that slot to Sleeping with
`isAuto` true and leaves the prompt, the slot being edited and the entered text
as they are; with sleep mode off it leaves the timeline unchanged and either
changes nothing else or opens the prompt for that slot. -/
theorem checkCurrentSlot_empty_slot (tz : TimeZone) (now midnightNow : Int) (s : AppState)
    (slot : TimeSlot)
    (h0 : 0 ≤ getCurrentSlotIndex tz now midnightNow)
    (h1 : getCurrentSlotIndex tz now midnightNow < (s.timeSlots.length : Int))
    (hs : s.timeSlots[(getCurrentSlotIndex tz now midnightNow).toNat]? = some slot)
    (he : truthy slot.activity = false) :
    (s.isSleepMode = true →
      ∃ next, checkCurrentSlot tz now midnightNow s = some next ∧
        next.timeSlots = s.timeSlots.set (getCurrentSlotIndex tz now midnightNow).toNat
          { slot with activity := some "Sleeping", isAuto := true } ∧
        next.showPrompt = s.showPrompt ∧ next.editingSlot = s.editingSlot ∧
        next.currentActivity = s.currentActivity) ∧
    (s.isSleepMode = false →
      ∃ next, checkCurrentSlot tz now midnightNow s = some next ∧ next.timeSlots = s.timeSlots ∧
        (next = { s with currentSlotIndex := some (getCurrentSlotIndex tz now midnightNow) } ∨
          next = { s with
            currentSlotIndex := some (getCurrentSlotIndex tz now midnightNow)
            editingSlot := some (getCurrentSlotIndex tz now midnightNow)
            currentActivity := ""
            showPrompt := true })) := by
  have hc := checkCurrentSlot_in_range tz now midnightNow s slot h0 h1 hs
  simp only [he, Bool.not_false, if_true] at hc
  constructor
  · intro hsleep
    rw [if_pos hsleep] at hc
    exact ⟨_, hc, rfl, rfl, rfl, rfl⟩
  · intro hsleep
    rw [if_neg (by simp [hsleep])] at hc
    by_cases hp : (!s.showPrompt && !editingTruthy s.editingSlot) = true
    · rw [if_pos hp] at hc
      exact ⟨_, hc, rfl, Or.inr rfl⟩
    · rw [if_neg hp] at hc
      exact ⟨_, hc, rfl, Or.inl rfl⟩

/-- Witness for C22: at instant 0 in the UTC zone, tracking with sleep mode off. -/
theorem checkCurrentSlot_empty_slot_witness :
    0 ≤ getCurrentSlotIndex (TimeZone.fixed 0) 0 0 ∧
    getCurrentSlotIndex (TimeZone.fixed 0) 0 0 < (trackingState.timeSlots.length : Int) ∧
    trackingState.timeSlots[(getCurrentSlotIndex (TimeZone.fixed 0) 0 0).toNat]? =
      some { time := 0, activity := none, isAuto := false } ∧
    truthy ({ time := 0, activity := none, isAuto := false } : TimeSlot).activity = false ∧
    (trackingState.isSleepMode = false →
      ∃ next, checkCurrentSlot (TimeZone.fixed 0) 0 0 trackingState = some next ∧
        next.timeSlots = trackingState.timeSlots ∧
        (next = { trackingState with
            currentSlotIndex := some (getCurrentSlotIndex (TimeZone.fixed 0) 0 0) } ∨
          next = { trackingState with
            currentSlotIndex := some (getCurrentSlotIndex (TimeZone.fixed 0) 0 0)
            editingSlot := some (getCurrentSlotIndex (TimeZone.fixed 0) 0 0)
            currentActivity := ""
            showPrompt := true })) :=
  ⟨by decide, by decide, by decide, by decide,
   (checkCurrentSlot_empty_slot (TimeZone.fixed 0) 0 0 trackingState
      { time := 0, activity := none, isAuto := false }
      (by decide) (by decide) (by decide) (by decide)).2⟩

/-- C29: when the current slot already has an activity (a label, which is never the
empty string), `checkCurrentSlot` only records the index of the current slot:
the timeline, the prompt, the slot being edited and the entered text stay as
they are, whether sleep mode is on or off. -/
theorem checkCurrentSlot_labelled_slot (tz : TimeZone) (now midnightNow : Int) (s : AppState)
    (slot : TimeSlot) (h0 : 0 ≤ getCurrentSlotIndex tz now midnightNow)
    (h1 : getCurrentSlotIndex tz now midnightNow < (s.timeSlots.length : Int))
    (hs : s.timeSlots[(getCurrentSlotIndex tz now midnightNow).toNat]? = some slot)
    (hl : slot.activity ≠ none ∧ slot.activity ≠ some "") :
    checkCurrentSlot tz now midnightNow s =
      some { s with currentSlotIndex := some (getCurrentSlotIndex tz now midnightNow) } := by
  have hc := checkCurrentSlot_in_range tz now midnightNow s slot h0 h1 hs
  have ht : truthy slot.activity = true := (truthy_iff slot.activity).2 hl
  simpa [ht] using hc

/-- Witness for C29: the sample day at its first slot with sleep mode on. -/
theorem checkCurrentSlot_labelled_slot_witness :
    0 ≤ getCurrentSlotIndex (TimeZone.fixed 0) 0 0 ∧
    getCurrentSlotIndex (TimeZone.fixed 0) 0 0 <
      (({ initialState with isSleepMode := true, timeSlots := sampleDay } :
        AppState).timeSlots.length : Int) ∧
    ({ initialState with isSleepMode := true, timeSlots := sampleDay } :
        AppState).timeSlots[(getCurrentSlotIndex (TimeZone.fixed 0) 0 0).toNat]? =
      some { time := 0, activity := some "Sleeping", isAuto := true } ∧
    checkCurrentSlot (TimeZone.fixed 0) 0 0
        { initialState with isSleepMode := true, timeSlots := sampleDay } =
      some { initialState with
        isSleepMode := true
        timeSlots := sampleDay
        currentSlotIndex := some (getCurrentSlotIndex (TimeZone.fixed 0) 0 0) } :=
  ⟨by decide, by decide, by decide,
   checkCurrentSlot_labelled_slot (TimeZone.fixed 0) 0 0
     { initialState with isSleepMode := true, timeSlots := sampleDay }
     { time := 0, activity := some "Sleeping", isAuto := true }
     (by decide) (by decide) (by decide) (by decide)⟩

/-! ### C30: what `submitActivity` stores -/

theorem jsTrim_data (s : String) :
    (jsTrim s).data = (s.data.dropWhile isJsWhitespace).rdropWhile isJsWhitespace := rfl

theorem jsTrim_ne_empty (s : String) (h : ¬ isBlank s) : jsTrim s ≠ "" := by
  intro he
  have hd : (jsTrim s).data = [] := by rw [he]
  rw [jsTrim_data, List.rdropWhile_eq_nil_iff] at hd
  have hne : s.data.dropWhile isJsWhitespace ≠ [] := by
    intro hnil
    rw [List.dropWhile_eq_nil_iff] at hnil
    exact h hnil
  have hhead := List.head_dropWhile_not isJsWhitespace s.data hne
  have := hd _ (List.head_mem hne)
  rw [this] at hhead
  exact absurd hhead (by simp)

theorem jsTrim_head (s : String) (c : Char) (h : (jsTrim s).data.head? = some c) :
    isJsWhitespace c = false := by
  rw [jsTrim_data] at h
  obtain ⟨t, ht⟩ := List.rdropWhile_prefix isJsWhitespace (s.data.dropWhile isJsWhitespace)
  have h2 : (s.data.dropWhile isJsWhitespace).head? = some c := by
    rw [← ht]
    cases hr : List.rdropWhile isJsWhitespace (s.data.dropWhile isJsWhitespace) with
    | nil => rw [hr] at h; exact absurd h (by simp)
    | cons a rest => rw [hr] at h; simpa using h
  have h3 := List.head?_dropWhile_not isJsWhitespace s.data
  rw [h2] at h3
  exact h3

theorem jsTrim_last (s : String) (c : Char) (h : (jsTrim s).data.getLast? = some c) :
    isJsWhitespace c = false := by
  rw [jsTrim_data] at h
  have hne : List.rdropWhile isJsWhitespace (s.data.dropWhile isJsWhitespace) ≠ [] := by
    intro hnil
    rw [hnil] at h
    exact absurd h (by simp)
  have h2 := List.rdropWhile_last_not isJsWhitespace (s.data.dropWhile isJsWhitespace) hne
  rw [List.getLast?_eq_getLast _ hne] at h
  rw [← Option.some.inj h]
  simpa using h2

/-- C30: with a slot being edited that is in range and entered text that is not
blank, `submitActivity` stores at that slot exactly the trimmed text with
`isAuto` false, leaves the other slots as they are, closes the prompt and clears
`editingSlot`; the stored label is not empty and neither begins nor ends with a
whitespace character. -/
theorem submitActivity_stores_trimmed (s : AppState) (i : Int) (slot : TimeSlot)
    (he : s.editingSlot = some i) (h0 : 0 ≤ i) (h1 : i < (s.timeSlots.length : Int))
    (hs : s.timeSlots[i.toNat]? = some slot) (hb : ¬ isBlank s.currentActivity) :
    submitActivity s = some { s with
        timeSlots := s.timeSlots.set i.toNat
          { slot with activity := some (jsTrim s.currentActivity), isAuto := false }
        currentActivity := ""
        showPrompt := false
        editingSlot := none
        showSuggestions := false } ∧
      jsTrim s.currentActivity ≠ "" ∧
      (∀ c, (jsTrim s.currentActivity).data.head? = some c → isJsWhitespace c = false) ∧
      (∀ c, (jsTrim s.currentActivity).data.getLast? = some c → isJsWhitespace c = false) := by
  have hlt : i.toNat < s.timeSlots.length := by omega
  have hget : s.timeSlots[i.toNat] = slot := by
    rw [List.getElem?_eq_getElem hlt] at hs
    exact Option.some.inj hs
  have hne := jsTrim_ne_empty _ hb
  refine ⟨?_, hne, jsTrim_head _, jsTrim_last _⟩
  simp only [submitActivity, if_neg hne, he]
  rw [updateSlotActivity_in_range _ _ _ _ h0 hlt]
  simp only [SlotArray.toTimeline?, Option.map_some', hget]

/-- Witness for C30: the prompt of the tracking state at slot 1 with padded text. -/
theorem submitActivity_stores_trimmed_witness :
    ({ trackingState with editingSlot := some 1, currentActivity := "  Email \n" } :
        AppState).editingSlot = some 1 ∧
    ¬ isBlank ({ trackingState with editingSlot := some 1, currentActivity := "  Email \n" } :
        AppState).currentActivity ∧
    submitActivity { trackingState with editingSlot := some 1, currentActivity := "  Email \n" } =
      some { trackingState with
        timeSlots := [{ time := 0, activity := none, isAuto := false },
          { time := 900000, activity := some "Email", isAuto := false }] } :=
  ⟨rfl, by decide,
   (submitActivity_stores_trimmed
      { trackingState with editingSlot := some 1, currentActivity := "  Email \n" } 1
      { time := 900000, activity := none, isAuto := false }
      rfl (by decide) (by decide) (by decide) (by decide)).1.trans (by decide)⟩

/-! ### C23: a press on a future slot -/

/-- C23: when the pressed slot starts after `now`, `handleSlotPress` returns the
state it was given: `editingSlot`, `showPrompt`, `currentActivity` and the
timeline are unchanged; so whenever it does change the state, the pressed slot
does not start after `now`. -/
theorem handleSlotPress_future (now : Int) (index : Int) (s : AppState) (slot : TimeSlot)
    (h0 : 0 ≤ index) (hs : s.timeSlots[index.toNat]? = some slot) :
    (slot.time > now → handleSlotPress now index s = some s) ∧
    (∀ next, handleSlotPress now index s = some next → next ≠ s → slot.time ≤ now) := by
  have hn : ¬ index < 0 := by omega
  have hf : slot.time > now → handleSlotPress now index s = some s := by
    intro hgt
    simp only [handleSlotPress, if_neg hn, hs, if_pos hgt]
  refine ⟨hf, fun next hnext hne => ?_⟩
  by_contra hgt
  rw [hf (by omega)] at hnext
  exact hne (Option.some.inj hnext).symm

/-- Witness for C23: slot 1 of the tracking state pressed at instant 0. -/
theorem handleSlotPress_future_witness :
    (0 : Int) ≤ 1 ∧
    trackingState.timeSlots[(1 : Int).toNat]? =
      some { time := 900000, activity := none, isAuto := false } ∧
    ({ time := 900000, activity := none, isAuto := false } : TimeSlot).time > 0 ∧
    handleSlotPress 0 1 trackingState = some trackingState :=
  ⟨by decide, by decide, by decide,
   (handleSlotPress_future 0 1 trackingState
      { time := 900000, activity := none, isAuto := false } (by decide) (by decide)).1
      (by decide)⟩

/-! ### C24: range of the current slot index and guarded reads -/

theorem some_of_lt (timeSlots : List TimeSlot) (i : Int) (h0 : 0 ≤ i)
    (h1 : i < (timeSlots.length : Int)) :
    ∃ slot, timeSlots[i.toNat]? = some slot := by
  have hlt : i.toNat < timeSlots.length := by omega
  exact ⟨timeSlots[i.toNat], List.getElem?_eq_getElem hlt⟩

/-- C24: `getCurrentSlotIndex` lies in 0..95 exactly when `now` lies in the 24
hours from the local midnight it uses; `checkCurrentSlot` and the notification
response handler complete for every state, since under their guard
`0 <= slotIndex < timeSlots.length` the element they read exists, and when the
guard fails they read no element: the first only records the index and the second
changes nothing. -/
theorem getCurrentSlotIndex_range (tz : TimeZone) (now midnightNow : Int) :
    ((0 ≤ getCurrentSlotIndex tz now midnightNow ∧ getCurrentSlotIndex tz now midnightNow ≤ 95) ↔
      (getMidnightToday tz midnightNow ≤ now ∧
        now < getMidnightToday tz midnightNow + 24 * 60 * 60 * 1000)) ∧
    (∀ s : AppState,
      (checkCurrentSlot tz now midnightNow s).isSome = true ∧
      (¬ (0 ≤ getCurrentSlotIndex tz now midnightNow ∧
          getCurrentSlotIndex tz now midnightNow < (s.timeSlots.length : Int)) →
        checkCurrentSlot tz now midnightNow s =
          some { s with currentSlotIndex := some (getCurrentSlotIndex tz now midnightNow) })) ∧
    (∀ captured s : AppState,
      (notificationResponse tz now midnightNow captured s).isSome = true ∧
      (¬ (0 ≤ getCurrentSlotIndex tz now midnightNow ∧
          getCurrentSlotIndex tz now midnightNow < (captured.timeSlots.length : Int)) →
        notificationResponse tz now midnightNow captured s = some s)) := by
  refine ⟨?_, fun s => ⟨?_, ?_⟩, fun captured s => ⟨?_, ?_⟩⟩
  · simp only [getCurrentSlotIndex, INTERVAL_MINUTES]
    omega
  · by_cases hg : 0 ≤ getCurrentSlotIndex tz now midnightNow ∧
        getCurrentSlotIndex tz now midnightNow < (s.timeSlots.length : Int)
    · obtain ⟨slot, hslot⟩ := some_of_lt s.timeSlots _ hg.1 hg.2
      rw [checkCurrentSlot_in_range tz now midnightNow s slot hg.1 hg.2 hslot]
      split_ifs <;> rfl
    · simp only [checkCurrentSlot, ge_iff_le, if_neg hg, Option.isSome_some]
  · intro hg
    simp only [checkCurrentSlot, ge_iff_le, if_neg hg]
  · by_cases hg : 0 ≤ getCurrentSlotIndex tz now midnightNow ∧
        getCurrentSlotIndex tz now midnightNow < (captured.timeSlots.length : Int)
    · obtain ⟨slot, hslot⟩ := some_of_lt captured.timeSlots _ hg.1 hg.2
      simp only [notificationResponse, ge_iff_le, if_pos hg, hslot]
      split_ifs <;> rfl
    · simp only [notificationResponse, ge_iff_le, if_neg hg, Option.isSome_some]
  · intro hg
    simp only [notificationResponse, ge_iff_le, if_neg hg]

/-! ### C25: the current slot is the only slot classified as current -/

/-- C25: for a timeline with the start times that `generateTimeSlots` gave it at
the readings `g` and `gEnd`, and an instant `now` of that same day, the index returned by
`getCurrentSlotIndex` is in range and `getSlotStatus` returns current for the
slot at that index and for no other; every slot before it is filled or empty
and every slot after it is future. -/
theorem getSlotStatus_current_unique (tz : TimeZone) (g gEnd now midnightNow : Int)
    (timeSlots : List TimeSlot)
    (hm : timeSlots.map (fun slot => slot.time) =
      (generateTimeSlots tz g gEnd).map (fun slot => slot.time))
    (hd : getMidnightToday tz midnightNow = getMidnightToday tz g)
    (h0 : getMidnightToday tz g ≤ now) (h1 : now < getMidnightTomorrow tz gEnd) :
    0 ≤ getCurrentSlotIndex tz now midnightNow ∧
    (getCurrentSlotIndex tz now midnightNow).toNat < timeSlots.length ∧
    ∀ (i : Nat) (hi : i < timeSlots.length),
      (getSlotStatus timeSlots[i] now = .current ↔ i = (getCurrentSlotIndex tz now midnightNow).toNat) ∧
      (i < (getCurrentSlotIndex tz now midnightNow).toNat →
        getSlotStatus timeSlots[i] now = .filled ∨ getSlotStatus timeSlots[i] now = .empty) ∧
      ((getCurrentSlotIndex tz now midnightNow).toNat < i → getSlotStatus timeSlots[i] now = .future) := by
  have hlen : timeSlots.length =
      slotCount (getMidnightTomorrow tz gEnd) (getMidnightToday tz g) := by
    have := congrArg List.length hm
    simpa [generateTimeSlots_length] using this
  have hidx : getCurrentSlotIndex tz now midnightNow = (now - getMidnightToday tz g) / (60 * 1000) / 15 := by
    simp only [getCurrentSlotIndex, INTERVAL_MINUTES, hd]
  simp only [slotCount, slotMs, INTERVAL_MINUTES] at hlen
  refine ⟨by rw [hidx]; omega, by rw [hidx, hlen]; omega, fun i hi => ?_⟩
  have ht := times_getElem timeSlots tz g gEnd hm i hi
  simp only [slotMs, INTERVAL_MINUTES] at ht
  rw [hidx]
  refine ⟨?_, ?_, ?_⟩
  · simp only [getSlotStatus, slotMs, INTERVAL_MINUTES, ht]
    constructor
    · intro h
      split_ifs at h with ha hb
      omega
    · intro h
      rw [if_neg (by omega), if_pos (by omega)]
  · intro hlt
    simp only [getSlotStatus, slotMs, INTERVAL_MINUTES, ht]
    rw [if_neg (by omega), if_neg (by omega)]
    by_cases hact : truthy timeSlots[i].activity = true
    · exact Or.inl (by rw [if_pos hact])
    · exact Or.inr (by rw [if_neg hact])
  · intro hlt
    simp only [getSlotStatus, slotMs, INTERVAL_MINUTES, ht]
    rw [if_pos (by omega)]

/-- Witness for C25: the day generated at instant 0 in the UTC zone, read at 00:16:40. -/
theorem getSlotStatus_current_unique_witness :
    getMidnightToday (TimeZone.fixed 0) 1000001 = getMidnightToday (TimeZone.fixed 0) 0 ∧
    getMidnightToday (TimeZone.fixed 0) 0 ≤ 1000000 ∧
    1000000 < getMidnightTomorrow (TimeZone.fixed 0) 500 ∧
    (getCurrentSlotIndex (TimeZone.fixed 0) 1000000 1000001).toNat = 1 ∧
    (getCurrentSlotIndex (TimeZone.fixed 0) 1000000 1000001).toNat <
      (generateTimeSlots (TimeZone.fixed 0) 0 500).length :=
  ⟨by decide, by decide, by decide, by decide,
   (getSlotStatus_current_unique (TimeZone.fixed 0) 0 500 1000000 1000001
      (generateTimeSlots (TimeZone.fixed 0) 0 500) rfl (by decide) (by decide) (by decide)).2.1⟩

/-! ### C27: totals of the summary -/

/-- C27, evaluated: for a day whose only label is `__proto__` the summary is empty,
so its counts and minutes sum to 0, while `getFilledSlotsCount` is 1; for the
label `constructor` the only entry has a text for count and no number of
minutes. -/
theorem calculateSummary_totals_inherited_names :
    calculateSummary [{ time := 0, activity := some "__proto__", isAuto := false }] = [] ∧
    getFilledSlotsCount [{ time := 0, activity := some "__proto__", isAuto := false }] = 1 ∧
    (calculateSummary [{ time := 0, activity := some "constructor", isAuto := false }]).map
        (fun entry => (entry.count, entry.minutes)) = [(.text, none)] ∧
    getFilledSlotsCount [{ time := 0, activity := some "constructor", isAuto := false }] = 1 := by
  decide

theorem calculateSummary_totals (timeSlots : List TimeSlot)
    (h : ∀ slot ∈ timeSlots, ∀ label ∈ slot.activity, label ∉ objectPrototypeKeys) :
    ((calculateSummary timeSlots).map (fun entry => entry.count.toNat)).sum =
        getFilledSlotsCount timeSlots ∧
      (∀ entry ∈ calculateSummary timeSlots, ∃ n, entry.count = .num n ∧ 1 ≤ n ∧
        entry.minutes = some ((n : Int) * 15)) ∧
      ((calculateSummary timeSlots).map (fun entry => entry.count.toNat * 15)).sum =
        15 * getFilledSlotsCount timeSlots := by
  have hp : ∀ l ∈ filledLabels timeSlots, l ∉ objectPrototypeKeys := by
    intro l hl
    obtain ⟨_, slot, hmem, hs⟩ := (mem_filledLabels timeSlots l).1 hl
    exact h slot hmem l (Option.mem_def.2 hs)
  have hperm := calculateSummary_perm timeSlots
  have hsum := sum_foldl_countActivity (filledLabels timeSlots) [] hp countsOk_nil
  have hok := (foldl_countActivity_ok (filledLabels timeSlots) [] hp countsOk_nil).1
  have hcount : ((calculateSummary timeSlots).map (fun entry => entry.count.toNat)).sum =
      getFilledSlotsCount timeSlots := by
    rw [((hperm.map (fun entry => entry.count.toNat)).sum_eq), List.map_map]
    have : ((fun entry : SummaryEntry => entry.count.toNat) ∘
        summaryEntry (timeSlots.filter (fun slot => truthy slot.activity)).length) =
        (fun kv : String × CountValue => kv.2.toNat) := rfl
    rw [this]
    have h2 := hsum
    simp only [filledLabels] at h2
    rw [h2, ← filledLabels_length]
    simp [filledLabels]
  refine ⟨hcount, ?_, ?_⟩
  · intro entry he
    obtain ⟨kv, hkv, rfl⟩ := List.mem_map.1 (hperm.mem_iff.1 he)
    obtain ⟨k, v⟩ := kv
    have hmem : ownValue ((filledLabels timeSlots).foldl countActivity []) k = some v :=
      ownValue_of_mem _ hok.1 k v hkv
    obtain ⟨n, rfl, hn⟩ := hok.2 k v hmem
    exact ⟨n, rfl, hn, rfl⟩
  · rw [← hcount, ← List.sum_map_mul_left]
    congr 1
    apply List.map_congr_left
    intro entry _
    ring

/-! ### C28: saving and loading a timeline -/

theorem mergeSaved_saved : ∀ (fresh timeSlots : List TimeSlot),
    fresh.map (fun slot => slot.time) = timeSlots.map (fun slot => slot.time) →
    (∀ slot ∈ fresh, slot.activity = none ∧ slot.isAuto = false) →
    (∀ slot ∈ timeSlots, slot.activity ≠ some "") →
    (∀ slot ∈ timeSlots, slot.activity = none → slot.isAuto = false) →
    mergeSaved fresh (timeSlots.map (fun slot =>
      ({ time := slot.time, activity := slot.activity, isAuto := slot.isAuto } : SavedSlot))) =
      timeSlots
  | [], [], _, _, _, _ => rfl
  | [], _ :: _, hm, _, _, _ => by simp at hm
  | _ :: _, [], hm, _, _, _ => by simp at hm
  | f :: fresh, t :: rest, hm, hf, he, ha => by
    simp only [List.map_cons, List.cons.injEq] at hm
    have ih := mergeSaved_saved fresh rest hm.2
      (fun slot h => hf slot (List.mem_cons_of_mem _ h))
      (fun slot h => he slot (List.mem_cons_of_mem _ h))
      (fun slot h => ha slot (List.mem_cons_of_mem _ h))
    have hf0 := hf f (List.mem_cons_self _ _)
    have he0 := he t (List.mem_cons_self _ _)
    have ha0 := ha t (List.mem_cons_self _ _)
    simp only [List.map_cons, mergeSaved, ih, List.cons.injEq, and_true]
    obtain ⟨ft, fa, fi⟩ := f
    obtain ⟨tt, ta, ti⟩ := t
    simp only at hm hf0 he0 ha0
    obtain ⟨rfl, rfl⟩ := hf0
    by_cases hact : truthy ta = true
    · simp only [hact, if_true, hm.1]
    · have hnone : ta = none := by
        by_contra hne
        exact hact ((truthy_iff ta).2 ⟨hne, he0⟩)
      subst hnone
      have := ha0 rfl
      subst this
      simp only [hact, Bool.false_eq_true, if_false, hm.1]

theorem mergeSaved_saveData (tz saveTz : TimeZone) (now endNow dateNow saveNow : Int)
    (saving loading : AppState) (timeSlots : List TimeSlot) (tracking : Bool) (date : Option Int)
    (hm : timeSlots.map (fun slot => slot.time) =
      (generateTimeSlots tz now endNow).map (fun slot => slot.time))
    (he : ∀ slot ∈ timeSlots, slot.activity ≠ some "")
    (ha : ∀ slot ∈ timeSlots, slot.activity = none → slot.isAuto = false) :
    (loadData tz now endNow dateNow
      (.found (saveData saveTz saveNow saving timeSlots tracking date)) loading).timeSlots =
      timeSlots := by
  simp only [loadData, saveData]
  exact mergeSaved_saved _ _ hm.symm (generateTimeSlots_activity tz now endNow) he ha

/-! ### Labels of the reachable states: C4, C17 and C28 -/

theorem not_blank_of_trim (text : String) (h : jsTrim text ≠ "") : ¬ isBlank (jsTrim text) := by
  intro hb
  cases hd : (jsTrim text).data with
  | nil => exact h (String.ext hd)
  | cons c rest =>
    have h1 := jsTrim_head text c (by rw [hd]; rfl)
    have h2 := hb c (by rw [hd]; exact List.mem_cons_self _ _)
    rw [h1] at h2
    exact absurd h2 (by simp)

theorem writtenLabel_not_blank (activity : String) (h : writtenLabel activity) :
    ¬ isBlank activity := by
  rcases h with h | ⟨hne, text, ht⟩
  · rw [h]
    decide
  · rw [ht] at hne ⊢
    exact not_blank_of_trim text hne

theorem noBlankLabel_generate (tz : TimeZone) (now endNow : Int) :
    noBlankLabel (generateTimeSlots tz now endNow) := by
  intro slot hs label hl
  rw [(generateTimeSlots_activity tz now endNow slot hs).1] at hl
  exact absurd hl (by simp)

theorem mergeSaved_label : ∀ (fresh : List TimeSlot) (saved : List SavedSlot) (slot : TimeSlot),
    slot ∈ mergeSaved fresh saved →
      slot ∈ fresh ∨ ∃ savedSlot ∈ saved, savedSlot.activity = slot.activity
  | [], _, slot, h => by simp [mergeSaved] at h
  | f :: rest, [], slot, h => Or.inl (by simpa [mergeSaved] using h)
  | f :: rest, savedSlot :: more, slot, h => by
    simp only [mergeSaved, List.mem_cons] at h
    rcases h with h | h
    · by_cases ht : truthy savedSlot.activity = true
      · rw [if_pos ht] at h
        exact Or.inr ⟨savedSlot, List.mem_cons_self _ _, by rw [h]⟩
      · rw [if_neg ht] at h
        exact Or.inl (by rw [h]; exact List.mem_cons_self _ _)
    · rcases mergeSaved_label rest more slot h with h2 | ⟨other, hmem, he⟩
      · exact Or.inl (List.mem_cons_of_mem _ h2)
      · exact Or.inr ⟨other, List.mem_cons_of_mem _ hmem, he⟩

theorem noBlankLabel_loadSaved (tz saveTz : TimeZone) (now endNow dateNow saveNow : Int)
    (saving s : AppState) (timeSlots : List TimeSlot) (tracking : Bool) (date : Option Int)
    (h : noBlankLabel timeSlots) :
    noBlankLabel (loadData tz now endNow dateNow
      (.found (saveData saveTz saveNow saving timeSlots tracking date)) s).timeSlots := by
  intro slot hs label hl
  simp only [loadData, saveData] at hs
  rcases mergeSaved_label _ _ slot hs with h2 | ⟨savedSlot, hmem, he⟩
  · exact noBlankLabel_generate tz now endNow slot h2 label hl
  · obtain ⟨t, ht, rfl⟩ := List.mem_map.1 hmem
    exact h t ht label (by rw [← hl, ← he])

theorem updateSlotActivity_label (timeSlots next : List TimeSlot) (slotIndex : Int)
    (activity : String) (isAuto : Bool)
    (h : (updateSlotActivity timeSlots slotIndex activity isAuto).toTimeline? = some next) :
    ∀ slot ∈ next, slot ∈ timeSlots ∨ slot.activity = some activity := by
  by_cases h0 : slotIndex < 0
  · simp only [updateSlotActivity, if_pos h0, SlotArray.toTimeline?, Option.some.injEq] at h
    intro slot hs
    rw [← h] at hs
    exact Or.inl hs
  · by_cases h1 : slotIndex.toNat < timeSlots.length
    · simp only [updateSlotActivity, if_neg h0, dif_pos h1, SlotArray.toTimeline?,
        Option.some.injEq] at h
      intro slot hs
      rw [← h] at hs
      rcases List.mem_or_eq_of_mem_set hs with h2 | h2
      · exact Or.inl h2
      · exact Or.inr (by rw [h2])
    · simp [updateSlotActivity, if_neg h0, dif_neg h1, SlotArray.toTimeline?] at h

theorem noBlankLabel_update (s next : AppState) (slotIndex : Int) (activity : String)
    (isAuto : Bool) (hl : ¬ isBlank activity) (hs : noBlankLabel s.timeSlots)
    (h : s.updateSlotActivity slotIndex activity isAuto = some next) :
    noBlankLabel next.timeSlots := by
  simp only [AppState.updateSlotActivity, Option.map_eq_some'] at h
  obtain ⟨slots, hsl, rfl⟩ := h
  intro slot hm label hlab
  rcases updateSlotActivity_label _ _ _ _ _ hsl slot hm with h2 | h2
  · exact hs slot h2 label hlab
  · rw [h2] at hlab
    rw [← Option.some.inj hlab]
    exact hl

theorem noBlankLabel_submit (s next : AppState) (hs : noBlankLabel s.timeSlots)
    (h : submitActivity s = some next) : noBlankLabel next.timeSlots := by
  simp only [submitActivity] at h
  split_ifs at h with hb
  · rw [← Option.some.inj h]
    exact hs
  · simp only [Option.map_eq_some'] at h
    obtain ⟨slots, hsl, rfl⟩ := h
    cases he : s.editingSlot with
    | none =>
      rw [he] at hsl
      simp only [Option.some.injEq] at hsl
      rw [← hsl]
      exact hs
    | some i =>
      rw [he] at hsl
      intro slot hm label hlab
      rcases updateSlotActivity_label _ _ _ _ _ hsl slot hm with h2 | h2
      · exact hs slot h2 label hlab
      · rw [h2] at hlab
        rw [← Option.some.inj hlab]
        exact not_blank_of_trim _ hb

theorem noBlankLabel_check (tz : TimeZone) (now midnightNow : Int) (s next : AppState)
    (hs : noBlankLabel s.timeSlots) (h : checkCurrentSlot tz now midnightNow s = some next) :
    noBlankLabel next.timeSlots := by
  unfold checkCurrentSlot at h
  by_cases hr : getCurrentSlotIndex tz now midnightNow ≥ 0 ∧
      getCurrentSlotIndex tz now midnightNow < (s.timeSlots.length : Int)
  · rw [if_pos hr] at h
    cases hg : s.timeSlots[(getCurrentSlotIndex tz now midnightNow).toNat]? with
    | none =>
      rw [hg] at h
      exact absurd h (by simp)
    | some slot =>
      rw [hg] at h
      by_cases hact : (!truthy slot.activity) = true
      · simp only [hact, if_true] at h
        by_cases hsleep : s.isSleepMode = true
        · rw [if_pos hsleep] at h
          exact noBlankLabel_update
            { s with currentSlotIndex := some (getCurrentSlotIndex tz now midnightNow) } next _ _ _
            (by decide) hs h
        · rw [if_neg hsleep] at h
          by_cases hprompt : (!s.showPrompt && !editingTruthy s.editingSlot) = true
          · rw [if_pos hprompt] at h
            rw [← Option.some.inj h]
            exact hs
          · rw [if_neg hprompt] at h
            rw [← Option.some.inj h]
            exact hs
      · simp only [hact, if_false] at h
        rw [← Option.some.inj h]
        exact hs
  · rw [if_neg hr] at h
    rw [← Option.some.inj h]
    exact hs

/-- No timeline the application reaches holds a blank label: fresh slots have none,
the automatic fill writes Sleeping, `submitActivity` writes trimmed text that is
not empty, and `loadData` merges labels that `saveData` wrote from such a
timeline. In particular no stored label is the empty string. -/
theorem reachable_labels (dayOk : TimeZone → Int → Int → Prop) (s : AppState)
    (h : Reachable dayOk s) : noBlankLabel s.timeSlots := by
  induction h with
  | initial =>
    intro slot hs
    simp [initialState] at hs
  | loadData tz now endNow dateNow read s _ hread _ _ =>
    rcases hread with hr | hr
    · rw [hr]
      exact noBlankLabel_generate tz now endNow
    · rw [hr]
      exact noBlankLabel_generate tz now endNow
  | loadSaved tz saveTz now endNow dateNow saveNow saving saved s tracking date _ _ _ ihSaved _ =>
    exact noBlankLabel_loadSaved tz saveTz now endNow dateNow saveNow saving s _ tracking date
      ihSaved
  | updateSlotActivity s next i a f hw _ hstep ih =>
    exact noBlankLabel_update s next i a f (writtenLabel_not_blank a hw) ih hstep
  | submitActivity s next _ hstep ih => exact noBlankLabel_submit s next ih hstep
  | checkCurrentSlot tz now midnightNow s next _ hstep ih =>
    exact noBlankLabel_check tz now midnightNow s next ih hstep
  | resetDay tz now endNow dateNow removed s _ _ ih =>
    rcases resetDay_times tz now endNow dateNow removed s with hr | hr
    · rw [hr]
      exact ih
    · rw [hr]
      exact noBlankLabel_generate tz now endNow
  | other s next _ hsame ih =>
    rw [hsame]
    exact ih

theorem reachable_no_empty_label (dayOk : TimeZone → Int → Int → Prop) (s : AppState)
    (h : Reachable dayOk s) : ∀ slot ∈ s.timeSlots, slot.activity ≠ some "" := by
  intro slot hs he
  exact reachable_labels dayOk s h slot hs "" he (by decide)

theorem sleepLoadedState_reachable : Reachable fullDay sleepLoadedState := by
  have hlen : (generateTimeSlots (TimeZone.fixed 0) 0 0).length = 96 :=
    generateTimeSlots_length_of_full_day_aux _ _ _ (by decide)
  have hlt : (0 : Int).toNat < loadedState.timeSlots.length := by
    show (0 : Int).toNat < (generateTimeSlots (TimeZone.fixed 0) 0 0).length
    rw [hlen]
    decide
  refine Reachable.updateSlotActivity loadedState sleepLoadedState 0 "Sleeping" true (Or.inl rfl)
    (Reachable.loadData _ 0 0 0 .absent initialState (by decide) (Or.inr rfl) Reachable.initial) ?_
  simp only [AppState.updateSlotActivity]
  rw [updateSlotActivity_in_range _ _ _ _ (by decide) hlt]
  have h0 : loadedState.timeSlots[(0 : Int).toNat] =
      { time := 0, activity := none, isAuto := false } :=
    (generateTimeSlots_getElem (TimeZone.fixed 0) 0 0 0 hlt).trans (by decide)
  simp only [SlotArray.toTimeline?, Option.map_some', h0]
  rfl

theorem sleepFullDay_first :
    ({ time := 0, activity := some "Sleeping", isAuto := true } : TimeSlot) ∈
      sleepLoadedState.timeSlots := by
  have hlen : (generateTimeSlots (TimeZone.fixed 0) 0 0).length = 96 :=
    generateTimeSlots_length_of_full_day_aux _ _ _ (by decide)
  exact List.mem_set _ 0 (by rw [hlen]; decide) _

/-- C4: in every state the application reaches, for every slot of the timeline
that lies wholly in the past `getSlotStatus` returns filled exactly when the
activity is non-null, and empty otherwise; and at every instant exactly one of
the four states applies to the slot, the one `getSlotStatus` returns. -/
theorem getSlotStatus_filled_iff_nonnull (dayOk : TimeZone → Int → Int → Prop) (s : AppState)
    (h : Reachable dayOk s) (slot : TimeSlot) (hs : slot ∈ s.timeSlots) (now : Int) :
    (slot.time + 15 * 60 * 1000 ≤ now →
      (getSlotStatus slot now = .filled ↔ slot.activity ≠ none) ∧
      (getSlotStatus slot now = .empty ↔ slot.activity = none)) ∧
    (∀ st : SlotStatus, statusCondition st slot now ↔ getSlotStatus slot now = st) ∧
    (∃! st : SlotStatus, statusCondition st slot now) := by
  have hne := reachable_no_empty_label dayOk s h slot hs
  obtain ⟨hpast, hall, hex⟩ := getSlotStatus_past slot now
  refine ⟨fun hp => ?_, hall, hex⟩
  obtain ⟨hf, he⟩ := hpast hp
  constructor
  · rw [hf]
    exact ⟨fun h2 => h2.1, fun h2 => ⟨h2, hne⟩⟩
  · rw [he]
    exact ⟨fun h2 => h2.resolve_right hne, Or.inl⟩

/-- Witness for C4: the first slot of the loaded day after its automatic fill, seen
one hour later. -/
theorem getSlotStatus_filled_iff_nonnull_witness :
    Reachable fullDay sleepLoadedState ∧
    ({ time := 0, activity := some "Sleeping", isAuto := true } : TimeSlot) ∈
      sleepLoadedState.timeSlots ∧
    (0 : Int) + 15 * 60 * 1000 ≤ 3600000 ∧
    (getSlotStatus { time := 0, activity := some "Sleeping", isAuto := true } 3600000 = .filled ↔
      (some "Sleeping" : Option String) ≠ none) :=
  ⟨sleepLoadedState_reachable, sleepFullDay_first, by decide,
   ((getSlotStatus_filled_iff_nonnull fullDay sleepLoadedState sleepLoadedState_reachable
      { time := 0, activity := some "Sleeping", isAuto := true } sleepFullDay_first 3600000).1
      (by decide)).1⟩

/-- C17: in every state the application reaches, a string is in the result of
`getUniqueActivities` exactly when it is the trimmed label of some slot whose
activity is non-null. -/
theorem getUniqueActivities_mem (dayOk : TimeZone → Int → Int → Prop) (s : AppState)
    (h : Reachable dayOk s) (text : String) :
    text ∈ getUniqueActivities s.timeSlots ↔
      ∃ slot ∈ s.timeSlots, ∃ label, slot.activity = some label ∧ jsTrim label = text := by
  rw [mem_getUniqueActivities]
  constructor
  · exact fun h2 => h2.2
  · rintro ⟨slot, hs, label, hl, rfl⟩
    exact ⟨jsTrim_ne_empty label (reachable_labels dayOk s h slot hs label hl),
      slot, hs, label, hl, rfl⟩

/-- Witness for C17: the loaded day after the automatic fill of its first slot. -/
theorem getUniqueActivities_mem_witness :
    Reachable fullDay sleepLoadedState ∧
      "Sleeping" ∈ getUniqueActivities sleepLoadedState.timeSlots :=
  ⟨sleepLoadedState_reachable,
   (getUniqueActivities_mem fullDay sleepLoadedState sleepLoadedState_reachable "Sleeping").2
     ⟨_, sleepFullDay_first, "Sleeping", rfl, by decide⟩⟩

/-- C28: for the timeline of a state the application reaches, with the start times
generated today, in which every slot without an activity has `isAuto` false,
loading what `saveData` stored restores the same timeline: every slot has the
same start time, activity and `isAuto` flag as before. -/
theorem saveData_loadData (dayOk : TimeZone → Int → Int → Prop) (s : AppState)
    (h : Reachable dayOk s) (tz saveTz : TimeZone) (now endNow dateNow saveNow : Int)
    (saving loading : AppState) (tracking : Bool) (date : Option Int)
    (hm : s.timeSlots.map (fun slot => slot.time) =
      (generateTimeSlots tz now endNow).map (fun slot => slot.time))
    (ha : ∀ slot ∈ s.timeSlots, slot.activity = none → slot.isAuto = false) :
    (loadData tz now endNow dateNow
      (.found (saveData saveTz saveNow saving s.timeSlots tracking date)) loading).timeSlots =
      s.timeSlots :=
  mergeSaved_saveData tz saveTz now endNow dateNow saveNow saving loading s.timeSlots tracking
    date hm (reachable_no_empty_label dayOk s h) ha

/-- Witness for C28: the loaded day of 96 slots after the automatic fill of its first
slot, saved and loaded on the same day. -/
theorem saveData_loadData_witness :
    Reachable fullDay sleepLoadedState ∧
    sleepLoadedState.timeSlots.length = 96 ∧
    (loadData (TimeZone.fixed 0) 0 0 0
      (.found (saveData (TimeZone.fixed 0) 0 sleepLoadedState sleepLoadedState.timeSlots true
        none)) initialState).timeSlots = sleepLoadedState.timeSlots :=
  have hmem : ∀ slot ∈ sleepLoadedState.timeSlots,
      slot ∈ generateTimeSlots (TimeZone.fixed 0) 0 0 ∨
        slot = { time := 0, activity := some "Sleeping", isAuto := true } :=
    fun _ h => List.mem_or_eq_of_mem_set h
  have hlen : (generateTimeSlots (TimeZone.fixed 0) 0 0).length = 96 :=
    generateTimeSlots_length_of_full_day_aux _ _ _ (by decide)
  ⟨sleepLoadedState_reachable,
   (List.length_set _ _ _).trans hlen,
   saveData_loadData fullDay sleepLoadedState sleepLoadedState_reachable (TimeZone.fixed 0)
     (TimeZone.fixed 0) 0 0 0 0 sleepLoadedState initialState true none
     (by
      show (sleepFullDay).map (fun slot => slot.time) = _
      rw [sleepFullDay, List.map_set]
      apply List.ext_getElem?
      intro i
      by_cases hi : i = 0
      · subst hi
        rw [List.getElem?_set_self (by rw [List.length_map, hlen]; decide), List.getElem?_map,
          List.getElem?_eq_getElem (by rw [hlen]; decide), generateTimeSlots_getElem]
        decide
      · rw [List.getElem?_set_ne (fun h => hi h.symm)])
     (fun slot h hnone => by
      rcases hmem slot h with h2 | h2
      · exact (generateTimeSlots_activity _ _ _ slot h2).2
      · rw [h2] at hnone
        exact absurd hnone (by decide))⟩

end FocusPing
